import Mathlib

/-!
# XInC2 bit-banged serial layer: GPIO pins, I2C master and UART

A shallow embedding of `Structs.h`, `GPIO.h`, `SXC.h`, `I2C.h` and `UART.h`.

The processor's special function registers are reached through the two
instructions `_inp` and `_outp`.  The machine state records the last value
written to each register address and the ordered trace of every register
operation and busy-wait.  A read of a GPIO level register (`GPxin`) or of the
tick counter `SCUtime` is answered by the environment, a function of the
history so far; a read of any other register returns the value last written
to it.  All words are 16 bit:
values are natural numbers reduced modulo `2^16` wherever the C code
truncates.
-/

namespace XInC2

/-! ## Machine model -/

/-- One observable operation: a register read with the value it returned, a
register write, or a busy-wait with its 16-bit argument. -/
inductive Ev where
  | inp (reg val : Nat)
  | outp (val reg : Nat)
  | wait (timeout : Nat)
  deriving DecidableEq, Repr

/-- The environment: what a read of a level register returns, given the
history of operations and the register address. -/
abbrev Env := List Ev → Nat → Nat

/-- Machine state: register file (last value written per address) and the
trace of operations, oldest first. -/
structure Hw where
  regs : Nat → Nat
  trace : List Ev

/-- Words are 16 bit. -/
def u16 (n : Nat) : Nat := n % 65536

/-- Bitwise complement of a 16-bit word. -/
def not16 (n : Nat) : Nat := 65535 ^^^ u16 n

/-! ## register_consts.h and GPIO.h -/

inductive GPIO_port_name where
  | GPIO_A | GPIO_B | GPIO_C | GPIO_D | GPIO_E
  | GPIO_F | GPIO_G | GPIO_H | GPIO_I | GPIO_J
  deriving DecidableEq, Repr

open GPIO_port_name

/-- Address of the level register of a port (`GPxin`, equal to `GPxout`). -/
def gpio_get_input_reg : GPIO_port_name → Nat
  | GPIO_A => 0x20 | GPIO_B => 0x22 | GPIO_C => 0x24 | GPIO_D => 0x26
  | GPIO_E => 0x28 | GPIO_F => 0x2A | GPIO_G => 0x2C | GPIO_H => 0x2E
  | GPIO_I => 0x30 | GPIO_J => 0x32

/-- Address of the output register of a port (`GPxout`). -/
def gpio_get_output_reg : GPIO_port_name → Nat
  | GPIO_A => 0x20 | GPIO_B => 0x22 | GPIO_C => 0x24 | GPIO_D => 0x26
  | GPIO_E => 0x28 | GPIO_F => 0x2A | GPIO_G => 0x2C | GPIO_H => 0x2E
  | GPIO_I => 0x30 | GPIO_J => 0x32

/-- Address of the configuration (direction) register of a port (`GPxcfg`). -/
def gpio_get_config_reg : GPIO_port_name → Nat
  | GPIO_A => 0x21 | GPIO_B => 0x23 | GPIO_C => 0x25 | GPIO_D => 0x27
  | GPIO_E => 0x29 | GPIO_F => 0x2B | GPIO_G => 0x2D | GPIO_H => 0x2F
  | GPIO_I => 0x31 | GPIO_J => 0x33

/-- The level registers `GPAin .. GPJin`: even addresses `0x20 .. 0x32`. -/
def isLevelReg (reg : Nat) : Bool := 0x20 ≤ reg && reg ≤ 0x32 && reg % 2 == 0

/-- The registers whose reads are answered by the environment: the GPIO level
registers and the free-running tick counter `SCUtime` (address `0x03`). -/
def isEnvReg (reg : Nat) : Bool := isLevelReg reg || reg == 0x03

/-- Instruction `inp`: read a register.  Level registers and the tick counter
are answered by the environment, every other register returns the value last
written. -/
def _inp (E : Env) (reg : Nat) (s : Hw) : Nat × Hw :=
  let v := u16 (if isEnvReg reg then E s.trace reg else s.regs reg)
  (v, { s with trace := s.trace ++ [Ev.inp reg v] })

/-- Instruction `outp`: write a 16-bit value to a register. -/
def _outp (val reg : Nat) (s : Hw) : Hw :=
  { regs := fun r => if r = reg then u16 val else s.regs r
    trace := s.trace ++ [Ev.outp (u16 val) reg] }

/-- Instruction `rol`: 16-bit rotate left of `a` by `b` places. -/
def _rol (a b : Nat) : Nat :=
  u16 ((u16 a <<< (b % 16)) ||| (u16 a >>> (16 - b % 16)))

/-- The busy-wait of `SXC.h`, recorded in the trace with its 16-bit argument. -/
def internal_busy_wait (timeout : Nat) (s : Hw) : Hw :=
  { s with trace := s.trace ++ [Ev.wait (u16 timeout)] }

def gpio_set_config (cfg : Nat) (port : GPIO_port_name) (s : Hw) : Hw :=
  _outp cfg (gpio_get_config_reg port) s

def gpio_get_config (E : Env) (port : GPIO_port_name) (s : Hw) : Nat × Hw :=
  _inp E (gpio_get_config_reg port) s

def gpio_read (E : Env) (port : GPIO_port_name) (s : Hw) : Nat × Hw :=
  _inp E (gpio_get_input_reg port) s

def gpio_write (input : Nat) (port : GPIO_port_name) (s : Hw) : Hw :=
  _outp input (gpio_get_output_reg port) s

/-! ## Structs.h -/

inductive PinLogicState where
  | ON | OFF
  deriving DecidableEq, Repr

inductive GlobalPin_dir where
  | PinDir_Input | PinDir_Output
  deriving DecidableEq, Repr

inductive Pin_Polarity where
  | Polar_ActiveHigh | Polar_ActiveLow
  deriving DecidableEq, Repr

open PinLogicState GlobalPin_dir Pin_Polarity

/-- A pin descriptor.  `io_port` is the numeric value of the `io_port_name`
enumerator; `pin_bitmask` is a 16-bit word. -/
structure GlobalPin where
  port : GPIO_port_name
  io_port : Nat
  pin_bitmask : Nat
  polar : Pin_Polarity
  deriving DecidableEq, Repr

def kRawWriteSysTicks : Nat := 3 <<< 3
def kRawReadSysTicks : Nat := 2 <<< 3

def globalPin_set_dir (E : Env) (dir : GlobalPin_dir) (glo_pin : GlobalPin) (s : Hw) : Hw :=
  let (curr_conf, s1) := gpio_get_config E glo_pin.port s
  match dir with
  | PinDir_Input =>
    gpio_set_config (curr_conf &&& not16 (u16 glo_pin.pin_bitmask <<< 8)) glo_pin.port s1
  | PinDir_Output =>
    gpio_set_config (curr_conf ||| u16 (u16 glo_pin.pin_bitmask <<< 8)) glo_pin.port s1

def globalPin_read (E : Env) (glo_pin : GlobalPin) (s : Hw) : PinLogicState × Hw :=
  let (v, s1) := gpio_read E glo_pin.port s
  if glo_pin.polar = Polar_ActiveHigh then
    (if v &&& u16 glo_pin.pin_bitmask ≠ 0 then ON else OFF, s1)
  else
    (if v &&& u16 glo_pin.pin_bitmask = 0 then ON else OFF, s1)

def globalPin_read_raw (E : Env) (glo_pin : GlobalPin) (s : Hw) : Nat × Hw :=
  let (v, s1) := gpio_read E glo_pin.port s
  (if v &&& u16 glo_pin.pin_bitmask ≠ 0 then 1 else 0, s1)

def globalPin_write_raw (E : Env) (input : Nat) (glo_pin : GlobalPin) (s : Hw) : Hw :=
  let (v, s1) := gpio_read E glo_pin.port s
  if u16 input ≠ 0 then
    gpio_write (v ||| u16 glo_pin.pin_bitmask) glo_pin.port s1
  else
    gpio_write (v &&& not16 glo_pin.pin_bitmask) glo_pin.port s1

def globalPin_write (E : Env) (input : PinLogicState) (glo_pin : GlobalPin) (s : Hw) : Hw :=
  let or_pins : Bool :=
    (input = ON && glo_pin.polar = Polar_ActiveHigh) ||
    (input = OFF && glo_pin.polar = Polar_ActiveLow)
  let (v, s1) := gpio_read E glo_pin.port s
  if or_pins then
    gpio_write (v ||| u16 glo_pin.pin_bitmask) glo_pin.port s1
  else
    gpio_write (v &&& not16 glo_pin.pin_bitmask) glo_pin.port s1

/-- The 16-bit difference `a - b` as the C code computes its delay arguments. -/
def sub16 (a b : Nat) : Nat := u16 (u16 a + 65536 - u16 b)

/-- The loop `while(!globalPin_read_raw(pin));`: poll until the pin reads raw
high.  `fuel` bounds the number of polls; `none` when it runs out. -/
def wait_until_high (E : Env) (pin : GlobalPin) : Nat → Hw → Option Hw
  | 0, _ => none
  | fuel + 1, s =>
    let (v, s1) := globalPin_read_raw E pin s
    if v ≠ 0 then some s1 else wait_until_high E pin fuel s1

/-- The loop `while(globalPin_read_raw(pin));`: poll until the pin reads raw
low. -/
def wait_until_low (E : Env) (pin : GlobalPin) : Nat → Hw → Option Hw
  | 0, _ => none
  | fuel + 1, s =>
    let (v, s1) := globalPin_read_raw E pin s
    if v ≠ 0 then wait_until_low E pin fuel s1 else some s1

/-! ## I2C.h -/

structure I2C_Pin_Pair where
  sda : GlobalPin
  scl : GlobalPin
  addr : Nat
  timeout : Nat
  deriving DecidableEq, Repr

def i2c_init (E : Env) (pins : I2C_Pin_Pair) (s : Hw) : Hw :=
  let s := globalPin_set_dir E PinDir_Input pins.scl s
  globalPin_set_dir E PinDir_Input pins.sda s

def i2c_write_start (E : Env) (fuel : Nat) (pins : I2C_Pin_Pair) (s : Hw) : Option Hw := do
  let s ← wait_until_high E pins.scl fuel s
  let s := globalPin_set_dir E PinDir_Output pins.sda s
  let s := globalPin_write_raw E 0 pins.sda s
  let s := internal_busy_wait (sub16 (2 * pins.timeout) kRawWriteSysTicks) s
  let s := globalPin_set_dir E PinDir_Output pins.scl s
  let s := globalPin_write_raw E 0 pins.scl s
  let s := internal_busy_wait (sub16 pins.timeout kRawWriteSysTicks) s
  some (globalPin_set_dir E PinDir_Input pins.sda s)

def i2c_write_stop (E : Env) (pins : I2C_Pin_Pair) (s : Hw) : Hw :=
  let s := globalPin_set_dir E PinDir_Output pins.sda s
  let s := globalPin_set_dir E PinDir_Output pins.scl s
  let s := globalPin_write_raw E 0 pins.sda s
  let s := globalPin_write_raw E 0 pins.scl s
  let s := internal_busy_wait (sub16 pins.timeout kRawWriteSysTicks) s
  let s := globalPin_set_dir E PinDir_Input pins.scl s
  let s := internal_busy_wait (sub16 (2 * pins.timeout) kRawWriteSysTicks) s
  globalPin_set_dir E PinDir_Input pins.sda s

/-- Body of the bit loop of `i2c_write_byte` for loop index `i`. -/
def i2c_write_bit (E : Env) (byte : Nat) (pins : I2C_Pin_Pair) (s : Hw) (i : Nat) : Hw :=
  let s :=
    if _rol 1 i &&& u16 byte ≠ 0 then
      globalPin_set_dir E PinDir_Input pins.sda s
    else
      globalPin_write_raw E 0 pins.sda (globalPin_set_dir E PinDir_Output pins.sda s)
  let s := internal_busy_wait (sub16 pins.timeout kRawWriteSysTicks) s
  let s := globalPin_set_dir E PinDir_Input pins.scl s
  let s := internal_busy_wait (sub16 (2 * pins.timeout) kRawWriteSysTicks) s
  let s := globalPin_set_dir E PinDir_Output pins.scl s
  globalPin_write_raw E 0 pins.scl s

def i2c_write_byte (E : Env) (fuel : Nat) (byte : Nat) (pins : I2C_Pin_Pair) (s : Hw) :
    Option (Nat × Hw) := do
  let s := [7, 6, 5, 4, 3, 2, 1, 0].foldl (i2c_write_bit E byte pins) s
  let s := globalPin_set_dir E PinDir_Input pins.sda s
  let s := internal_busy_wait (sub16 pins.timeout kRawWriteSysTicks) s
  let s := globalPin_set_dir E PinDir_Input pins.scl s
  let s := internal_busy_wait (sub16 pins.timeout kRawWriteSysTicks) s
  let s ← wait_until_high E pins.scl fuel s
  let (v, s) := globalPin_read_raw E pins.sda s
  let retVal := if v = 0 then 1 else 0
  let s := internal_busy_wait (sub16 pins.timeout kRawReadSysTicks) s
  let s := globalPin_set_dir E PinDir_Output pins.scl s
  let s := globalPin_write_raw E 0 pins.scl s
  let s := internal_busy_wait (sub16 pins.timeout kRawWriteSysTicks) s
  some (retVal, s)

/-- Body of the bit loop of `i2c_read_byte`; the loop index is not used. -/
def i2c_read_bit (E : Env) (fuel : Nat) (pins : I2C_Pin_Pair) (acc : Nat × Hw) (_i : Nat) :
    Option (Nat × Hw) := do
  let (byte, s) := acc
  let s := globalPin_set_dir E PinDir_Input pins.scl s
  let s ← wait_until_high E pins.scl fuel s
  let s := internal_busy_wait (sub16 pins.timeout kRawReadSysTicks) s
  let (v, s) := globalPin_read_raw E pins.sda s
  let byte := u16 (byte + (byte + v))
  let s := globalPin_set_dir E PinDir_Output pins.scl s
  let s := globalPin_write_raw E 0 pins.scl s
  let s := internal_busy_wait (sub16 pins.timeout kRawReadSysTicks) s
  some (byte, s)

def i2c_read_byte (E : Env) (fuel : Nat) (nack : Nat) (pins : I2C_Pin_Pair) (s : Hw) :
    Option (Nat × Hw) := do
  let (byte, s) ← [7, 6, 5, 4, 3, 2, 1, 0].foldlM (i2c_read_bit E fuel pins) (0, s)
  let s :=
    if u16 nack ≠ 0 then
      globalPin_set_dir E PinDir_Input pins.sda s
    else
      globalPin_write_raw E 0 pins.sda (globalPin_set_dir E PinDir_Output pins.sda s)
  let s := internal_busy_wait (sub16 pins.timeout kRawWriteSysTicks) s
  let s := globalPin_set_dir E PinDir_Input pins.scl s
  let s := internal_busy_wait (sub16 pins.timeout kRawWriteSysTicks) s
  let s ← wait_until_high E pins.scl fuel s
  let s := internal_busy_wait (sub16 pins.timeout kRawWriteSysTicks) s
  let s := globalPin_set_dir E PinDir_Output pins.scl s
  let s := globalPin_write_raw E 0 pins.scl s
  let s := internal_busy_wait (sub16 pins.timeout kRawWriteSysTicks) s
  let s := globalPin_set_dir E PinDir_Input pins.sda s
  some (byte, s)

def i2c_write_to_addr (E : Env) (fuel : Nat) (dest_addr byte : Nat) (pins : I2C_Pin_Pair)
    (s : Hw) : Option (Nat × Hw) := do
  let s ← i2c_write_start E fuel pins s
  let (a1, s) ← i2c_write_byte E fuel dest_addr pins s
  if a1 = 0 then some (0, i2c_init E pins s) else
  let (a2, s) ← i2c_write_byte E fuel byte pins s
  if a2 = 0 then some (0, i2c_init E pins s) else
  some (1, i2c_write_stop E pins s)

def i2c_write_to_register (E : Env) (fuel : Nat) (dest_addr dest_reg byte : Nat)
    (pins : I2C_Pin_Pair) (s : Hw) : Option (Nat × Hw) := do
  let s ← i2c_write_start E fuel pins s
  let (a1, s) ← i2c_write_byte E fuel dest_addr pins s
  if a1 = 0 then some (0, i2c_init E pins s) else
  let (a2, s) ← i2c_write_byte E fuel dest_reg pins s
  if a2 = 0 then some (0, i2c_init E pins s) else
  let (a3, s) ← i2c_write_byte E fuel byte pins s
  if a3 = 0 then some (0, i2c_init E pins s) else
  some (1, i2c_write_stop E pins s)

/-- The loop `for (i = 0; i < len; i++) if (!i2c_write_byte(buf[i], pins)) goto Abort;`
started at index `i` with `n = len - i` iterations left.  The Boolean is
`false` when the loop left through `goto Abort`. -/
def i2c_write_buf_loop (E : Env) (fuel : Nat) (buf : Nat → Nat) (pins : I2C_Pin_Pair) :
    Nat → Nat → Hw → Option (Bool × Hw)
  | _, 0, s => some (true, s)
  | i, n + 1, s =>
    match i2c_write_byte E fuel (buf i) pins s with
    | none => none
    | some (a, s1) =>
      if a = 0 then some (false, s1) else i2c_write_buf_loop E fuel buf pins (i + 1) n s1

/-- The buffer `buf` is the memory reached through the pointer: `buf i` is
the word `buf[i]`. -/
def i2c_write_buf_to_register (E : Env) (fuel : Nat) (dest_addr dest_reg : Nat)
    (buf : Nat → Nat) (len : Nat) (pins : I2C_Pin_Pair) (s : Hw) : Option (Nat × Hw) := do
  let s ← i2c_write_start E fuel pins s
  let (a1, s) ← i2c_write_byte E fuel dest_addr pins s
  if a1 = 0 then some (0, i2c_init E pins s) else
  let (a2, s) ← i2c_write_byte E fuel dest_reg pins s
  if a2 = 0 then some (0, i2c_init E pins s) else
  let (ok, s) ← i2c_write_buf_loop E fuel buf pins 0 len s
  if ok then some (1, i2c_write_stop E pins s) else some (0, i2c_init E pins s)

/-! ## UART.h -/

structure UART_Pin_Pair where
  rx : GlobalPin
  tx : GlobalPin
  period : Nat
  deriving DecidableEq, Repr

/-- Body of the bit loop of `uart_write_byte` for loop index `i`. -/
def uart_write_bit (E : Env) (byte : Nat) (pins : UART_Pin_Pair) (s : Hw) (i : Nat) : Hw :=
  let s :=
    if _rol 1 i &&& u16 byte ≠ 0 then globalPin_write_raw E 1 pins.tx s
    else globalPin_write_raw E 0 pins.tx s
  internal_busy_wait (sub16 pins.period kRawWriteSysTicks) s

def uart_write_byte (E : Env) (byte : Nat) (pins : UART_Pin_Pair) (s : Hw) : Hw :=
  let s := globalPin_write_raw E 0 pins.tx s
  let s := internal_busy_wait (sub16 pins.period kRawWriteSysTicks) s
  let s := [0, 1, 2, 3, 4, 5, 6, 7].foldl (uart_write_bit E byte pins) s
  let s := globalPin_write_raw E 1 pins.tx s
  internal_busy_wait (sub16 pins.period kRawWriteSysTicks) s

/-- Body of the bit loop of `uart_read_byte` for loop index `i`. -/
def uart_read_bit (E : Env) (pins : UART_Pin_Pair) (acc : Nat × Hw) (i : Nat) : Nat × Hw :=
  let (byte, s) := acc
  let (v, s) := globalPin_read_raw E pins.rx s
  let byte := u16 (byte + _rol v i)
  (byte, internal_busy_wait (sub16 pins.period kRawReadSysTicks) s)

def uart_read_byte (E : Env) (fuel : Nat) (pins : UART_Pin_Pair) (s : Hw) :
    Option (Nat × Hw) := do
  let s ← wait_until_low E pins.rx fuel s
  let s := internal_busy_wait (sub16 pins.period kRawReadSysTicks) s
  let (byte, s) := [0, 1, 2, 3, 4, 5, 6, 7].foldl (uart_read_bit E pins) (0, s)
  let s ← wait_until_high E pins.rx fuel s
  some (byte, s)

def uart_write_buf (E : Env) (buf : Nat → Nat) (len : Nat) (pins : UART_Pin_Pair) (s : Hw) :
    Hw :=
  (List.range len).foldl (fun s i => uart_write_byte E (buf i) pins s) s

/-! ## SXC.h: the loop of `internal_busy_wait` -/

/-- The counting loop `sub r1, r1, 1; bc NE, @-1` of `internal_busy_wait`: the
16-bit counter is decremented first and the loop repeats while the result is
not zero.  Returns the number of iterations made, starting the count at
`done`; `fuel` bounds the iterations. -/
def busy_wait_loop : Nat → Nat → Nat → Option Nat
  | 0, _, _ => none
  | fuel + 1, counter, done =>
    let c := u16 (counter + 65535)
    if c ≠ 0 then busy_wait_loop fuel c (done + 1) else some (done + 1)

/-- Number of loop iterations of `internal_busy_wait(timeout)`: the counter is
loaded with `timeout >> 4`. -/
def busy_wait_iterations (timeout : Nat) : Option Nat :=
  busy_wait_loop 65536 (u16 timeout >>> 4) 0

/-! ## SystemClock.h -/

/-- Address of the tick counter register. -/
def SCUtime : Nat := 0x03

def sys_clock_get_scu_time (E : Env) (s : Hw) : Nat × Hw := _inp E SCUtime s

/-- The loop `while (delta < 0) delta = (int16_t)(sys_clock_get_scu_time() - end_time);`
entered with `delta = -1`: read the counter, and leave when the 16-bit
difference, read as a signed 16-bit number, is not negative. -/
def sys_clock_wait_loop (E : Env) (end_time : Nat) : Nat → Hw → Option Hw
  | 0, _ => none
  | fuel + 1, s =>
    let (t, s1) := sys_clock_get_scu_time E s
    let diff := sub16 t end_time
    let delta : Int := if diff < 32768 then (diff : Int) else (diff : Int) - 65536
    if delta < 0 then sys_clock_wait_loop E end_time fuel s1 else some s1

def sys_clock_wait (E : Env) (fuel : Nat) (duration : Nat) (s : Hw) : Option Hw :=
  let (t0, s1) := sys_clock_get_scu_time E s
  let end_time := u16 (t0 + u16 duration)
  sys_clock_wait_loop E end_time fuel s1

/-! ## The pin descriptors defined in the repository -/

/-- Descriptor `kInternalChipSelect` of `EEPROM.h`: `{ GPIO_B, io_PB0, 0x1,
Polar_ActiveLow }` (`io_PB0` is 1). -/
def kInternalChipSelect : GlobalPin :=
  { port := GPIO_B, io_port := 1, pin_bitmask := 0x1, polar := Polar_ActiveLow }

/-- Descriptor `pin1` of `uart_self.h`: `{GPIO_C, io_PC0, 0x24, Polar_ActiveLow}`
(`io_PC0` is 4). -/
def pin1 : GlobalPin :=
  { port := GPIO_C, io_port := 4, pin_bitmask := 0x24, polar := Polar_ActiveLow }

/-- Descriptor `pin2` of `uart_self.h`: `{GPIO_C, io_PC1, 0x24, Polar_ActiveLow}`
(`io_PC1` is 5). -/
def pin2 : GlobalPin :=
  { port := GPIO_C, io_port := 5, pin_bitmask := 0x24, polar := Polar_ActiveLow }

/-- The pair `Cport` of `uart_self.h`: `{pin1, pin2, 9600}`. -/
def Cport : UART_Pin_Pair := { rx := pin1, tx := pin2, period := 9600 }

/-! ## Observers on traces -/

/-- The raw levels written to a pin: for every write to the output register
of the pin's port, in order, `1` when the pin's bit is set in the written
word and `0` otherwise. -/
def raw_writes (pin : GlobalPin) (tr : List Ev) : List Nat :=
  tr.filterMap fun e =>
    match e with
    | Ev.outp val reg =>
      if reg = gpio_get_output_reg pin.port then
        some (if val &&& u16 pin.pin_bitmask ≠ 0 then 1 else 0)
      else none
    | _ => none

/-- Number of reads of register `reg` in a trace. -/
def reads_of (reg : Nat) (tr : List Ev) : Nat :=
  tr.countP fun e =>
    match e with
    | Ev.inp r _ => r == reg
    | _ => false

/-- The raw level the environment presents on a pin after history `h`. -/
def raw_level (E : Env) (pin : GlobalPin) (h : List Ev) : Nat :=
  if u16 (E h (gpio_get_input_reg pin.port)) &&& u16 pin.pin_bitmask ≠ 0 then 1 else 0

/-- Initial state with all registers zero and an empty trace. -/
def hw0 : Hw := { regs := fun _ => 0, trace := [] }

/-- The ten levels of the frame of byte `b`: start bit, bits 0..7, stop bit. -/
def uart_frame (b : Nat) : List Nat :=
  0 :: ([0, 1, 2, 3, 4, 5, 6, 7].map fun i => if _rol 1 i &&& u16 b ≠ 0 then 1 else 0) ++ [1]

/-- The value `uart_read_byte` accumulates from the eight samples that follow
the start bit in the level sequence `L`. -/
def uart_accum (L : List Nat) : Nat :=
  [0, 1, 2, 3, 4, 5, 6, 7].foldl (fun acc i => u16 (acc + _rol (L.getD (i + 1) 1) i)) 0

/-- A loopback pair on port A: RX on bit 0, TX on bit 1, period 100 ticks. -/
def uartLoop : UART_Pin_Pair :=
  { rx := { port := GPIO_A, io_port := 0, pin_bitmask := 1, polar := Polar_ActiveHigh }
    tx := { port := GPIO_A, io_port := 0, pin_bitmask := 2, polar := Polar_ActiveHigh }
    period := 100 }

/-- The RX line of `uartLoop` replaying the frame of byte `0xA5`: the word
read has bit 0 set exactly when the frame level is 1. -/
def uartLoopEnv : Env :=
  fun h _ => if (uart_frame 0xA5).getD (reads_of 0x20 h) 1 = 0 then 0 else 1

/-! ## Observers on the two-wire bus -/

/-- A well-formed pin: exactly one bit of the mask is set, among the eight
pins of a port. -/
def pin_ok (p : GlobalPin) : Prop := ∃ k, k < 8 ∧ p.pin_bitmask = 2 ^ k

/-- Two descriptors name different physical pins. -/
def pins_distinct (p q : GlobalPin) : Prop := p.port ≠ q.port ∨ p.pin_bitmask ≠ q.pin_bitmask

/-- The direction bit of the pin is set in its port's configuration register:
the pin is an Output. -/
def is_output (regs : Nat → Nat) (p : GlobalPin) : Bool :=
  u16 (regs (gpio_get_config_reg p.port)) &&& u16 (u16 p.pin_bitmask <<< 8) != 0

/-- The pin's bit in its port's output register. -/
def out_level (regs : Nat → Nat) (p : GlobalPin) : Bool :=
  u16 (regs (gpio_get_output_reg p.port)) &&& u16 p.pin_bitmask != 0

/-- What the master puts on a line: `1` released (Input, pulled up), `0`
Output driven low, `2` Output driven high. -/
def line (regs : Nat → Nat) (p : GlobalPin) : Nat :=
  if is_output regs p then (if out_level regs p then 2 else 0) else 1

/-- Register file after one event. -/
def apply_ev (regs : Nat → Nat) : Ev → (Nat → Nat)
  | Ev.outp v r => fun x => if x = r then v else regs x
  | _ => regs

/-- Register file after a list of events. -/
def replay (regs : Nat → Nat) (tr : List Ev) : Nat → Nat := tr.foldl apply_ev regs

/-- What a bus analyser sees: a clock pulse (SCL released) with the state of
SDA at that moment, a START (SDA switched to Output while SCL is released) or
a STOP (SDA released while SCL is released). -/
inductive BusEv where
  | clk (sda : Nat)
  | start
  | stop
  deriving DecidableEq, Repr

/-- Bus events caused by a change of the register file from `regs` to `regs2`. -/
def bus_step (pins : I2C_Pin_Pair) (regs regs2 : Nat → Nat) : List BusEv :=
  (if is_output regs pins.scl && !is_output regs2 pins.scl then [BusEv.clk (line regs2 pins.sda)]
    else []) ++
  (if !is_output regs pins.scl && !is_output regs2 pins.scl &&
      !is_output regs pins.sda && is_output regs2 pins.sda then [BusEv.start] else []) ++
  (if !is_output regs pins.scl && !is_output regs2 pins.scl &&
      is_output regs pins.sda && !is_output regs2 pins.sda then [BusEv.stop] else [])

/-- Bus events of a trace replayed from the register file `regs`. -/
def bus_trace (pins : I2C_Pin_Pair) : (Nat → Nat) → List Ev → List BusEv
  | _, [] => []
  | regs, e :: tr => bus_step pins regs (apply_ev regs e) ++ bus_trace pins (apply_ev regs e) tr

/-- State `s2` is reached from `s` by performing exactly the events `X`. -/
def Run (s s2 : Hw) (X : List Ev) : Prop :=
  s2.trace = s.trace ++ X ∧ s2.regs = replay s.regs X

/-- State `s2` is reached from `s` by a run of events whose bus events,
replayed from the registers of `s`, are `B`. -/
def Eff (pins : I2C_Pin_Pair) (s s2 : Hw) (B : List BusEv) : Prop :=
  ∃ X, Run s s2 X ∧ bus_trace pins s.regs X = B

/-- A well-formed pin pair: two well-formed descriptors of different pins. -/
def pins_ok (pins : I2C_Pin_Pair) : Prop :=
  pin_ok pins.sda ∧ pin_ok pins.scl ∧ pins_distinct pins.sda pins.scl

/-- Bit `i` of the word `w`, as tested by `_rol(1, i) & w`. -/
def bit_of (w i : Nat) : Nat := if _rol 1 i &&& u16 w ≠ 0 then 1 else 0

/-- The eight bits of the low byte of `w`, most significant first. -/
def bits_msb (w : Nat) : List Nat := [7, 6, 5, 4, 3, 2, 1, 0].map (bit_of w)

/-- Summary of a run from `s` to `t`: its bus events are `B`, and in `t` the
direction of SCL is `o` (`true` for Output) and the state of the SDA line is
`l`. -/
def St (pins : I2C_Pin_Pair) (s t : Hw) (B : List BusEv) (o : Bool) (l : Nat) : Prop :=
  Eff pins s t B ∧ is_output t.regs pins.scl = o ∧ line t.regs pins.sda = l

/-- An I2C pair on port A: SDA on bit 0, SCL on bit 1. -/
def i2cPins : I2C_Pin_Pair :=
  { sda := { port := GPIO_A, io_port := 0, pin_bitmask := 1, polar := Polar_ActiveHigh }
    scl := { port := GPIO_A, io_port := 0, pin_bitmask := 2, polar := Polar_ActiveHigh }
    addr := 0x50
    timeout := 100 }

/-- A state in which `i2cPins.scl` is an Output and nothing has happened yet. -/
def hwSclOut : Hw := { regs := fun r => if r = 0x21 then 0x200 else 0, trace := [] }

/-- A slave that holds SDA low at every read (it ACKs everything) and never
stretches the clock: every read of port A returns SCL high, SDA low. -/
def ackEnv : Env := fun _ _ => 2

/-- A slave that never pulls SDA low and never stretches the clock. -/
def nackEnv : Env := fun _ _ => 3

/-- Number of clock pulses among bus events. -/
def nclk (B : List BusEv) : Nat :=
  B.countP fun e => match e with | BusEv.clk _ => true | _ => false

/-- The slave's answer to byte `k` (counted from 0) of the transaction that
starts in state `s`: whenever the bus has seen `9 * (k + 1)` clock pulses
since `s`, a read of SDA shows raw 0 if `ack` (the slave pulls the line low)
and raw 1 otherwise. -/
def slave_resp (E : Env) (pins : I2C_Pin_Pair) (s : Hw) (k : Nat) (ack : Bool) : Prop :=
  ∀ X, nclk (bus_trace pins s.regs X) = 9 * (k + 1) →
    raw_level E pins.sda (s.trace ++ X) = if ack then 0 else 1

/-- Bus events of one byte: eight data bits, most significant first, and the
ninth pulse with SDA released for the slave's answer. -/
def frame (w : Nat) : List BusEv := (bits_msb w).map BusEv.clk ++ [BusEv.clk 1]

/-- Bus events of a sequence of bytes. -/
def frames : List Nat → List BusEv
  | [] => []
  | w :: ws => frame w ++ frames ws

/-- Whether the `n` bytes numbered `k, k + 1, ...` are all ACKed. -/
def all_acked (resp : Nat → Bool) : Nat → Nat → Bool
  | _, 0 => true
  | k, n + 1 => resp k && all_acked resp (k + 1) n

/-- How many of the `n` bytes numbered `k, k + 1, ...` are clocked out: all
of them, or those up to and including the first that is not ACKed. -/
def nsent (resp : Nat → Bool) : Nat → Nat → Nat
  | _, 0 => 0
  | k, n + 1 => if resp k then 1 + nsent resp (k + 1) n else 1

/-- Writing a list of bytes, leaving at the first missing ACK: the common
shape of the byte writes of the three transaction functions.  The Boolean is
`false` when a byte was not ACKed. -/
def write_seq (E : Env) (fuel : Nat) (pins : I2C_Pin_Pair) : List Nat → Hw → Option (Bool × Hw)
  | [], s => some (true, s)
  | w :: ws, s =>
    match i2c_write_byte E fuel w pins s with
    | none => none
    | some (a, s1) => if a = 0 then some (false, s1) else write_seq E fuel pins ws s1

/-- The common shape of the three transaction functions: START, the bytes,
then STOP and 1 if all were ACKed, `i2c_init` and 0 otherwise. -/
def transact (E : Env) (fuel : Nat) (pins : I2C_Pin_Pair) (ws : List Nat) (s : Hw) :
    Option (Nat × Hw) :=
  match i2c_write_start E fuel pins s with
  | none => none
  | some s1 =>
    match write_seq E fuel pins ws s1 with
    | none => none
    | some (ok, s2) =>
      if ok then some (1, i2c_write_stop E pins s2) else some (0, i2c_init E pins s2)

/-- A slave that ACKs the first three bytes of a transaction started in `hw0`
and does not ACK the fourth; it never stretches the clock. -/
def nack4Env : Env := fun h _ => if nclk (bus_trace i2cPins hw0.regs h) = 36 then 3 else 2

/-- The buffer `[0x11, 0x22, 0x33]`. -/
def buf123 : Nat → Nat := fun i => [0x11, 0x22, 0x33].getD i 0

/-- Register file with the bits of `m` cleared in the 16-bit register `a`. -/
def clear_at (regs : Nat → Nat) (a m : Nat) : Nat → Nat :=
  fun r => if r = a then u16 (u16 (regs a) &&& not16 m) else regs r

/-- An environment in which a read of a port returns the word last written
to it when the write was the latest operation, and 0 otherwise. -/
def loopbackEnv : Env := fun h _ =>
  match h.getLast? with
  | some (Ev.outp v _) => v
  | _ => 0

/-- An active-low pin on bit 3 of port B. -/
def pinB3 : GlobalPin :=
  { port := GPIO_B, io_port := 1, pin_bitmask := 8, polar := Polar_ActiveLow }

/-- The level the slave presents during clock pulse `i` (counted from 0) of
the operation that starts in state `s`: whenever the bus has seen `i + 1`
clock pulses since `s`, a read of SDA shows raw level `b`. -/
def slave_bit (E : Env) (pins : I2C_Pin_Pair) (s : Hw) (i b : Nat) : Prop :=
  ∀ X, nclk (bus_trace pins s.regs X) = i + 1 → raw_level E pins.sda (s.trace ++ X) = b

/-- The accumulation `byte += byte + bit` of `i2c_read_byte` over a list of
samples. -/
def i2c_accum (acc : Nat) (samples : List Nat) : Nat :=
  samples.foldl (fun b v => u16 (b + (b + v))) acc

/-- A slave that sends the byte `0xA5`: during clock pulse `i` of an operation
started in `hwSclOut` it presents bit `7 - i` of `0xA5` on SDA (bit 0 of port
A); SCL (bit 1) always reads high. -/
def sendA5Env : Env := fun h _ =>
  2 + (0xA5 / 2 ^ (8 - nclk (bus_trace i2cPins hwSclOut.regs h))) % 2

/-- A descriptor whose single mask bit lies in the upper byte (bit 8). -/
def pinHigh : GlobalPin :=
  { port := GPIO_A, io_port := 0, pin_bitmask := 0x100, polar := Polar_ActiveHigh }

/-- The skeleton of an operation: a register write (to which register) or a
busy-wait (with which argument).  Reads are left out. -/
inductive Op where
  | write (reg : Nat)
  | pause (n : Nat)
  deriving DecidableEq, Repr

/-- The writes and busy-waits of a trace, in order. -/
def ops (tr : List Ev) : List Op :=
  tr.filterMap fun e =>
    match e with
    | Ev.inp _ _ => none
    | Ev.outp _ r => some (Op.write r)
    | Ev.wait n => some (Op.pause n)

/-- The pair `i2cPins` with a per-bit timeout of 40000 ticks. -/
def i2cPinsSlow : I2C_Pin_Pair := { i2cPins with timeout := 40000 }

/-- What is seen on a pin's time line: a read of the pin with the raw level
it returned, or a busy-wait with its argument. -/
inductive Tl where
  | sample (l : Nat)
  | pause (n : Nat)
  deriving DecidableEq, Repr

/-- The reads of a pin's port (as raw levels of the pin) and the busy-waits
of a trace, in order. -/
def timeline (pin : GlobalPin) (tr : List Ev) : List Tl :=
  tr.filterMap fun e =>
    match e with
    | Ev.inp r v =>
      if r = gpio_get_input_reg pin.port then
        some (Tl.sample (if v &&& u16 pin.pin_bitmask ≠ 0 then 1 else 0))
      else none
    | Ev.outp _ _ => none
    | Ev.wait n => some (Tl.pause n)

/-- The pair `uartLoop` with a bit period of 833 ticks. -/
def uartLoop833 : UART_Pin_Pair := { uartLoop with period := 833 }

/-- A tick counter that starts at `t0` and advances by one tick between
successive reads: the `k`-th read returns `t0 + k` (modulo `2^16`). -/
def tickEnv (t0 : Nat) : Env := fun h _ => t0 + reads_of SCUtime h

/-- The value `uart_read_byte` accumulates over the loop indices `js` when
the successive sampling reads, numbered from `n`, return the levels `L n`,
`L (n + 1)`, ...: each sample is added at the bit position of its index. -/
def uart_acc (L : Nat → Nat) : Nat → Nat → List Nat → Nat
  | _, acc, [] => acc
  | n, acc, i :: js => uart_acc L (n + 1) (u16 (acc + L n * 2 ^ i)) js

/-- Time line of `c` sampling steps numbered from `n`: each a read of level
`L j` followed by a busy-wait of `d`. -/
def sample_tl (L : Nat → Nat) (d : Nat) : Nat → Nat → List Tl
  | _, 0 => []
  | n, c + 1 => Tl.sample (L n) :: Tl.pause d :: sample_tl L d (n + 1) c

/-- The RX line of `uartLoop` idle (raw 1) for two polls and then carrying the
frame of byte `0xA5`. -/
def uartLateEnv : Env :=
  fun h _ => if ([1, 1] ++ uart_frame 0xA5).getD (reads_of 0x20 h) 1 = 0 then 0 else 1

/-- Number of bits set in a 16-bit mask. -/
def bits_set (m : Nat) : Nat := ((List.range 16).filter fun i => (u16 m).testBit i).length

/-- Bit reversal of the low byte: bit `i` of `x` goes to bit `7 - i`. -/
def bitrev8 (x : Nat) : Nat :=
  ([0, 1, 2, 3, 4, 5, 6, 7].map fun i => x / 2 ^ i % 2 * 2 ^ (7 - i)).sum

/-- The RX line of `uartLoop` replaying the frame of byte `0xC1`. -/
def uartC1Env : Env :=
  fun h _ => if (uart_frame 0xC1).getD (reads_of 0x20 h) 1 = 0 then 0 else 1

/-- A slave that presents, during clock pulse `i` of an operation started in
`hwSclOut`, the level that the frame of `0xC1` carries in its data slot `i`
(bit `i` of `0xC1`, which is bit `7 - i` of `0x83`); SCL always reads high. -/
def send83Env : Env := fun h _ =>
  2 + (0x83 / 2 ^ (8 - nclk (bus_trace i2cPins hwSclOut.regs h))) % 2

/-- The pair `i2cPins` wired the same way but described differently: both
pins active-low, other `io_port` numbers, another slave address. -/
def i2cPinsLow : I2C_Pin_Pair :=
  { sda := { port := GPIO_A, io_port := 3, pin_bitmask := 1, polar := Polar_ActiveLow }
    scl := { port := GPIO_A, io_port := 4, pin_bitmask := 2, polar := Polar_ActiveLow }
    addr := 0x51
    timeout := 100 }

/-- The pair `uartLoop` wired the same way but with both pins active-low and
other `io_port` numbers. -/
def uartLoopLow : UART_Pin_Pair :=
  { rx := { port := GPIO_A, io_port := 3, pin_bitmask := 1, polar := Polar_ActiveLow }
    tx := { port := GPIO_A, io_port := 4, pin_bitmask := 2, polar := Polar_ActiveLow }
    period := 100 }

/-- An event with the value read or written erased. -/
def erase_val : Ev → Ev
  | Ev.inp r _ => Ev.inp r 0
  | Ev.outp _ r => Ev.outp 0 r
  | Ev.wait n => Ev.wait n

/-- The sequence of register operations of a trace, values left out: which
register is read, which is written, and the argument of each busy-wait. -/
def shape (tr : List Ev) : List Ev := tr.map erase_val

/-- A state in which the output register of port A holds 3: the output bits
of both pins of `i2cPins` are set. -/
def hwOutHigh : Hw := { regs := fun r => if r = 0x20 then 3 else 0, trace := [] }

/-- The two lines of the bus. -/
inductive Line where
  | sda
  | scl
  deriving DecidableEq, Repr

/-- The pin descriptor of a line. -/
def pin_of (pins : I2C_Pin_Pair) : Line → GlobalPin
  | Line.sda => pins.sda
  | Line.scl => pins.scl

/-- The calls the I2C functions make on the two lines: a switch of direction,
a raw write of level 0, a raw read, and a busy-wait.  There is no call that
writes level 1. -/
inductive Call where
  | dir (d : GlobalPin_dir) (l : Line)
  | low (l : Line)
  | sample (l : Line)
  | pause (n : Nat)

/-- The state after one call. -/
def run_call (E : Env) (pins : I2C_Pin_Pair) (s : Hw) : Call → Hw
  | Call.dir d l => globalPin_set_dir E d (pin_of pins l) s
  | Call.low l => globalPin_write_raw E 0 (pin_of pins l) s
  | Call.sample l => (globalPin_read_raw E (pin_of pins l) s).2
  | Call.pause n => internal_busy_wait n s

/-- The state after a sequence of calls. -/
def run_calls (E : Env) (pins : I2C_Pin_Pair) (cs : List Call) (s : Hw) : Hw :=
  cs.foldl (run_call E pins) s

/-- One step of the check that every switch to Output is followed by a raw-0
write to the same line before the next busy-wait.  The state holds, for SDA
and for SCL, whether the line was switched to Output and not yet written;
`none` when a busy-wait was reached with such a line. -/
def od_step : Option (Bool × Bool) → Call → Option (Bool × Bool)
  | none, _ => none
  | some (_, b), Call.dir PinDir_Output Line.sda => some (true, b)
  | some (a, _), Call.dir PinDir_Output Line.scl => some (a, true)
  | some (a, b), Call.dir PinDir_Input _ => some (a, b)
  | some (_, b), Call.low Line.sda => some (false, b)
  | some (a, _), Call.low Line.scl => some (a, false)
  | some (a, b), Call.sample _ => some (a, b)
  | some (a, b), Call.pause _ => if a || b then none else some (a, b)

/-- The check over a whole sequence of calls, which must also end with no
line switched to Output and not yet written. -/
def od_ok (cs : List Call) : Bool :=
  decide (cs.foldl od_step (some (false, false)) = some (false, false))

/-- The run from `s` to `s2` is a sequence of calls that passes the check. -/
def Od (E : Env) (pins : I2C_Pin_Pair) (s s2 : Hw) : Prop :=
  ∃ cs, s2 = run_calls E pins cs s ∧ od_ok cs = true

/-- A slave that holds SCL low at the first read of port A and lets it go high
afterwards; SDA reads low. -/
def stretchEnv : Env := fun h _ => if reads_of 0x20 h = 0 then 0 else 2

/-! ## Basic facts -/

theorem testBit_lt16 {m i : Nat} (hm : m < 65536) (h : m.testBit i = true) : i < 16 := by
  have h1 := Nat.testBit_implies_ge h
  have h2 : 2 ^ i < 2 ^ 16 := lt_of_le_of_lt h1 (by simpa using hm)
  exact (Nat.pow_lt_pow_iff_right (by norm_num : 1 < 2)).mp h2

theorem and_or_self16 (v m : Nat) (hm : m < 65536) : ((v ||| m) % 65536) &&& m = m := by
  apply Nat.eq_of_testBit_eq
  intro i
  have h16 : (65536 : Nat) = 2 ^ 16 := by norm_num
  rw [h16, Nat.testBit_and, Nat.testBit_mod_two_pow, Nat.testBit_or]
  by_cases h : m.testBit i = true
  · simp [h, testBit_lt16 hm h]
  · simp [h]

theorem and_not_self16 (v m : Nat) (hm : m < 65536) :
    ((v &&& (65535 ^^^ m)) % 65536) &&& m = 0 := by
  apply Nat.eq_of_testBit_eq
  intro i
  have h16 : (65536 : Nat) = 2 ^ 16 := by norm_num
  have h15 : (65535 : Nat) = 2 ^ 16 - 1 := by norm_num
  rw [h16, h15, Nat.testBit_and, Nat.testBit_mod_two_pow, Nat.testBit_and, Nat.testBit_xor,
    Nat.testBit_two_pow_sub_one]
  by_cases h : m.testBit i = true
  · simp [h, testBit_lt16 hm h]
  · simp [h]

theorem u16_lt (n : Nat) : u16 n < 65536 := Nat.mod_lt _ (by norm_num)

theorem u16_u16 (n : Nat) : u16 (u16 n) = u16 n := by simp [u16]

theorem isLevelReg_input (p : GPIO_port_name) : isEnvReg (gpio_get_input_reg p) = true := by
  cases p <;> rfl

theorem isLevelReg_config (p : GPIO_port_name) : isEnvReg (gpio_get_config_reg p) = false := by
  cases p <;> rfl

theorem output_reg_eq_input_reg (p : GPIO_port_name) :
    gpio_get_output_reg p = gpio_get_input_reg p := by
  cases p <;> rfl

theorem config_reg_ne_output_reg (p q : GPIO_port_name) :
    gpio_get_config_reg p ≠ gpio_get_output_reg q := by
  cases p <;> cases q <;> decide

theorem config_reg_inj {p q : GPIO_port_name} (h : gpio_get_config_reg p = gpio_get_config_reg q) :
    p = q := by
  cases p <;> cases q <;> first | rfl | (exact absurd h (by decide))

/-! ## Effect of the pin operations on the state -/

theorem globalPin_read_raw_eq (E : Env) (pin : GlobalPin) (s : Hw) :
    globalPin_read_raw E pin s =
      (raw_level E pin s.trace,
        { regs := s.regs
          trace := s.trace ++ [Ev.inp (gpio_get_input_reg pin.port)
            (u16 (E s.trace (gpio_get_input_reg pin.port)))] }) := by
  simp [globalPin_read_raw, gpio_read, _inp, isLevelReg_input, raw_level]

theorem globalPin_write_raw_eq (E : Env) (x : Nat) (pin : GlobalPin) (s : Hw) :
    globalPin_write_raw E x pin s =
      _outp (if u16 x ≠ 0 then u16 (E s.trace (gpio_get_input_reg pin.port)) ||| u16 pin.pin_bitmask
              else u16 (E s.trace (gpio_get_input_reg pin.port)) &&& not16 pin.pin_bitmask)
        (gpio_get_output_reg pin.port)
        { regs := s.regs
          trace := s.trace ++ [Ev.inp (gpio_get_input_reg pin.port)
            (u16 (E s.trace (gpio_get_input_reg pin.port)))] } := by
  simp only [globalPin_write_raw, gpio_read, _inp, isLevelReg_input, gpio_write, if_true]
  split <;> rfl

theorem globalPin_set_dir_eq (E : Env) (dir : GlobalPin_dir) (pin : GlobalPin) (s : Hw) :
    globalPin_set_dir E dir pin s =
      _outp (match dir with
              | PinDir_Input =>
                u16 (s.regs (gpio_get_config_reg pin.port)) &&& not16 (u16 pin.pin_bitmask <<< 8)
              | PinDir_Output =>
                u16 (s.regs (gpio_get_config_reg pin.port)) ||| u16 (u16 pin.pin_bitmask <<< 8))
        (gpio_get_config_reg pin.port)
        { regs := s.regs
          trace := s.trace ++ [Ev.inp (gpio_get_config_reg pin.port)
            (u16 (s.regs (gpio_get_config_reg pin.port)))] } := by
  cases dir <;>
    simp [globalPin_set_dir, gpio_get_config, _inp, isLevelReg_config, gpio_set_config]

/-! ## UART transmit: the levels written to TX -/

theorem raw_writes_append (pin : GlobalPin) (a b : List Ev) :
    raw_writes pin (a ++ b) = raw_writes pin a ++ raw_writes pin b := by
  simp [raw_writes, List.filterMap_append]

theorem raw_writes_write_raw (E : Env) (x : Nat) (pin : GlobalPin) (s : Hw)
    (hm : u16 pin.pin_bitmask ≠ 0) :
    raw_writes pin (globalPin_write_raw E x pin s).trace =
      raw_writes pin s.trace ++ [if u16 x ≠ 0 then 1 else 0] := by
  rw [globalPin_write_raw_eq]
  simp only [_outp, raw_writes_append]
  by_cases hx : u16 x = 0
  · have h := and_not_self16 (u16 (E s.trace (gpio_get_input_reg pin.port))) _
      (u16_lt pin.pin_bitmask)
    simp only [u16] at h hx
    simp [raw_writes, hx, u16, not16, h]
  · have h := and_or_self16 (u16 (E s.trace (gpio_get_input_reg pin.port))) _
      (u16_lt pin.pin_bitmask)
    simp only [u16] at h hm hx
    simp [raw_writes, hx, u16, h, hm]

theorem raw_writes_wait (pin : GlobalPin) (n : Nat) (s : Hw) :
    raw_writes pin (internal_busy_wait n s).trace = raw_writes pin s.trace := by
  simp [internal_busy_wait, raw_writes_append, raw_writes]

theorem prefix_write_raw (E : Env) (x : Nat) (pin : GlobalPin) (s : Hw) :
    s.trace <+: (globalPin_write_raw E x pin s).trace := by
  rw [globalPin_write_raw_eq]
  exact ⟨_, by simp [_outp]; rfl⟩

theorem prefix_wait (n : Nat) (s : Hw) : s.trace <+: (internal_busy_wait n s).trace :=
  ⟨_, rfl⟩

theorem raw_writes_uart_write_bit (E : Env) (b : Nat) (pins : UART_Pin_Pair) (s : Hw) (i : Nat)
    (hm : u16 pins.tx.pin_bitmask ≠ 0) :
    raw_writes pins.tx (uart_write_bit E b pins s i).trace =
      raw_writes pins.tx s.trace ++ [if _rol 1 i &&& u16 b ≠ 0 then 1 else 0] := by
  unfold uart_write_bit
  simp only [raw_writes_wait]
  split <;> simp [raw_writes_write_raw _ _ _ _ hm, u16]

theorem prefix_uart_write_bit (E : Env) (b : Nat) (pins : UART_Pin_Pair) (s : Hw) (i : Nat) :
    s.trace <+: (uart_write_bit E b pins s i).trace := by
  unfold uart_write_bit
  split
  · exact (prefix_write_raw _ _ _ _).trans (prefix_wait _ _)
  · exact (prefix_write_raw _ _ _ _).trans (prefix_wait _ _)

theorem raw_writes_uart_write_byte (E : Env) (b : Nat) (pins : UART_Pin_Pair) (s : Hw)
    (hm : u16 pins.tx.pin_bitmask ≠ 0) :
    raw_writes pins.tx (uart_write_byte E b pins s).trace =
      raw_writes pins.tx s.trace ++ uart_frame b := by
  simp [uart_write_byte, raw_writes_wait, raw_writes_write_raw _ _ _ _ hm,
    raw_writes_uart_write_bit _ _ _ _ _ hm, uart_frame, u16]

theorem prefix_uart_write_byte (E : Env) (b : Nat) (pins : UART_Pin_Pair) (s : Hw) :
    s.trace <+: (uart_write_byte E b pins s).trace := by
  simp only [uart_write_byte, List.foldl]
  refine List.IsPrefix.trans ?_ (prefix_wait _ _)
  refine List.IsPrefix.trans ?_ (prefix_write_raw _ _ _ _)
  iterate 8 refine List.IsPrefix.trans ?_ (prefix_uart_write_bit _ _ _ _ _)
  exact (prefix_write_raw _ _ _ _).trans (prefix_wait _ _)

theorem uart_tx_frame (E : Env) (b : Nat) (pins : UART_Pin_Pair) (s : Hw)
    (hm : u16 pins.tx.pin_bitmask ≠ 0) :
    raw_writes pins.tx ((uart_write_byte E b pins s).trace.drop s.trace.length) =
      uart_frame b := by
  obtain ⟨X, hX⟩ := prefix_uart_write_byte E b pins s
  have h := raw_writes_uart_write_byte E b pins s hm
  rw [← hX, raw_writes_append] at h
  rw [← hX, List.drop_left]
  exact List.append_cancel_left h

/-! ## UART receive on a given sequence of RX levels -/

theorem reads_of_nil (r : Nat) : reads_of r [] = 0 := rfl

theorem reads_of_append (r : Nat) (a b : List Ev) :
    reads_of r (a ++ b) = reads_of r a + reads_of r b := by
  simp [reads_of, List.countP_append]

theorem reads_of_cons_inp (r v : Nat) (h : List Ev) :
    reads_of r (Ev.inp r v :: h) = reads_of r h + 1 := by
  simp [reads_of, List.countP_cons]

theorem reads_of_cons_wait (r n : Nat) (h : List Ev) :
    reads_of r (Ev.wait n :: h) = reads_of r h := by
  simp [reads_of, List.countP_cons]

theorem uart_read_byte_stream (E : Env) (fuel : Nat) (pins : UART_Pin_Pair) (s : Hw)
    (L : List Nat)
    (hE : ∀ h, raw_level E pins.rx h = L.getD (reads_of (gpio_get_input_reg pins.rx.port) h) 1)
    (hs : s.trace = []) (h0 : L.getD 0 1 = 0) (h9 : L.getD 9 1 = 1) (hf : 0 < fuel) :
    ∃ s1, uart_read_byte E fuel pins s = some (uart_accum L, s1) := by
  obtain ⟨f, rfl⟩ : ∃ f, fuel = f + 1 := ⟨fuel - 1, by omega⟩
  simp only [uart_read_byte, uart_read_bit, wait_until_low, wait_until_high,
    globalPin_read_raw_eq, hE, hs, internal_busy_wait,
    List.foldl, Option.bind_eq_bind, Option.some_bind, List.nil_append, List.append_assoc,
    List.cons_append, reads_of_nil, reads_of_append, reads_of_cons_inp, reads_of_cons_wait,
    h0, h9, zero_add, Nat.reduceAdd, ne_eq, not_true_eq_false, if_false, one_ne_zero,
    not_false_eq_true, if_true, uart_accum]
  exact ⟨_, rfl⟩

set_option maxRecDepth 100000 in
theorem uart_accum_frame : ∀ b, b < 256 → uart_accum (uart_frame b) = b := by
  decide

theorem uart_frame_start (b : Nat) : (uart_frame b).getD 0 1 = 0 := rfl

theorem uart_frame_stop (b : Nat) : (uart_frame b).getD 9 1 = 1 := rfl

/-- C1: UART round trip.  For every byte `b` in 0..255, whatever the
transmitter's environment and starting state, the raw levels `uart_write_byte`
writes to TX form a ten-level frame whose first level is 0 (start) and whose
last is 1 (stop); and when the successive reads of RX see exactly these
levels, `uart_read_byte` returns `b`. -/
theorem uart_round_trip (E E2 : Env) (b : Nat) (pins : UART_Pin_Pair) (s s2 : Hw) (fuel : Nat)
    (hb : b < 256) (hm : u16 pins.tx.pin_bitmask ≠ 0) (hs2 : s2.trace = []) (hf : 0 < fuel)
    (hloop : ∀ h, raw_level E2 pins.rx h =
      (raw_writes pins.tx ((uart_write_byte E b pins s).trace.drop s.trace.length)).getD
        (reads_of (gpio_get_input_reg pins.rx.port) h) 1) :
    (∃ s3, uart_read_byte E2 fuel pins s2 = some (b, s3)) ∧
    (raw_writes pins.tx ((uart_write_byte E b pins s).trace.drop s.trace.length)).length = 10 ∧
    (raw_writes pins.tx ((uart_write_byte E b pins s).trace.drop s.trace.length)).head? = some 0 ∧
    (raw_writes pins.tx ((uart_write_byte E b pins s).trace.drop s.trace.length)).getLast?
      = some 1 := by
  rw [uart_tx_frame E b pins s hm] at hloop ⊢
  refine ⟨?_, rfl, rfl, by simp [uart_frame]⟩
  have h := uart_read_byte_stream E2 fuel pins s2 (uart_frame b) hloop hs2
    (uart_frame_start b) (uart_frame_stop b) hf
  rwa [uart_accum_frame b hb] at h

theorem uart_round_trip_witness :
    (∃ s3, uart_read_byte uartLoopEnv 1 uartLoop hw0 = some (0xA5, s3)) ∧
    (raw_writes uartLoop.tx ((uart_write_byte (fun _ _ => 0) 0xA5 uartLoop hw0).trace.drop
      hw0.trace.length)).length = 10 ∧
    (raw_writes uartLoop.tx ((uart_write_byte (fun _ _ => 0) 0xA5 uartLoop hw0).trace.drop
      hw0.trace.length)).head? = some 0 ∧
    (raw_writes uartLoop.tx ((uart_write_byte (fun _ _ => 0) 0xA5 uartLoop hw0).trace.drop
      hw0.trace.length)).getLast? = some 1 :=
  uart_round_trip (fun _ _ => 0) uartLoopEnv 0xA5 uartLoop hw0 hw0 1 (by decide) (by decide)
    rfl (by decide) (by
      intro h
      rw [uart_tx_frame _ _ _ _ (by decide)]
      simp only [raw_level, uartLoop, uartLoopEnv, gpio_get_input_reg]
      have key : ∀ k : Nat,
          (if u16 (if (uart_frame 165).getD k 1 = 0 then 0 else 1) &&& u16 1 ≠ 0 then 1 else 0)
            = (uart_frame 165).getD k 1 := by
        intro k
        have hk : k < 10 ∨ 10 ≤ k := by omega
        rcases hk with hk | hk
        · interval_cases k <;> decide
        · rw [List.getD_eq_default _ _ (by simpa [uart_frame] using hk)]
          decide
      exact key _)

/-! ## Direction bits and bus events -/

theorem and_two_pow_ne_zero (x j : Nat) : (x &&& 2 ^ j != 0) = x.testBit j := by
  by_cases h : x.testBit j = true
  · have : (x &&& 2 ^ j).testBit j = true := by simp [Nat.testBit_and, h, Nat.testBit_two_pow_self]
    have hne : x &&& 2 ^ j ≠ 0 := by
      intro h0; rw [h0] at this; simp at this
    simp [h, hne]
  · have : x &&& 2 ^ j = 0 := by
      apply Nat.eq_of_testBit_eq
      intro i
      by_cases hij : j = i
      · subst hij; simp [Nat.testBit_and, h]
      · simp [Nat.testBit_and, Nat.testBit_two_pow_of_ne hij]
    simp [h, this]

theorem is_output_eq (regs : Nat → Nat) (p : GlobalPin) (k : Nat) (hk : k < 8)
    (hp : p.pin_bitmask = 2 ^ k) :
    is_output regs p = (regs (gpio_get_config_reg p.port)).testBit (k + 8) := by
  have h1 : u16 (u16 (2 ^ k) <<< 8) = 2 ^ (k + 8) := by
    interval_cases k <;> rfl
  have h16 : (65536 : Nat) = 2 ^ 16 := by norm_num
  rw [is_output, hp, h1, and_two_pow_ne_zero, u16, h16, Nat.testBit_mod_two_pow]
  simp; omega

theorem out_level_eq (regs : Nat → Nat) (p : GlobalPin) (k : Nat) (hk : k < 8)
    (hp : p.pin_bitmask = 2 ^ k) :
    out_level regs p = (regs (gpio_get_output_reg p.port)).testBit k := by
  have h1 : u16 (2 ^ k) = 2 ^ k := by
    interval_cases k <;> rfl
  have h16 : (65536 : Nat) = 2 ^ 16 := by norm_num
  rw [out_level, hp, h1, and_two_pow_ne_zero, u16, h16, Nat.testBit_mod_two_pow]
  simp; omega

theorem dirbit_eq (k : Nat) (hk : k < 8) : u16 (u16 (2 ^ k) <<< 8) = 2 ^ (k + 8) := by
  interval_cases k <;> rfl

theorem maskbit_eq (k : Nat) (hk : k < 8) : u16 (2 ^ k) = 2 ^ k := by
  interval_cases k <;> rfl

theorem testBit_u16 (x i : Nat) : (u16 x).testBit i = (decide (i < 16) && x.testBit i) := by
  have h16 : (65536 : Nat) = 2 ^ 16 := by norm_num
  rw [u16, h16, Nat.testBit_mod_two_pow]

theorem testBit_65535 (i : Nat) : (65535 : Nat).testBit i = decide (i < 16) := by
  have h15 : (65535 : Nat) = 2 ^ 16 - 1 := by norm_num
  rw [h15, Nat.testBit_two_pow_sub_one]

theorem regs_set_dir (E : Env) (d : GlobalPin_dir) (p : GlobalPin) (s : Hw) (r : Nat) :
    (globalPin_set_dir E d p s).regs r =
      if r = gpio_get_config_reg p.port then
        u16 (match d with
          | PinDir_Input =>
            u16 (s.regs (gpio_get_config_reg p.port)) &&& not16 (u16 p.pin_bitmask <<< 8)
          | PinDir_Output =>
            u16 (s.regs (gpio_get_config_reg p.port)) ||| u16 (u16 p.pin_bitmask <<< 8))
      else s.regs r := by
  rw [globalPin_set_dir_eq]; rfl

theorem regs_write_raw (E : Env) (x : Nat) (p : GlobalPin) (s : Hw) (r : Nat) :
    (globalPin_write_raw E x p s).regs r =
      if r = gpio_get_output_reg p.port then
        u16 (if u16 x ≠ 0 then u16 (E s.trace (gpio_get_input_reg p.port)) ||| u16 p.pin_bitmask
              else u16 (E s.trace (gpio_get_input_reg p.port)) &&& not16 p.pin_bitmask)
      else s.regs r := by
  rw [globalPin_write_raw_eq]; rfl

theorem is_output_set_dir_self (E : Env) (d : GlobalPin_dir) (p : GlobalPin) (s : Hw)
    (hp : pin_ok p) :
    is_output (globalPin_set_dir E d p s).regs p = decide (d = PinDir_Output) := by
  obtain ⟨k, hk, hm⟩ := hp
  rw [is_output_eq _ p k hk hm, regs_set_dir, if_pos rfl, hm]
  cases d
  · simp [not16, u16_u16, dirbit_eq k hk, testBit_u16, Nat.testBit_and, Nat.testBit_xor,
      testBit_65535, Nat.testBit_two_pow_self]
    omega
  · simp [dirbit_eq k hk, testBit_u16, Nat.testBit_or, Nat.testBit_two_pow_self]
    omega

theorem is_output_set_dir_other (E : Env) (d : GlobalPin_dir) (p q : GlobalPin) (s : Hw)
    (hp : pin_ok p) (hq : pin_ok q) (hpq : pins_distinct p q) :
    is_output (globalPin_set_dir E d p s).regs q = is_output s.regs q := by
  obtain ⟨k, hk, hm⟩ := hp
  obtain ⟨j, hj, hn⟩ := hq
  rw [is_output_eq _ q j hj hn, is_output_eq _ q j hj hn, regs_set_dir]
  by_cases hport : q.port = p.port
  · have hjk : k ≠ j := by
      rintro rfl
      rcases hpq with h | h
      · exact h hport.symm
      · exact h (hm.trans hn.symm)
    have hjk2 : k + 8 ≠ j + 8 := by omega
    rw [if_pos (by rw [hport]), hm, hport]
    have hlt : j + 8 < 16 := by omega
    cases d
    · simp [not16, u16_u16, dirbit_eq k hk, testBit_u16, Nat.testBit_and, Nat.testBit_xor,
        testBit_65535, Nat.testBit_two_pow_of_ne hjk2, hlt]
    · simp [dirbit_eq k hk, testBit_u16, Nat.testBit_or, Nat.testBit_two_pow_of_ne hjk2, hlt]
  · rw [if_neg (fun h => hport (config_reg_inj h))]

theorem out_level_set_dir (E : Env) (d : GlobalPin_dir) (p q : GlobalPin) (s : Hw) :
    out_level (globalPin_set_dir E d p s).regs q = out_level s.regs q := by
  rw [out_level, out_level, regs_set_dir, if_neg (config_reg_ne_output_reg p.port q.port).symm]

theorem is_output_write_raw (E : Env) (x : Nat) (p q : GlobalPin) (s : Hw) :
    is_output (globalPin_write_raw E x p s).regs q = is_output s.regs q := by
  rw [is_output, is_output, regs_write_raw, if_neg (config_reg_ne_output_reg q.port p.port)]

theorem out_level_write_raw_zero (E : Env) (p : GlobalPin) (s : Hw) (hp : pin_ok p) :
    out_level (globalPin_write_raw E 0 p s).regs p = false := by
  obtain ⟨k, hk, hm⟩ := hp
  rw [out_level_eq _ p k hk hm, regs_write_raw, if_pos rfl, hm]
  simp [u16_u16, not16, maskbit_eq k hk, testBit_u16, Nat.testBit_and, Nat.testBit_xor,
    testBit_65535, Nat.testBit_two_pow_self, show u16 0 = 0 from rfl]
  omega

theorem output_reg_inj {p q : GPIO_port_name} (h : gpio_get_output_reg p = gpio_get_output_reg q) :
    p = q := by
  cases p <;> cases q <;> first | rfl | (exact absurd h (by decide))

theorem raw_level_testBit (E : Env) (p : GlobalPin) (h : List Ev) (k : Nat) (hk : k < 8)
    (hm : p.pin_bitmask = 2 ^ k) :
    raw_level E p h = if (E h (gpio_get_input_reg p.port)).testBit k then 1 else 0 := by
  have e : (u16 (E h (gpio_get_input_reg p.port)) &&& u16 p.pin_bitmask != 0) =
      (E h (gpio_get_input_reg p.port)).testBit k := by
    rw [hm, maskbit_eq k hk, and_two_pow_ne_zero, testBit_u16]
    simp; omega
  unfold raw_level
  rw [← e]
  simp

theorem out_level_write_raw_zero_other (E : Env) (p q : GlobalPin) (s : Hw)
    (hp : pin_ok p) (hq : pin_ok q) (hd : pins_distinct p q) :
    out_level (globalPin_write_raw E 0 p s).regs q =
      if q.port = p.port then decide (raw_level E q s.trace = 1) else out_level s.regs q := by
  obtain ⟨k, hk, hm⟩ := hp
  obtain ⟨j, hj, hn⟩ := hq
  by_cases hport : q.port = p.port
  · rw [if_pos hport, out_level_eq _ q j hj hn, regs_write_raw, hport, if_pos rfl,
      raw_level_testBit E q s.trace j hj hn, hport, hm]
    have hjk : k ≠ j := by
      rintro rfl
      rcases hd with h | h
      · exact h hport.symm
      · exact h (hm.trans hn.symm)
    have hj16 : j < 16 := by omega
    simp only [show u16 0 = 0 from rfl, ne_eq, not_true_eq_false, if_false, not16, u16_u16,
      maskbit_eq k hk, testBit_u16, Nat.testBit_and, Nat.testBit_xor, testBit_65535,
      Nat.testBit_two_pow_of_ne hjk, hj16, decide_True, Bool.true_and, Bool.xor_false,
      Bool.and_true]
    cases (E s.trace (gpio_get_input_reg p.port)).testBit j <;> simp
  · rw [if_neg hport, out_level, out_level, regs_write_raw,
      if_neg (fun h => hport (output_reg_inj h))]

theorem replay_append (regs : Nat → Nat) (X Y : List Ev) :
    replay regs (X ++ Y) = replay (replay regs X) Y := by
  simp [replay, List.foldl_append]

theorem bus_trace_append (pins : I2C_Pin_Pair) (regs : Nat → Nat) (X Y : List Ev) :
    bus_trace pins regs (X ++ Y) = bus_trace pins regs X ++ bus_trace pins (replay regs X) Y := by
  induction X generalizing regs with
  | nil => rfl
  | cons e X ih =>
    have h := ih (apply_ev regs e)
    show bus_step pins regs (apply_ev regs e) ++ bus_trace pins (apply_ev regs e) (X ++ Y) =
      (bus_step pins regs (apply_ev regs e) ++ bus_trace pins (apply_ev regs e) X) ++
        bus_trace pins (replay (apply_ev regs e) X) Y
    rw [h, List.append_assoc]

theorem bus_step_self (pins : I2C_Pin_Pair) (regs : Nat → Nat) : bus_step pins regs regs = [] := by
  unfold bus_step
  cases is_output regs pins.scl <;> cases is_output regs pins.sda <;> rfl

theorem bus_step_same_dir (pins : I2C_Pin_Pair) (regs regs2 : Nat → Nat)
    (h1 : is_output regs2 pins.scl = is_output regs pins.scl)
    (h2 : is_output regs2 pins.sda = is_output regs pins.sda) :
    bus_step pins regs regs2 = [] := by
  unfold bus_step
  rw [h1, h2]
  cases is_output regs pins.scl <;> cases is_output regs pins.sda <;> rfl

theorem Run.nil_run (s : Hw) : Run s s [] := ⟨by simp, rfl⟩

theorem Run.append_run {s s2 s3 : Hw} {X Y : List Ev} (h1 : Run s s2 X) (h2 : Run s2 s3 Y) :
    Run s s3 (X ++ Y) := by
  refine ⟨?_, ?_⟩
  · rw [h2.1, h1.1, List.append_assoc]
  · rw [h2.2, h1.2, replay_append]

theorem Run.drop {s s2 : Hw} {X : List Ev} (h : Run s s2 X) :
    s2.trace.drop s.trace.length = X := by
  rw [h.1, List.drop_left]

theorem Eff.nil_eff (pins : I2C_Pin_Pair) (s : Hw) : Eff pins s s [] := ⟨[], Run.nil_run s, rfl⟩

theorem Eff.append_eff {pins : I2C_Pin_Pair} {s s2 s3 : Hw} {B C : List BusEv}
    (h1 : Eff pins s s2 B) (h2 : Eff pins s2 s3 C) : Eff pins s s3 (B ++ C) := by
  obtain ⟨X, hX, hB⟩ := h1
  obtain ⟨Y, hY, hC⟩ := h2
  refine ⟨X ++ Y, hX.append_run hY, ?_⟩
  rw [bus_trace_append, hB, ← hX.2, hC]

theorem Eff.bus {pins : I2C_Pin_Pair} {s s2 : Hw} {B : List BusEv} (h : Eff pins s s2 B) :
    bus_trace pins s.regs (s2.trace.drop s.trace.length) = B := by
  obtain ⟨X, hX, hB⟩ := h
  rw [hX.drop, hB]

theorem regs_wait (n : Nat) (s : Hw) : (internal_busy_wait n s).regs = s.regs := rfl

theorem regs_read_raw (E : Env) (p : GlobalPin) (s : Hw) :
    (globalPin_read_raw E p s).2.regs = s.regs := by
  rw [globalPin_read_raw_eq]

theorem eff_wait (pins : I2C_Pin_Pair) (n : Nat) (s : Hw) :
    Eff pins s (internal_busy_wait n s) [] :=
  ⟨[Ev.wait (u16 n)], ⟨rfl, rfl⟩, by simp [bus_trace, apply_ev, bus_step_self]⟩

theorem eff_read_raw (pins : I2C_Pin_Pair) (E : Env) (p : GlobalPin) (s : Hw) :
    Eff pins s (globalPin_read_raw E p s).2 [] := by
  rw [globalPin_read_raw_eq]
  exact ⟨[Ev.inp _ _], ⟨rfl, rfl⟩, by simp [bus_trace, apply_ev, bus_step_self]⟩

theorem eff_inp_outp (pins : I2C_Pin_Pair) (s : Hw) (a b v r : Nat) :
    Eff pins s (_outp v r { regs := s.regs, trace := s.trace ++ [Ev.inp a b] })
      (bus_step pins s.regs (_outp v r { regs := s.regs, trace := s.trace ++ [Ev.inp a b] }).regs) := by
  refine ⟨[Ev.inp a b, Ev.outp (u16 v) r], ⟨?_, rfl⟩, ?_⟩
  · simp [_outp]
  · simp only [bus_trace, apply_ev, bus_step_self, List.nil_append, List.append_nil]
    rfl

theorem eff_set_dir (pins : I2C_Pin_Pair) (E : Env) (d : GlobalPin_dir) (p : GlobalPin) (s : Hw) :
    Eff pins s (globalPin_set_dir E d p s)
      (bus_step pins s.regs (globalPin_set_dir E d p s).regs) := by
  rw [globalPin_set_dir_eq]
  exact eff_inp_outp pins s _ _ _ _

theorem eff_write_raw (pins : I2C_Pin_Pair) (E : Env) (x : Nat) (p : GlobalPin) (s : Hw) :
    Eff pins s (globalPin_write_raw E x p s) [] := by
  have h := bus_step_same_dir pins s.regs (globalPin_write_raw E x p s).regs
    (is_output_write_raw E x p pins.scl s) (is_output_write_raw E x p pins.sda s)
  rw [globalPin_write_raw_eq] at h ⊢
  have h2 := eff_inp_outp pins s (gpio_get_input_reg p.port)
    (u16 (E s.trace (gpio_get_input_reg p.port)))
    (if u16 x ≠ 0 then u16 (E s.trace (gpio_get_input_reg p.port)) ||| u16 p.pin_bitmask
      else u16 (E s.trace (gpio_get_input_reg p.port)) &&& not16 p.pin_bitmask)
    (gpio_get_output_reg p.port)
  rwa [h] at h2

theorem pins_distinct_symm {p q : GlobalPin} (h : pins_distinct p q) : pins_distinct q p := by
  rcases h with h | h
  · exact Or.inl (Ne.symm h)
  · exact Or.inr (Ne.symm h)

theorem eff_set_dir_scl (pins : I2C_Pin_Pair) (hp : pins_ok pins) (E : Env) (d : GlobalPin_dir)
    (s : Hw) :
    Eff pins s (globalPin_set_dir E d pins.scl s)
      (if is_output s.regs pins.scl && decide (d = PinDir_Input)
        then [BusEv.clk (line s.regs pins.sda)] else []) := by
  have h := eff_set_dir pins E d pins.scl s
  have h1 := is_output_set_dir_self E d pins.scl s hp.2.1
  have h2 := is_output_set_dir_other E d pins.scl pins.sda s hp.2.1 hp.1
    (pins_distinct_symm hp.2.2)
  have h3 := out_level_set_dir E d pins.scl pins.sda s
  have hl : line (globalPin_set_dir E d pins.scl s).regs pins.sda = line s.regs pins.sda := by
    simp only [line, h2, h3]
  unfold bus_step at h
  rw [h1, h2, hl] at h
  convert h using 1
  cases d <;> cases is_output s.regs pins.scl <;> cases is_output s.regs pins.sda <;> simp

theorem eff_set_dir_sda (pins : I2C_Pin_Pair) (hp : pins_ok pins) (E : Env) (d : GlobalPin_dir)
    (s : Hw) :
    Eff pins s (globalPin_set_dir E d pins.sda s)
      (if is_output s.regs pins.scl then []
        else if !is_output s.regs pins.sda && decide (d = PinDir_Output) then [BusEv.start]
        else if is_output s.regs pins.sda && decide (d = PinDir_Input) then [BusEv.stop]
        else []) := by
  have h := eff_set_dir pins E d pins.sda s
  have h1 := is_output_set_dir_self E d pins.sda s hp.1
  have h2 := is_output_set_dir_other E d pins.sda pins.scl s hp.1 hp.2.1 hp.2.2
  unfold bus_step at h
  rw [h1, h2] at h
  convert h using 1
  cases d <;> cases is_output s.regs pins.scl <;> cases is_output s.regs pins.sda <;> simp

theorem line_eq_one_iff (regs : Nat → Nat) (p : GlobalPin) :
    line regs p = 1 ↔ is_output regs p = false := by
  unfold line
  cases is_output regs p <;> cases out_level regs p <;> simp

theorem St.start (pins : I2C_Pin_Pair) (s : Hw) :
    St pins s s [] (is_output s.regs pins.scl) (line s.regs pins.sda) :=
  ⟨Eff.nil_eff pins s, rfl, rfl⟩

theorem St.wait {pins : I2C_Pin_Pair} {s t : Hw} {B : List BusEv} {o : Bool} {l : Nat}
    (h : St pins s t B o l) (n : Nat) : St pins s (internal_busy_wait n t) B o l := by
  obtain ⟨h1, h2, h3⟩ := h
  refine ⟨?_, h2, h3⟩
  simpa using h1.append_eff (eff_wait pins n t)

theorem St.read {pins : I2C_Pin_Pair} {s t : Hw} {B : List BusEv} {o : Bool} {l : Nat}
    (h : St pins s t B o l) (E : Env) (p : GlobalPin) :
    St pins s (globalPin_read_raw E p t).2 B o l := by
  obtain ⟨h1, h2, h3⟩ := h
  refine ⟨?_, ?_, ?_⟩
  · simpa using h1.append_eff (eff_read_raw pins E p t)
  · rw [regs_read_raw]; exact h2
  · rw [regs_read_raw]; exact h3

theorem St.scl_in {pins : I2C_Pin_Pair} {s t : Hw} {B : List BusEv} {o : Bool} {l : Nat}
    (h : St pins s t B o l) (hp : pins_ok pins) (E : Env) :
    St pins s (globalPin_set_dir E PinDir_Input pins.scl t)
      (B ++ if o then [BusEv.clk l] else []) false l := by
  obtain ⟨h1, h2, h3⟩ := h
  have e := eff_set_dir_scl pins hp E PinDir_Input t
  rw [h2, h3] at e
  refine ⟨?_, ?_, ?_⟩
  · have := h1.append_eff e
    simpa using this
  · simpa using is_output_set_dir_self E PinDir_Input pins.scl t hp.2.1
  · simp only [line, is_output_set_dir_other E PinDir_Input pins.scl pins.sda t hp.2.1 hp.1
      (pins_distinct_symm hp.2.2), out_level_set_dir]
    exact h3

theorem St.scl_out {pins : I2C_Pin_Pair} {s t : Hw} {B : List BusEv} {o : Bool} {l : Nat}
    (h : St pins s t B o l) (hp : pins_ok pins) (E : Env) :
    St pins s (globalPin_set_dir E PinDir_Output pins.scl t) B true l := by
  obtain ⟨h1, h2, h3⟩ := h
  have e := eff_set_dir_scl pins hp E PinDir_Output t
  refine ⟨?_, ?_, ?_⟩
  · have := h1.append_eff e
    simpa using this
  · simpa using is_output_set_dir_self E PinDir_Output pins.scl t hp.2.1
  · simp only [line, is_output_set_dir_other E PinDir_Output pins.scl pins.sda t hp.2.1 hp.1
      (pins_distinct_symm hp.2.2), out_level_set_dir]
    exact h3

theorem St.sda_in {pins : I2C_Pin_Pair} {s t : Hw} {B : List BusEv} {o : Bool} {l : Nat}
    (h : St pins s t B o l) (hp : pins_ok pins) (E : Env) :
    St pins s (globalPin_set_dir E PinDir_Input pins.sda t)
      (B ++ if o then [] else if l = 1 then [] else [BusEv.stop]) o 1 := by
  obtain ⟨h1, h2, h3⟩ := h
  have e := eff_set_dir_sda pins hp E PinDir_Input t
  have hl := line_eq_one_iff t.regs pins.sda
  rw [h3] at hl
  refine ⟨?_, ?_, ?_⟩
  · convert h1.append_eff e using 2
    rw [h2]
    cases o <;> by_cases hl1 : l = 1 <;> cases hio : is_output t.regs pins.sda <;> simp_all
  · rw [is_output_set_dir_other E PinDir_Input pins.sda pins.scl t hp.1 hp.2.1 hp.2.2]; exact h2
  · rw [line_eq_one_iff]
    simpa using is_output_set_dir_self E PinDir_Input pins.sda t hp.1

theorem St.sda_out {pins : I2C_Pin_Pair} {s t : Hw} {B : List BusEv} {o : Bool} {l : Nat}
    (h : St pins s t B o l) (hp : pins_ok pins) (E : Env) :
    St pins s (globalPin_set_dir E PinDir_Output pins.sda t)
      (B ++ if o then [] else if l = 1 then [BusEv.start] else []) o
      (line (globalPin_set_dir E PinDir_Output pins.sda t).regs pins.sda) ∧
    is_output (globalPin_set_dir E PinDir_Output pins.sda t).regs pins.sda = true := by
  obtain ⟨h1, h2, h3⟩ := h
  have e := eff_set_dir_sda pins hp E PinDir_Output t
  have hl := line_eq_one_iff t.regs pins.sda
  rw [h3] at hl
  refine ⟨⟨?_, ?_, rfl⟩, ?_⟩
  · convert h1.append_eff e using 2
    rw [h2]
    cases o <;> by_cases hl1 : l = 1 <;> cases hio : is_output t.regs pins.sda <;> simp_all
  · rw [is_output_set_dir_other E PinDir_Output pins.sda pins.scl t hp.1 hp.2.1 hp.2.2]; exact h2
  · simpa using is_output_set_dir_self E PinDir_Output pins.sda t hp.1

theorem St.sda_low {pins : I2C_Pin_Pair} {s t : Hw} {B : List BusEv} {o : Bool} {l : Nat}
    (h : St pins s t B o l) (hp : pins_ok pins) (E : Env)
    (hout : is_output t.regs pins.sda = true) :
    St pins s (globalPin_write_raw E 0 pins.sda t) B o 0 := by
  obtain ⟨h1, h2, _⟩ := h
  refine ⟨?_, ?_, ?_⟩
  · simpa using h1.append_eff (eff_write_raw pins E 0 pins.sda t)
  · rw [is_output_write_raw]; exact h2
  · simp [line, is_output_write_raw, hout, out_level_write_raw_zero E pins.sda t hp.1]

theorem St.scl_low {pins : I2C_Pin_Pair} {s t : Hw} {B : List BusEv} {o : Bool} {l : Nat}
    (h : St pins s t B o l) (E : Env) :
    St pins s (globalPin_write_raw E 0 pins.scl t) B o
      (line (globalPin_write_raw E 0 pins.scl t).regs pins.sda) ∧
    (line (globalPin_write_raw E 0 pins.scl t).regs pins.sda = 1 ↔ l = 1) := by
  obtain ⟨h1, h2, h3⟩ := h
  refine ⟨⟨?_, ?_, rfl⟩, ?_⟩
  · simpa using h1.append_eff (eff_write_raw pins E 0 pins.scl t)
  · rw [is_output_write_raw]; exact h2
  · rw [line_eq_one_iff, is_output_write_raw, ← line_eq_one_iff, h3]

/-! ## I2C byte write -/

theorem rol_one (i : Nat) (hi : i < 8) : _rol 1 i = 2 ^ i := by
  interval_cases i <;> rfl

theorem bit_of_eq (w i : Nat) (hi : i < 8) : bit_of w i = w / 2 ^ i % 2 := by
  have h := and_two_pow_ne_zero (u16 w) i
  rw [testBit_u16, Nat.testBit_to_div_mod] at h
  have hlt : i < 16 := by omega
  unfold bit_of
  rw [rol_one i hi, Nat.land_comm]
  rcases Nat.mod_two_eq_zero_or_one (w / 2 ^ i) with h0 | h1
  · simp [h0, hlt] at h
    simp [h, h0]
  · simp [h1, hlt] at h
    simp [h, h1]

theorem bit_of_low_byte (w i : Nat) (hi : i < 8) : bit_of (w % 256) i = bit_of w i := by
  rw [bit_of_eq _ _ hi, bit_of_eq _ _ hi]
  have h8 : (256 : Nat) = 2 ^ 8 := by norm_num
  have h := Nat.testBit_mod_two_pow w 8 i
  rw [Nat.testBit_to_div_mod, Nat.testBit_to_div_mod, ← h8] at h
  rcases Nat.mod_two_eq_zero_or_one (w / 2 ^ i) with h0 | h1 <;>
    rcases Nat.mod_two_eq_zero_or_one (w % 256 / 2 ^ i) with h2 | h3 <;>
    simp_all

theorem i2c_write_bit_eq (E : Env) (w : Nat) (pins : I2C_Pin_Pair) (s : Hw) (i : Nat) :
    i2c_write_bit E w pins s i =
      globalPin_write_raw E 0 pins.scl
        (globalPin_set_dir E PinDir_Output pins.scl
          (internal_busy_wait (sub16 (2 * pins.timeout) kRawWriteSysTicks)
            (globalPin_set_dir E PinDir_Input pins.scl
              (internal_busy_wait (sub16 pins.timeout kRawWriteSysTicks)
                (if bit_of w i = 1 then globalPin_set_dir E PinDir_Input pins.sda s
                  else globalPin_write_raw E 0 pins.sda
                    (globalPin_set_dir E PinDir_Output pins.sda s)))))) := by
  unfold i2c_write_bit bit_of
  by_cases h : _rol 1 i &&& u16 w ≠ 0 <;> simp [h]

theorem St.write_bit {pins : I2C_Pin_Pair} {s t : Hw} {B : List BusEv} {l : Nat}
    (h : St pins s t B true l) (hp : pins_ok pins) (E : Env) (w i : Nat) :
    ∃ l2, St pins s (i2c_write_bit E w pins t i) (B ++ [BusEv.clk (bit_of w i)]) true l2 := by
  rw [i2c_write_bit_eq]
  by_cases hb : bit_of w i = 1
  · rw [if_pos hb, hb]
    have h1 := ((((h.sda_in hp E).wait (sub16 pins.timeout kRawWriteSysTicks)).scl_in hp E).wait
      (sub16 (2 * pins.timeout) kRawWriteSysTicks)).scl_out hp E
    exact ⟨_, by simpa using (h1.scl_low E).1⟩
  · have hb0 : bit_of w i = 0 := by
      unfold bit_of at hb ⊢
      split at hb
      · exact absurd rfl hb
      · simp_all
    rw [if_neg hb, hb0]
    obtain ⟨h0, hout⟩ := h.sda_out hp E
    have h1 := (((((h0.sda_low hp E hout).wait (sub16 pins.timeout kRawWriteSysTicks)).scl_in
      hp E).wait (sub16 (2 * pins.timeout) kRawWriteSysTicks)).scl_out hp E)
    exact ⟨_, by simpa using (h1.scl_low E).1⟩

theorem wait_until_high_of_high (E : Env) (p : GlobalPin) (fuel : Nat) (s : Hw)
    (hE : ∀ h, raw_level E p h = 1) (hf : 0 < fuel) :
    wait_until_high E p fuel s = some (globalPin_read_raw E p s).2 := by
  obtain ⟨f, rfl⟩ : ∃ f, fuel = f + 1 := ⟨fuel - 1, by omega⟩
  simp [wait_until_high, globalPin_read_raw_eq, hE]

theorem i2c_write_byte_eq (E : Env) (fuel w : Nat) (pins : I2C_Pin_Pair) (t : Hw)
    (hE : ∀ h, raw_level E pins.scl h = 1) (hf : 0 < fuel) :
    i2c_write_byte E fuel w pins t =
      some (if raw_level E pins.sda
              (globalPin_read_raw E pins.scl
                (internal_busy_wait (sub16 pins.timeout kRawWriteSysTicks)
                  (globalPin_set_dir E PinDir_Input pins.scl
                    (internal_busy_wait (sub16 pins.timeout kRawWriteSysTicks)
                      (globalPin_set_dir E PinDir_Input pins.sda
                        ([7, 6, 5, 4, 3, 2, 1, 0].foldl (i2c_write_bit E w pins) t)))))).2.trace = 0
            then 1 else 0,
        internal_busy_wait (sub16 pins.timeout kRawWriteSysTicks)
          (globalPin_write_raw E 0 pins.scl
            (globalPin_set_dir E PinDir_Output pins.scl
              (internal_busy_wait (sub16 pins.timeout kRawReadSysTicks)
                (globalPin_read_raw E pins.sda
                  (globalPin_read_raw E pins.scl
                    (internal_busy_wait (sub16 pins.timeout kRawWriteSysTicks)
                      (globalPin_set_dir E PinDir_Input pins.scl
                        (internal_busy_wait (sub16 pins.timeout kRawWriteSysTicks)
                          (globalPin_set_dir E PinDir_Input pins.sda
                            ([7, 6, 5, 4, 3, 2, 1, 0].foldl (i2c_write_bit E w pins) t)))))).2).2)))) := by
  simp only [i2c_write_byte, wait_until_high_of_high E pins.scl fuel _ hE hf, Option.bind_eq_bind,
    Option.some_bind]
  rw [globalPin_read_raw_eq E pins.sda]

theorem St.write_bits {pins : I2C_Pin_Pair} {s t : Hw} {B : List BusEv} {l : Nat}
    (h : St pins s t B true l) (hp : pins_ok pins) (E : Env) (w : Nat) :
    ∃ l2, St pins s ([7, 6, 5, 4, 3, 2, 1, 0].foldl (i2c_write_bit E w pins) t)
      (B ++ (bits_msb w).map BusEv.clk) true l2 := by
  simp only [List.foldl]
  obtain ⟨_, h7⟩ := h.write_bit hp E w 7
  obtain ⟨_, h6⟩ := h7.write_bit hp E w 6
  obtain ⟨_, h5⟩ := h6.write_bit hp E w 5
  obtain ⟨_, h4⟩ := h5.write_bit hp E w 4
  obtain ⟨_, h3⟩ := h4.write_bit hp E w 3
  obtain ⟨_, h2⟩ := h3.write_bit hp E w 2
  obtain ⟨_, h1⟩ := h2.write_bit hp E w 1
  obtain ⟨l0, h0⟩ := h1.write_bit hp E w 0
  exact ⟨l0, by simpa [bits_msb] using h0⟩

theorem St.ack_tail {pins : I2C_Pin_Pair} {s t1 : Hw} {B : List BusEv}
    (h1 : St pins s t1 B false 1) (hp : pins_ok pins) (E : Env) (n m : Nat) :
    St pins s
      (internal_busy_wait m
        (globalPin_write_raw E 0 pins.scl
          (globalPin_set_dir E PinDir_Output pins.scl
            (internal_busy_wait n (globalPin_read_raw E pins.sda t1).2)))) B true 1 ∧
    Eff pins t1
      (internal_busy_wait m
        (globalPin_write_raw E 0 pins.scl
          (globalPin_set_dir E PinDir_Output pins.scl
            (internal_busy_wait n (globalPin_read_raw E pins.sda t1).2)))) [] := by
  constructor
  · have h2 := (((h1.read E pins.sda).wait n).scl_out hp E)
    obtain ⟨h3, hl⟩ := h2.scl_low E
    have h4 := h3.wait m
    rwa [hl.mpr rfl] at h4
  · have k1 := ((((St.start pins t1).read E pins.sda).wait n).scl_out hp E)
    exact ((k1.scl_low E).1.wait m).1

theorem St.write_byte {pins : I2C_Pin_Pair} {s t : Hw} {B : List BusEv} {l : Nat}
    (h : St pins s t B true l) (hp : pins_ok pins) (E : Env) (fuel w : Nat)
    (hE : ∀ h, raw_level E pins.scl h = 1) (hf : 0 < fuel) :
    ∃ t1 t2, i2c_write_byte E fuel w pins t =
        some (if raw_level E pins.sda t1.trace = 0 then 1 else 0, t2) ∧
      St pins s t1 (B ++ (bits_msb w).map BusEv.clk ++ [BusEv.clk 1]) false 1 ∧
      St pins s t2 (B ++ (bits_msb w).map BusEv.clk ++ [BusEv.clk 1]) true 1 ∧
      Eff pins t1 t2 [] := by
  obtain ⟨l2, hb⟩ := h.write_bits hp E w
  have h1 := ((((hb.sda_in hp E).wait (sub16 pins.timeout kRawWriteSysTicks)).scl_in hp E).wait
    (sub16 pins.timeout kRawWriteSysTicks)).read E pins.scl
  simp only [if_true, List.append_nil] at h1
  have h2 := h1.ack_tail hp E (sub16 pins.timeout kRawReadSysTicks)
    (sub16 pins.timeout kRawWriteSysTicks)
  exact ⟨_, _, i2c_write_byte_eq E fuel w pins t hE hf, h1, h2.1, h2.2⟩

theorem i2c_write_byte_low_byte (E : Env) (fuel w : Nat) (pins : I2C_Pin_Pair) (s : Hw) :
    i2c_write_byte E fuel (w % 256) pins s = i2c_write_byte E fuel w pins s := by
  simp only [i2c_write_byte, List.foldl, i2c_write_bit_eq]
  rw [bit_of_low_byte w 7 (by norm_num), bit_of_low_byte w 6 (by norm_num),
    bit_of_low_byte w 5 (by norm_num), bit_of_low_byte w 4 (by norm_num),
    bit_of_low_byte w 3 (by norm_num), bit_of_low_byte w 2 (by norm_num),
    bit_of_low_byte w 1 (by norm_num), bit_of_low_byte w 0 (by norm_num)]

theorem bits_msb_eq (w : Nat) :
    (bits_msb w).map BusEv.clk = [7, 6, 5, 4, 3, 2, 1, 0].map fun i => BusEv.clk (w / 2 ^ i % 2) := by
  simp only [bits_msb, List.map, bit_of_eq w 7 (by norm_num), bit_of_eq w 6 (by norm_num),
    bit_of_eq w 5 (by norm_num), bit_of_eq w 4 (by norm_num), bit_of_eq w 3 (by norm_num),
    bit_of_eq w 2 (by norm_num), bit_of_eq w 1 (by norm_num), bit_of_eq w 0 (by norm_num)]

/-- C2: I2C write bit order and ACK.  Called with SCL driven (as START and
every earlier byte leave it) on a bus whose clock is not stretched,
`i2c_write_byte w` returns, and its trace splits into a part `X` up to the
ACK sample and a rest `Y`.  During `X` the bus sees exactly nine SCL releases:
at the first eight SDA shows bits 7, 6, ..., 0 of `w` (1 = released, 0 =
Output driven low), at the ninth SDA is released.  The sample is taken while
SCL is still released; the result is 1 when SDA reads raw 0 there and 0
otherwise; `Y` contains no further bus event.  The upper byte of `w` has no
effect. -/
theorem i2c_write_byte_bit_order (E : Env) (fuel w : Nat) (pins : I2C_Pin_Pair) (s : Hw)
    (hp : pins_ok pins) (hout : is_output s.regs pins.scl = true)
    (hE : ∀ h, raw_level E pins.scl h = 1) (hf : 0 < fuel) :
    ∃ r s2 X Y,
      i2c_write_byte E fuel w pins s = some (r, s2) ∧
      s2.trace = s.trace ++ X ++ Y ∧
      bus_trace pins s.regs X =
        ([7, 6, 5, 4, 3, 2, 1, 0].map fun i => BusEv.clk (w / 2 ^ i % 2)) ++ [BusEv.clk 1] ∧
      bus_trace pins (replay s.regs X) Y = [] ∧
      is_output (replay s.regs X) pins.scl = false ∧
      r = (if raw_level E pins.sda (s.trace ++ X) = 0 then 1 else 0) ∧
      i2c_write_byte E fuel (w % 256) pins s = i2c_write_byte E fuel w pins s := by
  have h0 := St.start pins s
  rw [hout] at h0
  obtain ⟨t1, t2, hret, ⟨⟨X, hX, hB⟩, ho1, _⟩, _, ⟨Y, hY, hC⟩⟩ := h0.write_byte hp E fuel w hE hf
  refine ⟨_, t2, X, Y, hret, ?_, ?_, ?_, ?_, ?_, i2c_write_byte_low_byte E fuel w pins s⟩
  · rw [hY.1, hX.1]
  · rw [hB, List.nil_append, bits_msb_eq]
  · rw [← hX.2]; exact hC
  · rw [← hX.2]; exact ho1
  · rw [hX.1]

theorem i2cPins_ok : pins_ok i2cPins :=
  ⟨⟨0, by decide, rfl⟩, ⟨1, by decide, rfl⟩, Or.inr (by decide)⟩

theorem ackEnv_scl_high (h : List Ev) : raw_level ackEnv i2cPins.scl h = 1 := by
  simp [raw_level, ackEnv, i2cPins, u16]

theorem nackEnv_scl_high (h : List Ev) : raw_level nackEnv i2cPins.scl h = 1 := by
  simp [raw_level, nackEnv, i2cPins, u16]

theorem i2c_write_byte_bit_order_witness :
    (pins_ok i2cPins ∧ is_output hwSclOut.regs i2cPins.scl = true ∧
      (∀ h, raw_level ackEnv i2cPins.scl h = 1) ∧ 0 < 1) ∧
    ([7, 6, 5, 4, 3, 2, 1, 0].map fun i => BusEv.clk (0b10110010 / 2 ^ i % 2)) =
      [1, 0, 1, 1, 0, 0, 1, 0].map BusEv.clk ∧
    ∃ r s2 X Y,
      i2c_write_byte ackEnv 1 0b10110010 i2cPins hwSclOut = some (r, s2) ∧
      s2.trace = hwSclOut.trace ++ X ++ Y ∧
      bus_trace i2cPins hwSclOut.regs X =
        ([7, 6, 5, 4, 3, 2, 1, 0].map fun i => BusEv.clk (0b10110010 / 2 ^ i % 2)) ++
          [BusEv.clk 1] ∧
      bus_trace i2cPins (replay hwSclOut.regs X) Y = [] ∧
      is_output (replay hwSclOut.regs X) i2cPins.scl = false ∧
      r = (if raw_level ackEnv i2cPins.sda (hwSclOut.trace ++ X) = 0 then 1 else 0) ∧
      i2c_write_byte ackEnv 1 (0b10110010 % 256) i2cPins hwSclOut =
        i2c_write_byte ackEnv 1 0b10110010 i2cPins hwSclOut :=
  ⟨⟨i2cPins_ok, by decide, ackEnv_scl_high, by decide⟩, by decide,
    i2c_write_byte_bit_order ackEnv 1 0b10110010 i2cPins hwSclOut i2cPins_ok (by decide)
      ackEnv_scl_high (by decide)⟩

/-! ## I2C transactions -/

theorem St.write_start {pins : I2C_Pin_Pair} {s t : Hw} {B : List BusEv} {o : Bool} {l : Nat}
    (h : St pins s t B o l) (hp : pins_ok pins) (E : Env) (fuel : Nat)
    (hE : ∀ h, raw_level E pins.scl h = 1) (hf : 0 < fuel) :
    ∃ t2, i2c_write_start E fuel pins t = some t2 ∧
      St pins s t2 (B ++ if o then [] else if l = 1 then [BusEv.start] else []) true 1 := by
  simp only [i2c_write_start, wait_until_high_of_high E pins.scl fuel _ hE hf,
    Option.bind_eq_bind, Option.some_bind]
  refine ⟨_, rfl, ?_⟩
  obtain ⟨h1, hout⟩ := (h.read E pins.scl).sda_out hp E
  have h2 := (((h1.sda_low hp E hout).wait (sub16 (2 * pins.timeout) kRawWriteSysTicks)).scl_out
    hp E)
  have h3 := (((h2.scl_low E).1.wait (sub16 pins.timeout kRawWriteSysTicks)).sda_in hp E)
  simpa using h3

theorem St.write_stop {pins : I2C_Pin_Pair} {s t : Hw} {B : List BusEv} {l : Nat}
    (h : St pins s t B true l) (hp : pins_ok pins) (E : Env) :
    ∃ x, x ≠ 1 ∧ St pins s (i2c_write_stop E pins t) (B ++ [BusEv.clk x, BusEv.stop]) false 1 := by
  unfold i2c_write_stop
  obtain ⟨h1, hout⟩ := h.sda_out hp E
  have h2 := h1.scl_out hp E
  have hout2 : is_output (globalPin_set_dir E PinDir_Output pins.scl
      (globalPin_set_dir E PinDir_Output pins.sda t)).regs pins.sda = true := by
    rw [is_output_set_dir_other E PinDir_Output pins.scl pins.sda _ hp.2.1 hp.1
      (pins_distinct_symm hp.2.2)]
    exact hout
  have h3 := h2.sda_low hp E hout2
  obtain ⟨h4, hl⟩ := h3.scl_low E
  have hx : line (globalPin_write_raw E 0 pins.scl (globalPin_write_raw E 0 pins.sda
      (globalPin_set_dir E PinDir_Output pins.scl
        (globalPin_set_dir E PinDir_Output pins.sda t)))).regs pins.sda ≠ 1 := by
    intro hc
    exact absurd (hl.mp hc) (by decide)
  have h5 := ((((h4.wait (sub16 pins.timeout kRawWriteSysTicks)).scl_in hp E).wait
    (sub16 (2 * pins.timeout) kRawWriteSysTicks)).sda_in hp E)
  refine ⟨_, hx, ?_⟩
  simpa [hx] using h5

theorem St.init {pins : I2C_Pin_Pair} {s t : Hw} {B : List BusEv} {o : Bool} {l : Nat}
    (h : St pins s t B o l) (hp : pins_ok pins) (E : Env) :
    St pins s (i2c_init E pins t)
      (B ++ (if o then [BusEv.clk l] else []) ++ if l = 1 then [] else [BusEv.stop]) false 1 := by
  unfold i2c_init
  simpa using (h.scl_in hp E).sda_in hp E

theorem i2c_write_to_addr_eq (E : Env) (fuel a b : Nat) (pins : I2C_Pin_Pair) (s : Hw) :
    i2c_write_to_addr E fuel a b pins s = transact E fuel pins [a, b] s := by
  unfold i2c_write_to_addr transact
  cases h0 : i2c_write_start E fuel pins s with
  | none => rfl
  | some s1 =>
    simp only [Option.bind_eq_bind, Option.some_bind, write_seq]
    cases h1 : i2c_write_byte E fuel a pins s1 with
    | none => rfl
    | some r1 =>
      obtain ⟨a1, s2⟩ := r1
      simp only [Option.some_bind]
      by_cases ha1 : a1 = 0
      · simp [ha1]
      · simp only [ha1, if_false]
        cases h2 : i2c_write_byte E fuel b pins s2 with
        | none => rfl
        | some r2 =>
          obtain ⟨a2, s3⟩ := r2
          by_cases ha2 : a2 = 0 <;> simp [ha2]

theorem i2c_write_to_register_eq (E : Env) (fuel a r b : Nat) (pins : I2C_Pin_Pair) (s : Hw) :
    i2c_write_to_register E fuel a r b pins s = transact E fuel pins [a, r, b] s := by
  unfold i2c_write_to_register transact
  cases h0 : i2c_write_start E fuel pins s with
  | none => rfl
  | some s1 =>
    simp only [Option.bind_eq_bind, Option.some_bind, write_seq]
    cases h1 : i2c_write_byte E fuel a pins s1 with
    | none => rfl
    | some r1 =>
      obtain ⟨a1, s2⟩ := r1
      simp only [Option.some_bind]
      by_cases ha1 : a1 = 0
      · simp [ha1]
      · simp only [ha1, if_false]
        cases h2 : i2c_write_byte E fuel r pins s2 with
        | none => rfl
        | some r2 =>
          obtain ⟨a2, s3⟩ := r2
          simp only [Option.some_bind]
          by_cases ha2 : a2 = 0
          · simp [ha2]
          · simp only [ha2, if_false]
            cases h3 : i2c_write_byte E fuel b pins s3 with
            | none => rfl
            | some r3 =>
              obtain ⟨a3, s4⟩ := r3
              by_cases ha3 : a3 = 0 <;> simp [ha3]

theorem i2c_write_buf_loop_eq (E : Env) (fuel : Nat) (buf : Nat → Nat) (pins : I2C_Pin_Pair)
    (n i : Nat) (s : Hw) :
    i2c_write_buf_loop E fuel buf pins i n s =
      write_seq E fuel pins ((List.range' i n).map buf) s := by
  induction n generalizing i s with
  | zero => rfl
  | succ n ih =>
    simp only [i2c_write_buf_loop, List.range', List.map, write_seq]
    cases h1 : i2c_write_byte E fuel (buf i) pins s with
    | none => rfl
    | some r1 =>
      obtain ⟨a1, s2⟩ := r1
      by_cases ha1 : a1 = 0
      · simp [ha1]
      · simp only [ha1, if_false]
        exact ih (i + 1) s2

theorem i2c_write_buf_to_register_eq (E : Env) (fuel a r : Nat) (buf : Nat → Nat) (len : Nat)
    (pins : I2C_Pin_Pair) (s : Hw) :
    i2c_write_buf_to_register E fuel a r buf len pins s =
      transact E fuel pins (a :: r :: (List.range' 0 len).map buf) s := by
  unfold i2c_write_buf_to_register transact
  cases h0 : i2c_write_start E fuel pins s with
  | none => rfl
  | some s1 =>
    simp only [Option.bind_eq_bind, Option.some_bind, write_seq]
    cases h1 : i2c_write_byte E fuel a pins s1 with
    | none => rfl
    | some r1 =>
      obtain ⟨a1, s2⟩ := r1
      simp only [Option.some_bind]
      by_cases ha1 : a1 = 0
      · simp [ha1]
      · simp only [ha1, if_false]
        cases h2 : i2c_write_byte E fuel r pins s2 with
        | none => rfl
        | some r2 =>
          obtain ⟨a2, s3⟩ := r2
          simp only [Option.some_bind]
          by_cases ha2 : a2 = 0
          · simp [ha2]
          · simp only [ha2, if_false, i2c_write_buf_loop_eq]
            cases h3 : write_seq E fuel pins ((List.range' 0 len).map buf) s3 with
            | none => rfl
            | some r3 =>
              obtain ⟨ok, s4⟩ := r3
              cases ok <;> simp

theorem nclk_append (A B : List BusEv) : nclk (A ++ B) = nclk A + nclk B := by
  simp [nclk, List.countP_append]

theorem nclk_frame (w : Nat) : nclk (frame w) = 9 := by
  simp [nclk, frame, bits_msb, List.countP_cons]

theorem St.seq {pins : I2C_Pin_Pair} (hp : pins_ok pins) (E : Env) (fuel : Nat)
    (hE : ∀ h, raw_level E pins.scl h = 1) (hf : 0 < fuel) (resp : Nat → Bool) (s : Hw)
    (ws : List Nat) :
    ∀ (t : Hw) (B : List BusEv) (k : Nat), St pins s t B true 1 → nclk B = 9 * k →
      (∀ j, k ≤ j → j < k + nsent resp k ws.length → slave_resp E pins s j (resp j)) →
      ∃ t2, write_seq E fuel pins ws t = some (all_acked resp k ws.length, t2) ∧
        St pins s t2 (B ++ frames (ws.take (nsent resp k ws.length))) true 1 := by
  induction ws with
  | nil =>
    intro t B k h _ _
    exact ⟨t, rfl, by simpa [frames, nsent] using h⟩
  | cons w ws ih =>
    intro t B k h hk hresp
    obtain ⟨t1, t2, hret, h1, h2, _⟩ := h.write_byte hp E fuel w hE hf
    obtain ⟨X, hX, hB⟩ := h1.1
    have hn : nclk (bus_trace pins s.regs X) = 9 * (k + 1) := by
      have := nclk_frame w
      rw [frame] at this
      rw [hB, List.append_assoc, nclk_append, hk, this]
      ring
    have hpos : k < k + nsent resp k (w :: ws).length := by
      simp only [List.length_cons, nsent]
      split <;> omega
    have hs := hresp k (le_refl k) hpos X hn
    rw [← hX.1] at hs
    rw [hs] at hret
    have h2f : St pins s t2 (B ++ frame w) true 1 := by
      rw [frame, ← List.append_assoc]; exact h2
    simp only [List.length_cons, nsent] at hresp
    simp only [write_seq, hret, List.length_cons, all_acked, nsent]
    cases hr : resp k
    · refine ⟨t2, by simp, ?_⟩
      simpa [frames] using h2f
    · have hk2 : nclk (B ++ frame w) = 9 * (k + 1) := by
        rw [nclk_append, hk, nclk_frame]; ring
      have hresp2 : ∀ j, k + 1 ≤ j → j < k + 1 + nsent resp (k + 1) ws.length →
          slave_resp E pins s j (resp j) := by
        intro j hj1 hj2
        apply hresp j (by omega)
        rw [hr]; simp only [if_true]; omega
      obtain ⟨t3, e3, h3⟩ := ih t2 (B ++ frame w) (k + 1) h2f hk2 hresp2
      refine ⟨t3, by simpa using e3, ?_⟩
      have e : 1 + nsent resp (k + 1) ws.length = nsent resp (k + 1) ws.length + 1 := by ring
      simpa [frames, e, List.append_assoc] using h3

theorem St.dirs {pins : I2C_Pin_Pair} {s t : Hw} {B : List BusEv} (h : St pins s t B false 1) :
    is_output t.regs pins.sda = false ∧ is_output t.regs pins.scl = false :=
  ⟨(line_eq_one_iff _ _).mp h.2.2, h.2.1⟩

theorem nsent_of_all_acked (resp : Nat → Bool) (n k : Nat) (h : all_acked resp k n = true) :
    nsent resp k n = n := by
  induction n generalizing k with
  | zero => rfl
  | succ n ih =>
    simp only [all_acked, Bool.and_eq_true] at h
    simp only [nsent, h.1, if_true, ih (k + 1) h.2]
    omega

/-- The bus events and result of a transaction started on an idle bus, for a
slave that answers byte `j` with `resp j`. -/
theorem transact_spec {pins : I2C_Pin_Pair} (hp : pins_ok pins) (E : Env) (fuel : Nat)
    (hE : ∀ h, raw_level E pins.scl h = 1) (hf : 0 < fuel) (resp : Nat → Bool)
    (ws : List Nat) (s : Hw)
    (hscl : is_output s.regs pins.scl = false) (hsda : is_output s.regs pins.sda = false)
    (hresp : ∀ j, j < nsent resp 0 ws.length → slave_resp E pins s j (resp j)) :
    ∃ s2, transact E fuel pins ws s = some (if all_acked resp 0 ws.length then 1 else 0, s2) ∧
      is_output s2.regs pins.sda = false ∧ is_output s2.regs pins.scl = false ∧
      (all_acked resp 0 ws.length = true → ∃ x, x ≠ 1 ∧
        bus_trace pins s.regs (s2.trace.drop s.trace.length) =
          BusEv.start :: frames ws ++ [BusEv.clk x, BusEv.stop]) ∧
      (all_acked resp 0 ws.length = false →
        bus_trace pins s.regs (s2.trace.drop s.trace.length) =
          BusEv.start :: frames (ws.take (nsent resp 0 ws.length)) ++ [BusEv.clk 1]) := by
  have h0 := St.start pins s
  rw [hscl, (line_eq_one_iff _ _).mpr hsda] at h0
  obtain ⟨t1, e1, h1⟩ := h0.write_start hp E fuel hE hf
  simp only [List.nil_append, if_true, Bool.false_eq_true, if_false] at h1
  obtain ⟨t2, e2, h2⟩ := St.seq hp E fuel hE hf resp s ws t1 [BusEv.start] 0 h1 (by simp [nclk])
    (fun j _ hj => hresp j (by omega))
  simp only [transact, e1, e2]
  cases hall : all_acked resp 0 ws.length
  · have h3 := h2.init hp E
    refine ⟨_, by simp, h3.dirs.1, h3.dirs.2, by simp, fun _ => ?_⟩
    rw [h3.1.bus]; simp
  · obtain ⟨x, hx, h3⟩ := h2.write_stop hp E
    refine ⟨_, by simp, h3.dirs.1, h3.dirs.2, fun _ => ⟨x, hx, ?_⟩, by simp⟩
    rw [h3.1.bus, nsent_of_all_acked resp _ _ hall]; simp

theorem start_not_mem_frames (ws : List Nat) : BusEv.start ∉ frames ws := by
  induction ws with
  | nil => simp [frames]
  | cons w ws ih => simp [frames, frame, ih]

/-- C3: I2C abort on address NACK.  On an idle bus whose clock is not
stretched, if the slave leaves SDA high at the ninth clock pulse (it does not
ACK the address byte), `i2c_write_to_addr` returns 0; the bus has seen START,
the eight address bits, the ACK pulse and the final release of SCL by
`i2c_init` and nothing else, so no bit of the data byte was clocked out and
no STOP was emitted; and at return SDA and SCL are both Inputs. -/
theorem i2c_write_to_addr_abort (E : Env) (fuel a b : Nat) (pins : I2C_Pin_Pair) (s : Hw)
    (hp : pins_ok pins) (hE : ∀ h, raw_level E pins.scl h = 1) (hf : 0 < fuel)
    (hscl : is_output s.regs pins.scl = false) (hsda : is_output s.regs pins.sda = false)
    (hnack : slave_resp E pins s 0 false) :
    ∃ s2, i2c_write_to_addr E fuel a b pins s = some (0, s2) ∧
      bus_trace pins s.regs (s2.trace.drop s.trace.length) =
        BusEv.start :: frame a ++ [BusEv.clk 1] ∧
      nclk (bus_trace pins s.regs (s2.trace.drop s.trace.length)) = 9 + 1 ∧
      BusEv.stop ∉ bus_trace pins s.regs (s2.trace.drop s.trace.length) ∧
      is_output s2.regs pins.sda = false ∧ is_output s2.regs pins.scl = false := by
  obtain ⟨s2, e, h1, h2, _, h4⟩ := transact_spec hp E fuel hE hf (fun _ => false) [a, b] s
    hscl hsda (by
      intro j hj
      simp only [List.length_cons, List.length_nil, nsent] at hj
      have : j = 0 := by simpa using hj
      subst this; exact hnack)
  have hb := h4 rfl
  simp only [List.length_cons, List.length_nil, nsent, Bool.false_eq_true, if_false,
    List.take_succ_cons, List.take_zero, frames, List.append_nil] at hb
  rw [i2c_write_to_addr_eq]
  refine ⟨s2, by simpa [all_acked] using e, hb, ?_, ?_, h1, h2⟩
  · rw [hb]
    simp [nclk, frame, bits_msb, List.countP_cons, List.countP_append]
  · rw [hb]
    simp [frame]

theorem nackEnv_resp (k : Nat) : slave_resp nackEnv i2cPins hw0 k false := by
  intro X _
  simp [raw_level, nackEnv, i2cPins, u16]

theorem i2c_write_to_addr_abort_witness :
    (pins_ok i2cPins ∧ (∀ h, raw_level nackEnv i2cPins.scl h = 1) ∧ 0 < 1 ∧
      is_output hw0.regs i2cPins.scl = false ∧ is_output hw0.regs i2cPins.sda = false ∧
      slave_resp nackEnv i2cPins hw0 0 false) ∧
    ∃ s2, i2c_write_to_addr nackEnv 1 0x50 0x77 i2cPins hw0 = some (0, s2) ∧
      bus_trace i2cPins hw0.regs (s2.trace.drop hw0.trace.length) =
        BusEv.start :: frame 0x50 ++ [BusEv.clk 1] ∧
      nclk (bus_trace i2cPins hw0.regs (s2.trace.drop hw0.trace.length)) = 9 + 1 ∧
      BusEv.stop ∉ bus_trace i2cPins hw0.regs (s2.trace.drop hw0.trace.length) ∧
      is_output s2.regs i2cPins.sda = false ∧ is_output s2.regs i2cPins.scl = false :=
  ⟨⟨i2cPins_ok, nackEnv_scl_high, by decide, by decide, by decide, nackEnv_resp 0⟩,
    i2c_write_to_addr_abort nackEnv 1 0x50 0x77 i2cPins hw0 i2cPins_ok nackEnv_scl_high
      (by decide) (by decide) (by decide) (nackEnv_resp 0)⟩

theorem nack4Env_scl_high (h : List Ev) : raw_level nack4Env i2cPins.scl h = 1 := by
  unfold raw_level nack4Env
  split <;> simp [i2cPins, u16]

theorem is_output_set_dir_input_keep (E : Env) (p q : GlobalPin) (s : Hw) (hq : pin_ok q)
    (h : is_output s.regs q = false) :
    is_output (globalPin_set_dir E PinDir_Input p s).regs q = false := by
  obtain ⟨j, hj, hn⟩ := hq
  rw [is_output_eq _ q j hj hn] at h ⊢
  rw [regs_set_dir]
  by_cases hport : gpio_get_config_reg q.port = gpio_get_config_reg p.port
  · rw [if_pos hport, ← hport]
    simp [testBit_u16, Nat.testBit_and, h]
  · rw [if_neg hport]; exact h

theorem i2c_init_dirs (E : Env) (pins : I2C_Pin_Pair) (t : Hw)
    (hsda : pin_ok pins.sda) (hscl : pin_ok pins.scl) :
    is_output (i2c_init E pins t).regs pins.sda = false ∧
    is_output (i2c_init E pins t).regs pins.scl = false := by
  unfold i2c_init
  constructor
  · simpa using is_output_set_dir_self E PinDir_Input pins.sda _ hsda
  · apply is_output_set_dir_input_keep E pins.sda pins.scl _ hscl
    simpa using is_output_set_dir_self E PinDir_Input pins.scl t hscl

theorem i2c_write_stop_dirs (E : Env) (pins : I2C_Pin_Pair) (t : Hw)
    (hsda : pin_ok pins.sda) (hscl : pin_ok pins.scl) :
    is_output (i2c_write_stop E pins t).regs pins.sda = false ∧
    is_output (i2c_write_stop E pins t).regs pins.scl = false := by
  unfold i2c_write_stop
  constructor
  · simpa using is_output_set_dir_self E PinDir_Input pins.sda _ hsda
  · apply is_output_set_dir_input_keep E pins.sda pins.scl _ hscl
    rw [regs_wait]
    simpa using is_output_set_dir_self E PinDir_Input pins.scl _ hscl

theorem write_seq_some (E : Env) (fuel : Nat) (pins : I2C_Pin_Pair)
    (hE : ∀ h, raw_level E pins.scl h = 1) (hf : 0 < fuel) (ws : List Nat) :
    ∀ t, ∃ ok t2, write_seq E fuel pins ws t = some (ok, t2) := by
  induction ws with
  | nil => intro t; exact ⟨true, t, rfl⟩
  | cons w ws ih =>
    intro t
    obtain ⟨r, t2, e⟩ : ∃ r t2, i2c_write_byte E fuel w pins t = some (r, t2) :=
      ⟨_, _, i2c_write_byte_eq E fuel w pins t hE hf⟩
    simp only [write_seq, e]
    by_cases hr : r = 0
    · exact ⟨false, t2, by simp [hr]⟩
    · simpa [hr] using ih t2

/-- Every transaction returns 0 or 1 with both lines released, whatever the
slave answers, provided the clock is not stretched. -/
theorem transact_idle (E : Env) (fuel : Nat) (pins : I2C_Pin_Pair)
    (hsda : pin_ok pins.sda) (hscl : pin_ok pins.scl)
    (hE : ∀ h, raw_level E pins.scl h = 1) (hf : 0 < fuel) (ws : List Nat) (s : Hw) :
    ∃ r s2, transact E fuel pins ws s = some (r, s2) ∧ (r = 0 ∨ r = 1) ∧
      is_output s2.regs pins.sda = false ∧ is_output s2.regs pins.scl = false := by
  have e1 : ∃ t1, i2c_write_start E fuel pins s = some t1 := by
    simp [i2c_write_start, wait_until_high_of_high E pins.scl fuel _ hE hf]
  obtain ⟨t1, e1⟩ := e1
  obtain ⟨ok, t2, e2⟩ := write_seq_some E fuel pins hE hf ws t1
  simp only [transact, e1, e2]
  cases ok
  · exact ⟨0, _, rfl, Or.inl rfl, i2c_init_dirs E pins t2 hsda hscl⟩
  · exact ⟨1, _, rfl, Or.inr rfl, i2c_write_stop_dirs E pins t2 hsda hscl⟩

/-- C6: the bus is left idle on every exit path.  For pins with single-bit
masks in the low byte, any starting state, any arguments and any environment
in which SCL reads high (so whatever the slave puts on SDA), each of
`i2c_write_to_addr`, `i2c_write_to_register` and `i2c_write_buf_to_register`
returns, on the STOP path and on the abort path alike, with the direction
bits of SDA and of SCL both Input. -/
theorem i2c_bus_idle_on_exit (E : Env) (fuel a r b : Nat) (buf : Nat → Nat) (len : Nat)
    (pins : I2C_Pin_Pair) (s : Hw) (hsda : pin_ok pins.sda) (hscl : pin_ok pins.scl)
    (hE : ∀ h, raw_level E pins.scl h = 1) (hf : 0 < fuel) :
    (∃ ret s2, i2c_write_to_addr E fuel a b pins s = some (ret, s2) ∧
      is_output s2.regs pins.sda = false ∧ is_output s2.regs pins.scl = false) ∧
    (∃ ret s2, i2c_write_to_register E fuel a r b pins s = some (ret, s2) ∧
      is_output s2.regs pins.sda = false ∧ is_output s2.regs pins.scl = false) ∧
    (∃ ret s2, i2c_write_buf_to_register E fuel a r buf len pins s = some (ret, s2) ∧
      is_output s2.regs pins.sda = false ∧ is_output s2.regs pins.scl = false) := by
  rw [i2c_write_to_addr_eq, i2c_write_to_register_eq, i2c_write_buf_to_register_eq]
  refine ⟨?_, ?_, ?_⟩
  · obtain ⟨ret, s2, e, _, h⟩ := transact_idle E fuel pins hsda hscl hE hf [a, b] s
    exact ⟨ret, s2, e, h⟩
  · obtain ⟨ret, s2, e, _, h⟩ := transact_idle E fuel pins hsda hscl hE hf [a, r, b] s
    exact ⟨ret, s2, e, h⟩
  · obtain ⟨ret, s2, e, _, h⟩ := transact_idle E fuel pins hsda hscl hE hf
      (a :: r :: (List.range' 0 len).map buf) s
    exact ⟨ret, s2, e, h⟩

theorem i2c_bus_idle_on_exit_witness :
    (pin_ok i2cPins.sda ∧ pin_ok i2cPins.scl ∧ (∀ h, raw_level nack4Env i2cPins.scl h = 1) ∧
      0 < 1) ∧
    (∃ ret s2, i2c_write_to_addr nack4Env 1 0x50 0x77 i2cPins hwSclOut = some (ret, s2) ∧
      is_output s2.regs i2cPins.sda = false ∧ is_output s2.regs i2cPins.scl = false) ∧
    (∃ ret s2, i2c_write_to_register nack4Env 1 0x50 0x10 0x77 i2cPins hwSclOut =
        some (ret, s2) ∧
      is_output s2.regs i2cPins.sda = false ∧ is_output s2.regs i2cPins.scl = false) ∧
    (∃ ret s2, i2c_write_buf_to_register nack4Env 1 0x50 0x10 buf123 3 i2cPins hwSclOut =
        some (ret, s2) ∧
      is_output s2.regs i2cPins.sda = false ∧ is_output s2.regs i2cPins.scl = false) :=
  ⟨⟨i2cPins_ok.1, i2cPins_ok.2.1, nack4Env_scl_high, by decide⟩,
    i2c_bus_idle_on_exit nack4Env 1 0x50 0x10 0x77 buf123 3 i2cPins hwSclOut i2cPins_ok.1
      i2cPins_ok.2.1 nack4Env_scl_high (by decide)⟩

/-! ## Idempotence of `i2c_init` -/

theorem testBit_clear (c m i : Nat) :
    (u16 (u16 c &&& not16 m)).testBit i =
      (decide (i < 16) && c.testBit i && !(m.testBit i)) := by
  simp only [not16, testBit_u16, Nat.testBit_and, Nat.testBit_xor, testBit_65535]
  cases decide (i < 16) <;> cases c.testBit i <;> cases m.testBit i <;> rfl

theorem clear_clear (c m : Nat) :
    u16 (u16 (u16 c &&& not16 m) &&& not16 m) = u16 (u16 c &&& not16 m) := by
  apply Nat.eq_of_testBit_eq
  intro i
  simp only [not16, testBit_u16, Nat.testBit_and, Nat.testBit_xor, testBit_65535]
  cases decide (i < 16) <;> cases c.testBit i <;> cases m.testBit i <;> rfl

theorem clear4 (c m n : Nat) :
    u16 (u16 (u16 (u16 (u16 c &&& not16 m) &&& not16 n) &&& not16 m) &&& not16 n) =
      u16 (u16 (u16 c &&& not16 m) &&& not16 n) := by
  apply Nat.eq_of_testBit_eq
  intro i
  simp only [not16, testBit_u16, Nat.testBit_and, Nat.testBit_xor, testBit_65535]
  cases decide (i < 16) <;> cases c.testBit i <;> cases m.testBit i <;> cases n.testBit i <;> rfl

theorem clear_and_self (c m : Nat) : u16 (u16 (u16 c &&& not16 m)) &&& u16 m = 0 := by
  apply Nat.eq_of_testBit_eq
  intro i
  rw [Nat.testBit_and, u16_u16, testBit_clear, testBit_u16, Nat.zero_testBit]
  cases decide (i < 16) <;> cases c.testBit i <;> cases m.testBit i <;> rfl

theorem clear_and_other (c m n : Nat) (h : u16 c &&& u16 n = 0) :
    u16 (u16 (u16 c &&& not16 m)) &&& u16 n = 0 := by
  apply Nat.eq_of_testBit_eq
  intro i
  have hi := congrArg (fun x => x.testBit i) h
  simp only [Nat.testBit_and, testBit_u16, Nat.zero_testBit] at hi
  rw [Nat.testBit_and, u16_u16, testBit_clear, testBit_u16, Nat.zero_testBit]
  cases hd : decide (i < 16) <;> cases hct : c.testBit i <;> cases hn : n.testBit i <;>
    cases m.testBit i <;> simp_all

theorem regs_set_dir_input (E : Env) (p : GlobalPin) (s : Hw) :
    (globalPin_set_dir E PinDir_Input p s).regs =
      clear_at s.regs (gpio_get_config_reg p.port) (u16 p.pin_bitmask <<< 8) := by
  funext r
  rw [regs_set_dir]
  simp only [clear_at, u16_u16]

theorem clear_at_idem (f : Nat → Nat) (a b m n : Nat) :
    clear_at (clear_at (clear_at (clear_at f a m) b n) a m) b n =
      clear_at (clear_at f a m) b n := by
  funext r
  by_cases hab : a = b
  · subst hab
    by_cases hr : r = a
    · subst hr; simp only [clear_at, if_true, u16_u16, clear4]
    · simp only [clear_at, if_neg hr]
  · have hba : ¬ b = a := fun h => hab h.symm
    by_cases hr : r = a
    · subst hr; simp only [clear_at, if_true, if_neg hab, u16_u16, clear_clear]
    · by_cases hr2 : r = b
      · subst hr2; simp only [clear_at, if_true, if_neg hba, u16_u16, clear_clear]
      · simp only [clear_at, if_neg hr, if_neg hr2]

/-- C7: idempotent init.  For every pin pair, environment and initial state,
running `i2c_init` twice leaves the register file exactly as running it once
does, and in that register file the direction bits of SDA and of SCL are
both Input. -/
theorem i2c_init_idempotent (E : Env) (pins : I2C_Pin_Pair) (s : Hw) :
    (i2c_init E pins (i2c_init E pins s)).regs = (i2c_init E pins s).regs ∧
    is_output (i2c_init E pins s).regs pins.sda = false ∧
    is_output (i2c_init E pins s).regs pins.scl = false := by
  refine ⟨?_, ?_, ?_⟩
  · simp only [i2c_init, regs_set_dir_input, clear_at_idem]
  · simp only [i2c_init, regs_set_dir_input, is_output, clear_at, if_true]
    simp [clear_and_self]
  · simp only [i2c_init, regs_set_dir_input, is_output, clear_at]
    by_cases h2 : gpio_get_config_reg pins.scl.port = gpio_get_config_reg pins.sda.port
    · simp only [h2, if_true]
      simp [clear_and_other _ _ _ (clear_and_self _ _)]
    · simp [h2, clear_and_self]

/-! ## Polarity of the logical write -/

theorem globalPin_write_eq (E : Env) (st : PinLogicState) (pin : GlobalPin) (s : Hw) :
    globalPin_write E st pin s =
      globalPin_write_raw E
        (if (st = ON ∧ pin.polar = Polar_ActiveHigh) ∨ (st = OFF ∧ pin.polar = Polar_ActiveLow)
          then 1 else 0) pin s := by
  unfold globalPin_write globalPin_write_raw
  cases st <;> cases hp : pin.polar <;> simp [u16]

/-- C8: polarity correctness.  For every pin whose 16-bit mask is non-zero,
every state (so every prior port value) and every logical level, if a read of
the port right after a write returns the word written, then after
`globalPin_write` the raw read gives 1 exactly when the level is ON on an
active-high pin or OFF on an active-low pin; so writing ON reads back raw 0 on
an active-low pin and raw 1 on an active-high pin. -/
theorem globalPin_write_polarity (E : Env) (st : PinLogicState) (pin : GlobalPin) (s : Hw)
    (hm : u16 pin.pin_bitmask ≠ 0)
    (hloop : ∀ h v, E (h ++ [Ev.outp v (gpio_get_output_reg pin.port)])
      (gpio_get_input_reg pin.port) = v) :
    ((globalPin_read_raw E pin (globalPin_write E st pin s)).1 = 1 ↔
      (st = ON ∧ pin.polar = Polar_ActiveHigh) ∨ (st = OFF ∧ pin.polar = Polar_ActiveLow)) ∧
    ((globalPin_read_raw E pin (globalPin_write E st pin s)).1 = 1 ∨
      (globalPin_read_raw E pin (globalPin_write E st pin s)).1 = 0) ∧
    (pin.polar = Polar_ActiveLow →
      (globalPin_read_raw E pin (globalPin_write E ON pin s)).1 = 0) ∧
    (pin.polar = Polar_ActiveHigh →
      (globalPin_read_raw E pin (globalPin_write E ON pin s)).1 = 1) := by
  have key : ∀ x : Nat, (globalPin_read_raw E pin (globalPin_write_raw E x pin s)).1 =
      if u16 x ≠ 0 then 1 else 0 := by
    intro x
    rw [globalPin_read_raw_eq, globalPin_write_raw_eq]
    simp only [raw_level, _outp]
    rw [hloop]
    by_cases hx : u16 x = 0
    · have h := and_not_self16 (u16 (E s.trace (gpio_get_input_reg pin.port))) _
        (u16_lt pin.pin_bitmask)
      simp only [u16] at h hx
      simp [hx, u16, not16, h]
    · have h := and_or_self16 (u16 (E s.trace (gpio_get_input_reg pin.port))) _
        (u16_lt pin.pin_bitmask)
      simp only [u16] at h hm hx
      simp [hx, u16, h, hm]
  simp only [globalPin_write_eq, key]
  refine ⟨?_, ?_, ?_, ?_⟩
  · split <;> simp_all [u16]
  · split <;> simp [u16]
  · intro hp; simp [hp, u16]
  · intro hp; simp [hp, u16]

theorem loopbackEnv_reads_last (r : Nat) (h : List Ev) (v : Nat) :
    loopbackEnv (h ++ [Ev.outp v r]) r = v := by
  simp [loopbackEnv]

theorem globalPin_write_polarity_witness :
    (u16 pinB3.pin_bitmask ≠ 0 ∧
      ∀ h v, loopbackEnv (h ++ [Ev.outp v (gpio_get_output_reg pinB3.port)])
        (gpio_get_input_reg pinB3.port) = v) ∧
    ((globalPin_read_raw loopbackEnv pinB3 (globalPin_write loopbackEnv ON pinB3 hw0)).1 = 1 ↔
      (ON = ON ∧ pinB3.polar = Polar_ActiveHigh) ∨ (ON = OFF ∧ pinB3.polar = Polar_ActiveLow)) ∧
    ((globalPin_read_raw loopbackEnv pinB3 (globalPin_write loopbackEnv ON pinB3 hw0)).1 = 1 ∨
      (globalPin_read_raw loopbackEnv pinB3 (globalPin_write loopbackEnv ON pinB3 hw0)).1 = 0) ∧
    (pinB3.polar = Polar_ActiveLow →
      (globalPin_read_raw loopbackEnv pinB3 (globalPin_write loopbackEnv ON pinB3 hw0)).1 = 0) ∧
    (pinB3.polar = Polar_ActiveHigh →
      (globalPin_read_raw loopbackEnv pinB3 (globalPin_write loopbackEnv ON pinB3 hw0)).1 = 1) :=
  ⟨⟨by decide, fun h v => loopbackEnv_reads_last _ h v⟩,
    globalPin_write_polarity loopbackEnv ON pinB3 hw0 (by decide)
      (fun h v => loopbackEnv_reads_last _ h v)⟩

/-! ## I2C byte read -/

theorem i2c_read_bit_eq (E : Env) (fuel : Nat) (pins : I2C_Pin_Pair) (byte : Nat) (t : Hw)
    (i : Nat) (hE : ∀ h, raw_level E pins.scl h = 1) (hf : 0 < fuel) :
    i2c_read_bit E fuel pins (byte, t) i =
      some (u16 (byte + (byte + raw_level E pins.sda
              (internal_busy_wait (sub16 pins.timeout kRawReadSysTicks)
                (globalPin_read_raw E pins.scl
                  (globalPin_set_dir E PinDir_Input pins.scl t)).2).trace)),
        internal_busy_wait (sub16 pins.timeout kRawReadSysTicks)
          (globalPin_write_raw E 0 pins.scl
            (globalPin_set_dir E PinDir_Output pins.scl
              (globalPin_read_raw E pins.sda
                (internal_busy_wait (sub16 pins.timeout kRawReadSysTicks)
                  (globalPin_read_raw E pins.scl
                    (globalPin_set_dir E PinDir_Input pins.scl t)).2)).2))) := by
  simp only [i2c_read_bit, wait_until_high_of_high E pins.scl fuel _ hE hf, Option.bind_eq_bind,
    Option.some_bind]
  rw [globalPin_read_raw_eq E pins.sda]

theorem St.read_bit {pins : I2C_Pin_Pair} {s t : Hw} {B : List BusEv} {l : Nat}
    (h : St pins s t B true l) (hp : pins_ok pins) (E : Env) (fuel byte i : Nat)
    (hE : ∀ h, raw_level E pins.scl h = 1) (hf : 0 < fuel) :
    ∃ t1 t2 l2, i2c_read_bit E fuel pins (byte, t) i =
        some (u16 (byte + (byte + raw_level E pins.sda t1.trace)), t2) ∧
      Eff pins s t1 (B ++ [BusEv.clk l]) ∧
      St pins s t2 (B ++ [BusEv.clk l]) true l2 ∧ (l2 = 1 ↔ l = 1) := by
  have h1 := ((h.scl_in hp E).read E pins.scl).wait (sub16 pins.timeout kRawReadSysTicks)
  simp only [if_true] at h1
  have h2 := ((h1.read E pins.sda).scl_out hp E)
  obtain ⟨h3, hl⟩ := h2.scl_low E
  exact ⟨_, _, _, i2c_read_bit_eq E fuel pins byte t i hE hf, h1.1,
    h3.wait (sub16 pins.timeout kRawReadSysTicks), hl⟩

theorem St.read_bits {pins : I2C_Pin_Pair} (hp : pins_ok pins) (E : Env) (fuel : Nat)
    (hE : ∀ h, raw_level E pins.scl h = 1) (hf : 0 < fuel) (s : Hw) (L : Nat → Nat)
    (js : List Nat) :
    ∀ (t : Hw) (B : List BusEv) (l acc k : Nat), St pins s t B true l → nclk B = k →
      (∀ i, k ≤ i → i < k + js.length → slave_bit E pins s i (L i)) →
      ∃ t2 l2 B2, js.foldlM (i2c_read_bit E fuel pins) (acc, t) =
          some (i2c_accum acc ((List.range' k js.length).map L), t2) ∧
        St pins s t2 (B ++ B2) true l2 ∧ nclk B2 = js.length ∧
        (l = 1 → B2 = List.replicate js.length (BusEv.clk 1) ∧ l2 = 1) ∧
        (∀ i, k ≤ i → i < k + js.length → L i ≤ 1) := by
  induction js with
  | nil =>
    intro t B l acc k h _ _
    exact ⟨t, l, [], rfl, by simpa using h, rfl, fun hl => ⟨rfl, hl⟩,
      fun i h1 h2 => by simp at h2; omega⟩
  | cons j js ih =>
    intro t B l acc k h hk hL
    obtain ⟨t1, t2, l2, e, ⟨X, hX, hB⟩, h2, hl⟩ := h.read_bit hp E fuel acc j hE hf
    have hn : nclk (bus_trace pins s.regs X) = k + 1 := by
      rw [hB, nclk_append, hk]; rfl
    have hs := hL k (le_refl k) (by simp) X hn
    rw [← hX.1] at hs
    rw [hs] at e
    have hk2 : nclk (B ++ [BusEv.clk l]) = k + 1 := by
      rw [nclk_append, hk]; rfl
    obtain ⟨t3, l3, B3, e3, h3, hn3, hl3, hle3⟩ := ih t2 (B ++ [BusEv.clk l]) l2
      (u16 (acc + (acc + L k))) (k + 1) h2 hk2
      (fun i hi1 hi2 => hL i (by omega) (by simp only [List.length_cons]; omega))
    have hLk : L k ≤ 1 := by
      rw [← hs]; unfold raw_level; split <;> omega
    refine ⟨t3, l3, BusEv.clk l :: B3, ?_, ?_, ?_, ?_, ?_⟩
    rotate_right
    · intro i hi1 hi2
      rcases Nat.eq_or_lt_of_le hi1 with e | l
      · rw [← e]; exact hLk
      · exact hle3 i l (by simp only [List.length_cons] at hi2; omega)
    · simp only [List.foldlM, e, List.length_cons, List.range', List.map, i2c_accum, List.foldl]
      exact e3
    · simpa using h3
    · rw [List.length_cons, ← hn3]
      simp [nclk, List.countP_cons]
    · intro hl1
      obtain ⟨hb, hl4⟩ := hl3 (hl.mpr hl1)
      exact ⟨by rw [hb, hl1]; rfl, hl4⟩

theorem St.read_tail {pins : I2C_Pin_Pair} {s t : Hw} {B : List BusEv} {l : Nat}
    (h : St pins s t B true l) (hp : pins_ok pins) (E : Env) (nack n1 n2 n3 n4 : Nat) :
    St pins s
      (globalPin_set_dir E PinDir_Input pins.sda
        (internal_busy_wait n4
          (globalPin_write_raw E 0 pins.scl
            (globalPin_set_dir E PinDir_Output pins.scl
              (internal_busy_wait n3
                (globalPin_read_raw E pins.scl
                  (internal_busy_wait n2
                    (globalPin_set_dir E PinDir_Input pins.scl
                      (internal_busy_wait n1
                        (if u16 nack ≠ 0 then globalPin_set_dir E PinDir_Input pins.sda t
                          else globalPin_write_raw E 0 pins.sda
                            (globalPin_set_dir E PinDir_Output pins.sda t)))))).2)))))
      (B ++ [BusEv.clk (if u16 nack ≠ 0 then 1 else 0)]) true 1 := by
  have ha : St pins s
      (if u16 nack ≠ 0 then globalPin_set_dir E PinDir_Input pins.sda t
        else globalPin_write_raw E 0 pins.sda (globalPin_set_dir E PinDir_Output pins.sda t))
      B true (if u16 nack ≠ 0 then 1 else 0) := by
    by_cases hn : u16 nack ≠ 0
    · rw [if_pos hn, if_pos hn]
      simpa using h.sda_in hp E
    · rw [if_neg hn, if_neg hn]
      obtain ⟨h0, hout⟩ := h.sda_out hp E
      simpa using h0.sda_low hp E hout
  have h1 := (((((ha.wait n1).scl_in hp E).wait n2).read E pins.scl).wait n3).scl_out hp E
  have h2 := (((h1.scl_low E).1.wait n4).sda_in hp E)
  simpa using h2

theorem St.read_byte {pins : I2C_Pin_Pair} (hp : pins_ok pins) (E : Env) (fuel nack : Nat)
    (hE : ∀ h, raw_level E pins.scl h = 1) (hf : 0 < fuel) (s : Hw) (L : Nat → Nat)
    (hscl : is_output s.regs pins.scl = true)
    (hL : ∀ i, i < 8 → slave_bit E pins s i (L i)) :
    ∃ s2 B2, i2c_read_byte E fuel nack pins s =
        some (i2c_accum 0 ([0, 1, 2, 3, 4, 5, 6, 7].map L), s2) ∧
      St pins s s2 (B2 ++ [BusEv.clk (if u16 nack ≠ 0 then 1 else 0)]) true 1 ∧
      nclk B2 = 8 ∧
      (is_output s.regs pins.sda = false → B2 = List.replicate 8 (BusEv.clk 1)) ∧
      out_level s2.regs pins.scl = false ∧ (∀ i, i < 8 → L i ≤ 1) := by
  have h0 := St.start pins s
  rw [hscl] at h0
  obtain ⟨t8, l8, B8, e8, h8, hn8, hl8, hle8⟩ := St.read_bits hp E fuel hE hf s L [7, 6, 5, 4, 3, 2, 1, 0]
    s [] (line s.regs pins.sda) 0 0 h0 rfl (fun i _ hi => hL i (by simpa using hi))
  have e8b : List.foldlM (i2c_read_bit E fuel pins) (0, s) [7, 6, 5, 4, 3, 2, 1, 0] =
      some (i2c_accum 0 ([0, 1, 2, 3, 4, 5, 6, 7].map L), t8) := e8
  simp only [List.nil_append] at h8
  have ht := h8.read_tail hp E nack (sub16 pins.timeout kRawWriteSysTicks)
    (sub16 pins.timeout kRawWriteSysTicks) (sub16 pins.timeout kRawWriteSysTicks)
    (sub16 pins.timeout kRawWriteSysTicks)
  refine ⟨_, B8, ?_, ht, hn8, ?_, ?_, fun i hi => hle8 i (Nat.zero_le i) (by simpa using hi)⟩
  · simp only [i2c_read_byte, e8b, wait_until_high_of_high E pins.scl fuel _ hE hf,
      Option.bind_eq_bind, Option.some_bind]
  · intro hsda
    exact (hl8 ((line_eq_one_iff _ _).mpr hsda)).1
  · rw [out_level_set_dir, regs_wait, out_level_write_raw_zero E pins.scl _ hp.2.1]

theorem i2c_accum_bits (a b c d e f g h : Nat) (ha : a ≤ 1) (hb : b ≤ 1) (hc : c ≤ 1)
    (hd : d ≤ 1) (he : e ≤ 1) (hf : f ≤ 1) (hg : g ≤ 1) (hh : h ≤ 1) :
    i2c_accum 0 [a, b, c, d, e, f, g, h] =
      a * 128 + b * 64 + c * 32 + d * 16 + e * 8 + f * 4 + g * 2 + h := by
  have h2 : ∀ x : Nat, x ≤ 1 → x = 0 ∨ x = 1 := fun x hx => by omega
  rcases h2 a ha with rfl | rfl <;> rcases h2 b hb with rfl | rfl <;>
  rcases h2 c hc with rfl | rfl <;> rcases h2 d hd with rfl | rfl <;>
  rcases h2 e he with rfl | rfl <;> rcases h2 f hf with rfl | rfl <;>
  rcases h2 g hg with rfl | rfl <;> rcases h2 h hh with rfl | rfl <;> rfl

theorem add_add_eq_shift_or (b v : Nat) (hv : v ≤ 1) : u16 (b + (b + v)) = u16 (b <<< 1 ||| v) := by
  have h := Nat.mul_add_lt_is_or (i := 1) (b := v) (by omega) b
  rw [Nat.shiftLeft_eq, ← Nat.pow_one 2]
  conv_rhs => rw [Nat.mul_comm, ← h]
  congr 1
  ring

/-- C9: I2C read is MSB first.  Called with SCL driven on a bus whose clock is
not stretched, with a slave that presents raw level `L i` on SDA during clock
pulse `i` (0..7), `i2c_read_byte` returns
`L 0 * 128 + L 1 * 64 + ... + L 7 * 1`: the first-sampled bit is bit 7.  The
result is below 256, and each accumulation step `byte + (byte + bit)` equals
`(byte << 1) | bit`. -/
theorem i2c_read_byte_msb_first (E : Env) (fuel nack : Nat) (pins : I2C_Pin_Pair) (s : Hw)
    (L : Nat → Nat) (hp : pins_ok pins) (hscl : is_output s.regs pins.scl = true)
    (hE : ∀ h, raw_level E pins.scl h = 1) (hf : 0 < fuel)
    (hL : ∀ i, i < 8 → slave_bit E pins s i (L i)) :
    ∃ s2, i2c_read_byte E fuel nack pins s =
        some (L 0 * 128 + L 1 * 64 + L 2 * 32 + L 3 * 16 + L 4 * 8 + L 5 * 4 + L 6 * 2 + L 7,
          s2) ∧
      L 0 * 128 + L 1 * 64 + L 2 * 32 + L 3 * 16 + L 4 * 8 + L 5 * 4 + L 6 * 2 + L 7 < 256 ∧
      ∀ b v, v ≤ 1 → u16 (b + (b + v)) = u16 (b <<< 1 ||| v) := by
  obtain ⟨s2, B2, e, _, _, _, _, hle⟩ := St.read_byte hp E fuel nack hE hf s L hscl hL
  have h0 := hle 0 (by norm_num)
  have h1 := hle 1 (by norm_num)
  have h2 := hle 2 (by norm_num)
  have h3 := hle 3 (by norm_num)
  have h4 := hle 4 (by norm_num)
  have h5 := hle 5 (by norm_num)
  have h6 := hle 6 (by norm_num)
  have h7 := hle 7 (by norm_num)
  simp only [List.map] at e
  rw [i2c_accum_bits _ _ _ _ _ _ _ _ h0 h1 h2 h3 h4 h5 h6 h7] at e
  exact ⟨s2, e, by omega, add_add_eq_shift_or⟩

theorem sendA5Env_scl_high (h : List Ev) : raw_level sendA5Env i2cPins.scl h = 1 := by
  unfold raw_level sendA5Env
  rcases Nat.mod_two_eq_zero_or_one (0xA5 / 2 ^ (8 - nclk (bus_trace i2cPins hwSclOut.regs h)))
    with h0 | h1
  · rw [h0]; simp [i2cPins, u16]
  · rw [h1]; simp [i2cPins, u16]

theorem sendA5Env_bit (i : Nat) (hi : i < 8) :
    slave_bit sendA5Env i2cPins hwSclOut i (0xA5 / 2 ^ (7 - i) % 2) := by
  intro X hX
  have e : hwSclOut.trace ++ X = X := rfl
  rw [e]
  unfold raw_level sendA5Env
  rw [hX]
  interval_cases i <;> simp [i2cPins, u16]

theorem i2c_read_byte_msb_first_witness :
    (pins_ok i2cPins ∧ is_output hwSclOut.regs i2cPins.scl = true ∧
      (∀ h, raw_level sendA5Env i2cPins.scl h = 1) ∧ 0 < 1 ∧
      ∀ i, i < 8 → slave_bit sendA5Env i2cPins hwSclOut i ((fun j => 0xA5 / 2 ^ (7 - j) % 2) i)) ∧
    (fun j => 0xA5 / 2 ^ (7 - j) % 2) 0 * 128 + (fun j => 0xA5 / 2 ^ (7 - j) % 2) 1 * 64 +
      (fun j => 0xA5 / 2 ^ (7 - j) % 2) 2 * 32 + (fun j => 0xA5 / 2 ^ (7 - j) % 2) 3 * 16 +
      (fun j => 0xA5 / 2 ^ (7 - j) % 2) 4 * 8 + (fun j => 0xA5 / 2 ^ (7 - j) % 2) 5 * 4 +
      (fun j => 0xA5 / 2 ^ (7 - j) % 2) 6 * 2 + (fun j => 0xA5 / 2 ^ (7 - j) % 2) 7 = 0xA5 ∧
    ∃ s2, i2c_read_byte sendA5Env 1 0 i2cPins hwSclOut =
        some ((fun j => 0xA5 / 2 ^ (7 - j) % 2) 0 * 128 + (fun j => 0xA5 / 2 ^ (7 - j) % 2) 1 * 64 +
          (fun j => 0xA5 / 2 ^ (7 - j) % 2) 2 * 32 + (fun j => 0xA5 / 2 ^ (7 - j) % 2) 3 * 16 +
          (fun j => 0xA5 / 2 ^ (7 - j) % 2) 4 * 8 + (fun j => 0xA5 / 2 ^ (7 - j) % 2) 5 * 4 +
          (fun j => 0xA5 / 2 ^ (7 - j) % 2) 6 * 2 + (fun j => 0xA5 / 2 ^ (7 - j) % 2) 7, s2) ∧
      (fun j => 0xA5 / 2 ^ (7 - j) % 2) 0 * 128 + (fun j => 0xA5 / 2 ^ (7 - j) % 2) 1 * 64 +
        (fun j => 0xA5 / 2 ^ (7 - j) % 2) 2 * 32 + (fun j => 0xA5 / 2 ^ (7 - j) % 2) 3 * 16 +
        (fun j => 0xA5 / 2 ^ (7 - j) % 2) 4 * 8 + (fun j => 0xA5 / 2 ^ (7 - j) % 2) 5 * 4 +
        (fun j => 0xA5 / 2 ^ (7 - j) % 2) 6 * 2 + (fun j => 0xA5 / 2 ^ (7 - j) % 2) 7 < 256 ∧
      ∀ b v, v ≤ 1 → u16 (b + (b + v)) = u16 (b <<< 1 ||| v) :=
  ⟨⟨i2cPins_ok, by decide, sendA5Env_scl_high, by decide, sendA5Env_bit⟩, by decide,
    i2c_read_byte_msb_first sendA5Env 1 0 i2cPins hwSclOut (fun j => 0xA5 / 2 ^ (7 - j) % 2)
      i2cPins_ok (by decide) sendA5Env_scl_high (by decide) sendA5Env_bit⟩

theorem St.read_bits_any {pins : I2C_Pin_Pair} (hp : pins_ok pins) (E : Env) (fuel : Nat)
    (hE : ∀ h, raw_level E pins.scl h = 1) (hf : 0 < fuel) (s : Hw) (js : List Nat) :
    ∀ (t : Hw) (B : List BusEv) (l acc : Nat), St pins s t B true l →
      ∃ t2 l2 B2 acc2, js.foldlM (i2c_read_bit E fuel pins) (acc, t) = some (acc2, t2) ∧
        St pins s t2 (B ++ B2) true l2 ∧ nclk B2 = js.length ∧
        (l = 1 → B2 = List.replicate js.length (BusEv.clk 1) ∧ l2 = 1) := by
  induction js with
  | nil =>
    intro t B l acc h
    exact ⟨t, l, [], acc, rfl, by simpa using h, rfl, fun hl => ⟨rfl, hl⟩⟩
  | cons j js ih =>
    intro t B l acc h
    obtain ⟨t1, t2, l2, e, _, h2, hl⟩ := h.read_bit hp E fuel acc j hE hf
    obtain ⟨t3, l3, B3, acc3, e3, h3, hn3, hl3⟩ := ih t2 (B ++ [BusEv.clk l]) l2
      (u16 (acc + (acc + raw_level E pins.sda t1.trace))) h2
    refine ⟨t3, l3, BusEv.clk l :: B3, acc3, ?_, ?_, ?_, ?_⟩
    · simp only [List.foldlM, e]
      exact e3
    · simpa using h3
    · rw [List.length_cons, ← hn3]
      simp [nclk, List.countP_cons]
    · intro hl1
      obtain ⟨hb, hl4⟩ := hl3 (hl.mpr hl1)
      exact ⟨by rw [hb, hl1]; rfl, hl4⟩

/-- C10: ACK/NACK emission of `i2c_read_byte`.  Called with SCL driven and SDA
released on a bus whose clock is not stretched, `i2c_read_byte` returns after
exactly nine clock pulses and no other bus event: eight data pulses with SDA
released, then one pulse at which SDA is released when `nack` is non-zero and
Output driven low when `nack` is zero; SDA does not change direction while
SCL is released; at return SDA is Input and SCL is Output with its output bit
0. -/
theorem i2c_read_byte_ack_emission (E : Env) (fuel nack : Nat) (pins : I2C_Pin_Pair) (s : Hw)
    (hp : pins_ok pins) (hscl : is_output s.regs pins.scl = true)
    (hsda : is_output s.regs pins.sda = false)
    (hE : ∀ h, raw_level E pins.scl h = 1) (hf : 0 < fuel) :
    ∃ r s2, i2c_read_byte E fuel nack pins s = some (r, s2) ∧
      bus_trace pins s.regs (s2.trace.drop s.trace.length) =
        List.replicate 8 (BusEv.clk 1) ++ [BusEv.clk (if u16 nack ≠ 0 then 1 else 0)] ∧
      is_output s2.regs pins.sda = false ∧ is_output s2.regs pins.scl = true ∧
      out_level s2.regs pins.scl = false := by
  have h0 := St.start pins s
  rw [hscl, (line_eq_one_iff _ _).mpr hsda] at h0
  obtain ⟨t8, l8, B8, acc8, e8, h8, _, hl8⟩ := St.read_bits_any hp E fuel hE hf s
    [7, 6, 5, 4, 3, 2, 1, 0] s [] 1 0 h0
  obtain ⟨hB8, _⟩ := hl8 rfl
  simp only [List.nil_append] at h8
  have ht := h8.read_tail hp E nack (sub16 pins.timeout kRawWriteSysTicks)
    (sub16 pins.timeout kRawWriteSysTicks) (sub16 pins.timeout kRawWriteSysTicks)
    (sub16 pins.timeout kRawWriteSysTicks)
  refine ⟨acc8, _, ?_, ?_, (line_eq_one_iff _ _).mp ht.2.2, ht.2.1, ?_⟩
  · simp only [i2c_read_byte, e8, wait_until_high_of_high E pins.scl fuel _ hE hf,
      Option.bind_eq_bind, Option.some_bind]
  · rw [ht.1.bus, hB8]; rfl
  · rw [out_level_set_dir, regs_wait, out_level_write_raw_zero E pins.scl _ hp.2.1]

theorem i2c_read_byte_ack_emission_witness :
    (pins_ok i2cPins ∧ is_output hwSclOut.regs i2cPins.scl = true ∧
      is_output hwSclOut.regs i2cPins.sda = false ∧
      (∀ h, raw_level ackEnv i2cPins.scl h = 1) ∧ 0 < 1) ∧
    ∃ r s2, i2c_read_byte ackEnv 1 0 i2cPins hwSclOut = some (r, s2) ∧
      bus_trace i2cPins hwSclOut.regs (s2.trace.drop hwSclOut.trace.length) =
        List.replicate 8 (BusEv.clk 1) ++ [BusEv.clk (if u16 0 ≠ 0 then 1 else 0)] ∧
      is_output s2.regs i2cPins.sda = false ∧ is_output s2.regs i2cPins.scl = true ∧
      out_level s2.regs i2cPins.scl = false :=
  ⟨⟨i2cPins_ok, by decide, by decide, ackEnv_scl_high, by decide⟩,
    i2c_read_byte_ack_emission ackEnv 1 0 i2cPins hwSclOut i2cPins_ok (by decide) (by decide)
      ackEnv_scl_high (by decide)⟩

/-! ## Logical read -/

theorem globalPin_read_eq (E : Env) (pin : GlobalPin) (s : Hw) :
    (globalPin_read E pin s).1 =
      if pin.polar = Polar_ActiveHigh then
        (if u16 (E s.trace (gpio_get_input_reg pin.port)) &&& u16 pin.pin_bitmask ≠ 0
          then ON else OFF)
      else
        (if u16 (E s.trace (gpio_get_input_reg pin.port)) &&& u16 pin.pin_bitmask = 0
          then ON else OFF) := by
  simp only [globalPin_read, gpio_read, _inp, isLevelReg_input, if_true]
  split <;> rfl

/-- C13: the logical read follows polarity.  For every pin, environment and
state, with `v` the port level word the read returns: `globalPin_read` gives
ON exactly when `v & pin_bitmask` is non-zero on an active-high pin and
exactly when it is zero on an active-low pin; so it gives ON exactly when
`globalPin_read_raw` gives 1 on an active-high pin and exactly when it gives 0
on an active-low pin; `globalPin_read_raw` is always 0 or 1; and both reads
leave the same state. -/
theorem globalPin_read_polarity (E : Env) (pin : GlobalPin) (s : Hw) :
    ((globalPin_read E pin s).1 = ON ↔
      if pin.polar = Polar_ActiveHigh then
        u16 (E s.trace (gpio_get_input_reg pin.port)) &&& u16 pin.pin_bitmask ≠ 0
      else u16 (E s.trace (gpio_get_input_reg pin.port)) &&& u16 pin.pin_bitmask = 0) ∧
    ((globalPin_read E pin s).1 = ON ↔
      (globalPin_read_raw E pin s).1 = if pin.polar = Polar_ActiveHigh then 1 else 0) ∧
    ((globalPin_read_raw E pin s).1 = 0 ∨ (globalPin_read_raw E pin s).1 = 1) ∧
    (globalPin_read E pin s).2 = (globalPin_read_raw E pin s).2 := by
  rw [globalPin_read_eq, globalPin_read_raw_eq]
  simp only [raw_level]
  refine ⟨?_, ?_, ?_, ?_⟩
  · by_cases hp : pin.polar = Polar_ActiveHigh <;>
      by_cases h : u16 (E s.trace (gpio_get_input_reg pin.port)) &&& u16 pin.pin_bitmask = 0 <;>
      simp [h, hp]
  · by_cases hp : pin.polar = Polar_ActiveHigh <;>
      by_cases h : u16 (E s.trace (gpio_get_input_reg pin.port)) &&& u16 pin.pin_bitmask = 0 <;>
      simp [h, hp]
  · by_cases h : u16 (E s.trace (gpio_get_input_reg pin.port)) &&& u16 pin.pin_bitmask = 0 <;>
      simp [h]
  · simp only [globalPin_read, gpio_read, _inp, isLevelReg_input, if_true]
    split <;> rfl

/-! ## Direction switching -/

theorem or_lt_65536 {a b : Nat} (ha : a < 65536) (hb : b < 65536) : a ||| b < 65536 := by
  have h16 : (65536 : Nat) = 2 ^ 16 := by norm_num
  rw [h16] at ha hb ⊢
  exact Nat.or_lt_two_pow ha hb

theorem two_pow_dir_lt (k : Nat) (hk : k < 8) : 2 ^ (k + 8) < 65536 := by
  interval_cases k <;> norm_num

/-- C14 (amended): direction switching.  For every pin whose mask is a single
bit in the low byte (`pin_bitmask = 2^k`, `k < 8`) and every prior value `c`
of its port's direction register, the shifted mask is `m = 2^(k+8)`, a single
bit in bits 8..15; `globalPin_set_dir` reads the register once and writes it
once, writing `c | m` for Output and `c & ~m` for Input; every bit of `c`
other than bit `k + 8` is written back unchanged, and no other register
changes. -/
theorem globalPin_set_dir_frame (E : Env) (pin : GlobalPin) (s : Hw) (k : Nat) (hk : k < 8)
    (hm : pin.pin_bitmask = 2 ^ k) :
    u16 (u16 pin.pin_bitmask <<< 8) = 2 ^ (k + 8) ∧ 8 ≤ k + 8 ∧ k + 8 ≤ 15 ∧
    (globalPin_set_dir E PinDir_Output pin s).trace =
      s.trace ++ [Ev.inp (gpio_get_config_reg pin.port) (u16 (s.regs (gpio_get_config_reg pin.port))),
        Ev.outp (u16 (s.regs (gpio_get_config_reg pin.port)) ||| 2 ^ (k + 8))
          (gpio_get_config_reg pin.port)] ∧
    (globalPin_set_dir E PinDir_Input pin s).trace =
      s.trace ++ [Ev.inp (gpio_get_config_reg pin.port) (u16 (s.regs (gpio_get_config_reg pin.port))),
        Ev.outp (u16 (s.regs (gpio_get_config_reg pin.port)) &&& (65535 ^^^ 2 ^ (k + 8)))
          (gpio_get_config_reg pin.port)] ∧
    (∀ j, j ≠ k + 8 →
      (u16 (s.regs (gpio_get_config_reg pin.port)) ||| 2 ^ (k + 8)).testBit j =
        (u16 (s.regs (gpio_get_config_reg pin.port))).testBit j ∧
      (u16 (s.regs (gpio_get_config_reg pin.port)) &&& (65535 ^^^ 2 ^ (k + 8))).testBit j =
        (u16 (s.regs (gpio_get_config_reg pin.port))).testBit j) ∧
    (∀ d r, r ≠ gpio_get_config_reg pin.port → (globalPin_set_dir E d pin s).regs r = s.regs r) := by
  have hd := dirbit_eq k hk
  have hlt := two_pow_dir_lt k hk
  have hc := u16_lt (s.regs (gpio_get_config_reg pin.port))
  refine ⟨by rw [hm, hd], by omega, by omega, ?_, ?_, ?_, ?_⟩
  · rw [globalPin_set_dir_eq]
    simp only [_outp, hm, hd, List.append_assoc, List.singleton_append]
    rw [show u16 (u16 (s.regs (gpio_get_config_reg pin.port)) ||| 2 ^ (k + 8)) =
      u16 (s.regs (gpio_get_config_reg pin.port)) ||| 2 ^ (k + 8) from
      Nat.mod_eq_of_lt (or_lt_65536 hc hlt)]
  · rw [globalPin_set_dir_eq]
    simp only [_outp, hm, not16, u16_u16, hd, List.append_assoc, List.singleton_append]
    rw [show u16 (u16 (s.regs (gpio_get_config_reg pin.port)) &&& (65535 ^^^ 2 ^ (k + 8))) =
      u16 (s.regs (gpio_get_config_reg pin.port)) &&& (65535 ^^^ 2 ^ (k + 8)) from
      Nat.mod_eq_of_lt (lt_of_le_of_lt Nat.and_le_left hc)]
  · intro j hj
    have hne : k + 8 ≠ j := fun h => hj h.symm
    constructor
    · simp [Nat.testBit_or, Nat.testBit_two_pow_of_ne hne]
    · simp only [Nat.testBit_and, Nat.testBit_xor, testBit_65535, testBit_u16,
        Nat.testBit_two_pow_of_ne hne]
      cases decide (j < 16) <;> simp
  · intro d r hr
    rw [regs_set_dir, if_neg hr]

theorem globalPin_set_dir_frame_witness :
    (3 < 8 ∧ pinB3.pin_bitmask = 2 ^ 3) ∧
    u16 (u16 pinB3.pin_bitmask <<< 8) = 2 ^ (3 + 8) ∧ 8 ≤ 3 + 8 ∧ 3 + 8 ≤ 15 ∧
    (globalPin_set_dir ackEnv PinDir_Output pinB3 hw0).trace =
      hw0.trace ++ [Ev.inp (gpio_get_config_reg pinB3.port)
          (u16 (hw0.regs (gpio_get_config_reg pinB3.port))),
        Ev.outp (u16 (hw0.regs (gpio_get_config_reg pinB3.port)) ||| 2 ^ (3 + 8))
          (gpio_get_config_reg pinB3.port)] ∧
    (globalPin_set_dir ackEnv PinDir_Input pinB3 hw0).trace =
      hw0.trace ++ [Ev.inp (gpio_get_config_reg pinB3.port)
          (u16 (hw0.regs (gpio_get_config_reg pinB3.port))),
        Ev.outp (u16 (hw0.regs (gpio_get_config_reg pinB3.port)) &&& (65535 ^^^ 2 ^ (3 + 8)))
          (gpio_get_config_reg pinB3.port)] ∧
    (∀ j, j ≠ 3 + 8 →
      (u16 (hw0.regs (gpio_get_config_reg pinB3.port)) ||| 2 ^ (3 + 8)).testBit j =
        (u16 (hw0.regs (gpio_get_config_reg pinB3.port))).testBit j ∧
      (u16 (hw0.regs (gpio_get_config_reg pinB3.port)) &&& (65535 ^^^ 2 ^ (3 + 8))).testBit j =
        (u16 (hw0.regs (gpio_get_config_reg pinB3.port))).testBit j) ∧
    (∀ d r, r ≠ gpio_get_config_reg pinB3.port →
      (globalPin_set_dir ackEnv d pinB3 hw0).regs r = hw0.regs r) :=
  ⟨⟨by decide, rfl⟩, globalPin_set_dir_frame ackEnv pinB3 hw0 3 (by decide) rfl⟩

/-- C14 (counterexample): the mask `0x100` has exactly one bit set, in the
upper byte.  Shifted by 8 and truncated to 16 bits it is 0, not a single
non-zero bit of bits 8..15, and `globalPin_set_dir(PinDir_Output)` then writes
the direction register back unchanged: with prior value 0 it writes 0. -/
theorem globalPin_set_dir_frame_counterexample :
    pinHigh.pin_bitmask = 2 ^ 8 ∧ u16 (u16 pinHigh.pin_bitmask <<< 8) = 0 ∧
    (globalPin_set_dir ackEnv PinDir_Output pinHigh hw0).trace =
      [Ev.inp 0x21 0, Ev.outp 0 0x21] ∧
    is_output (globalPin_set_dir ackEnv PinDir_Output pinHigh hw0).regs pinHigh = false := by
  refine ⟨by decide, by decide, ?_, ?_⟩
  · rw [globalPin_set_dir_eq]; rfl
  · rw [is_output, regs_set_dir]; rfl

/-! ## Register write and device write -/

theorem ops_append (a b : List Ev) : ops (a ++ b) = ops a ++ ops b := by
  simp [ops, List.filterMap_append]

theorem sub16_u16 (a b : Nat) : u16 (sub16 a b) = sub16 a b := by
  simp [sub16, u16]

theorem ops_write_raw (E : Env) (x : Nat) (pin : GlobalPin) (s : Hw) :
    ops (globalPin_write_raw E x pin s).trace =
      ops s.trace ++ [Op.write (gpio_get_output_reg pin.port)] := by
  rw [globalPin_write_raw_eq]
  simp [_outp, ops_append, ops]

theorem ops_set_dir (E : Env) (d : GlobalPin_dir) (pin : GlobalPin) (s : Hw) :
    ops (globalPin_set_dir E d pin s).trace =
      ops s.trace ++ [Op.write (gpio_get_config_reg pin.port)] := by
  rw [globalPin_set_dir_eq]
  simp [_outp, ops_append, ops]

theorem ops_read_raw (E : Env) (pin : GlobalPin) (s : Hw) :
    ops (globalPin_read_raw E pin s).2.trace = ops s.trace := by
  rw [globalPin_read_raw_eq]
  simp [ops_append, ops]

theorem ops_wait (a b : Nat) (s : Hw) :
    ops (internal_busy_wait (sub16 a b) s).trace = ops s.trace ++ [Op.pause (sub16 a b)] := by
  simp [internal_busy_wait, ops_append, ops, sub16_u16]

theorem uart_write_bit_eq (E : Env) (w : Nat) (pins : UART_Pin_Pair) (s : Hw) (i : Nat) :
    uart_write_bit E w pins s i =
      internal_busy_wait (sub16 pins.period kRawWriteSysTicks)
        (if bit_of w i = 1 then globalPin_write_raw E 1 pins.tx s
          else globalPin_write_raw E 0 pins.tx s) := by
  unfold uart_write_bit bit_of
  by_cases h : _rol 1 i &&& u16 w ≠ 0 <;> simp [h]

theorem ops_uart_write_bit (E : Env) (w : Nat) (pins : UART_Pin_Pair) (s : Hw) (i : Nat) :
    ops (uart_write_bit E w pins s i).trace =
      ops s.trace ++ [Op.write (gpio_get_output_reg pins.tx.port),
        Op.pause (sub16 pins.period kRawWriteSysTicks)] := by
  rw [uart_write_bit_eq, ops_wait]
  split <;> simp [ops_write_raw]

theorem ops_uart_write_byte (E : Env) (w : Nat) (pins : UART_Pin_Pair) (s : Hw) :
    ops (uart_write_byte E w pins s).trace =
      ops s.trace ++ (List.replicate 10 [Op.write (gpio_get_output_reg pins.tx.port),
        Op.pause (sub16 pins.period kRawWriteSysTicks)]).flatten := by
  simp [uart_write_byte, ops_wait, ops_write_raw, ops_uart_write_bit, List.replicate]

theorem uart_write_byte_low_byte (E : Env) (w : Nat) (pins : UART_Pin_Pair) (s : Hw) :
    uart_write_byte E (w % 256) pins s = uart_write_byte E w pins s := by
  simp only [uart_write_byte, List.foldl, uart_write_bit_eq]
  rw [bit_of_low_byte w 7 (by norm_num), bit_of_low_byte w 6 (by norm_num),
    bit_of_low_byte w 5 (by norm_num), bit_of_low_byte w 4 (by norm_num),
    bit_of_low_byte w 3 (by norm_num), bit_of_low_byte w 2 (by norm_num),
    bit_of_low_byte w 1 (by norm_num), bit_of_low_byte w 0 (by norm_num)]

theorem uart_frame_eq (w : Nat) :
    uart_frame w = [0, w / 2 ^ 0 % 2, w / 2 ^ 1 % 2, w / 2 ^ 2 % 2, w / 2 ^ 3 % 2, w / 2 ^ 4 % 2,
      w / 2 ^ 5 % 2, w / 2 ^ 6 % 2, w / 2 ^ 7 % 2, 1] := by
  have h : ∀ i, (if _rol 1 i &&& u16 w ≠ 0 then 1 else 0) = bit_of w i := fun i => rfl
  simp only [uart_frame, List.map, h, bit_of_eq w 7 (by norm_num), bit_of_eq w 6 (by norm_num),
    bit_of_eq w 5 (by norm_num), bit_of_eq w 4 (by norm_num), bit_of_eq w 3 (by norm_num),
    bit_of_eq w 2 (by norm_num), bit_of_eq w 1 (by norm_num), bit_of_eq w 0 (by norm_num)]
  rfl

/-- C11: UART transmit framing.  For every word `w`, on a TX pin with a
non-zero mask, the trace `uart_write_byte` adds consists of ten writes to the
TX port's output register, each followed by one busy-wait of
`period - kRawWriteSysTicks` (16-bit), and nothing else but the reads of the
read-modify-writes; the raw levels written are, in order, 0 (start), bits 0,
1, ..., 7 of `w` and 1 (stop); the upper byte of `w` has no effect. -/
theorem uart_write_byte_framing (E : Env) (w : Nat) (pins : UART_Pin_Pair) (s : Hw)
    (hm : u16 pins.tx.pin_bitmask ≠ 0) :
    ops ((uart_write_byte E w pins s).trace.drop s.trace.length) =
      (List.replicate 10 [Op.write (gpio_get_output_reg pins.tx.port),
        Op.pause (sub16 pins.period kRawWriteSysTicks)]).flatten ∧
    raw_writes pins.tx ((uart_write_byte E w pins s).trace.drop s.trace.length) =
      [0, w / 2 ^ 0 % 2, w / 2 ^ 1 % 2, w / 2 ^ 2 % 2, w / 2 ^ 3 % 2, w / 2 ^ 4 % 2,
        w / 2 ^ 5 % 2, w / 2 ^ 6 % 2, w / 2 ^ 7 % 2, 1] ∧
    uart_write_byte E (w % 256) pins s = uart_write_byte E w pins s ∧
    (kRawWriteSysTicks ≤ pins.period → pins.period < 65536 →
      sub16 pins.period kRawWriteSysTicks = pins.period - kRawWriteSysTicks) := by
  refine ⟨?_, ?_, uart_write_byte_low_byte E w pins s, ?_⟩
  · obtain ⟨X, hX⟩ := prefix_uart_write_byte E w pins s
    have h := ops_uart_write_byte E w pins s
    rw [← hX, ops_append] at h
    rw [← hX, List.drop_left]
    exact List.append_cancel_left h
  · rw [uart_tx_frame E w pins s hm, uart_frame_eq]
  · intro h1 h2
    simp only [sub16, u16, kRawWriteSysTicks] at h1 ⊢
    omega

theorem uart_write_byte_framing_witness :
    u16 uartLoop.tx.pin_bitmask ≠ 0 ∧
    ops ((uart_write_byte ackEnv 0x1A5 uartLoop hw0).trace.drop hw0.trace.length) =
      (List.replicate 10 [Op.write (gpio_get_output_reg uartLoop.tx.port),
        Op.pause (sub16 uartLoop.period kRawWriteSysTicks)]).flatten ∧
    raw_writes uartLoop.tx ((uart_write_byte ackEnv 0x1A5 uartLoop hw0).trace.drop
        hw0.trace.length) =
      [0, 0x1A5 / 2 ^ 0 % 2, 0x1A5 / 2 ^ 1 % 2, 0x1A5 / 2 ^ 2 % 2, 0x1A5 / 2 ^ 3 % 2,
        0x1A5 / 2 ^ 4 % 2, 0x1A5 / 2 ^ 5 % 2, 0x1A5 / 2 ^ 6 % 2, 0x1A5 / 2 ^ 7 % 2, 1] ∧
    uart_write_byte ackEnv (0x1A5 % 256) uartLoop hw0 = uart_write_byte ackEnv 0x1A5 uartLoop hw0 ∧
    (kRawWriteSysTicks ≤ uartLoop.period → uartLoop.period < 65536 →
      sub16 uartLoop.period kRawWriteSysTicks = uartLoop.period - kRawWriteSysTicks) :=
  ⟨by decide, uart_write_byte_framing ackEnv 0x1A5 uartLoop hw0 (by decide)⟩

/-! ## Delay arguments -/

theorem ops_i2c_write_stop (E : Env) (pins : I2C_Pin_Pair) (s : Hw) :
    ops (i2c_write_stop E pins s).trace =
      ops s.trace ++
        [Op.write (gpio_get_config_reg pins.sda.port), Op.write (gpio_get_config_reg pins.scl.port),
          Op.write (gpio_get_output_reg pins.sda.port), Op.write (gpio_get_output_reg pins.scl.port),
          Op.pause (sub16 pins.timeout kRawWriteSysTicks),
          Op.write (gpio_get_config_reg pins.scl.port),
          Op.pause (sub16 (2 * pins.timeout) kRawWriteSysTicks),
          Op.write (gpio_get_config_reg pins.sda.port)] := by
  simp [i2c_write_stop, ops_wait, ops_write_raw, ops_set_dir]

theorem ops_i2c_write_start (E : Env) (fuel : Nat) (pins : I2C_Pin_Pair) (s : Hw)
    (hE : ∀ h, raw_level E pins.scl h = 1) (hf : 0 < fuel) :
    ∃ s2, i2c_write_start E fuel pins s = some s2 ∧
      ops s2.trace =
        ops s.trace ++
          [Op.write (gpio_get_config_reg pins.sda.port),
            Op.write (gpio_get_output_reg pins.sda.port),
            Op.pause (sub16 (2 * pins.timeout) kRawWriteSysTicks),
            Op.write (gpio_get_config_reg pins.scl.port),
            Op.write (gpio_get_output_reg pins.scl.port),
            Op.pause (sub16 pins.timeout kRawWriteSysTicks),
            Op.write (gpio_get_config_reg pins.sda.port)] := by
  simp only [i2c_write_start, wait_until_high_of_high E pins.scl fuel _ hE hf,
    Option.bind_eq_bind, Option.some_bind]
  refine ⟨_, rfl, ?_⟩
  simp [ops_wait, ops_write_raw, ops_set_dir, ops_read_raw]

/-- C18 (amended): no delay underflow.  For every I2C per-bit timeout `t` with
`24 < t < 65536` and every UART bit period `P` with `24 < P < 65536`, the
16-bit delay arguments `t - kRawWriteSysTicks`, `t - kRawReadSysTicks`,
`P - kRawWriteSysTicks` and `P - kRawReadSysTicks` equal their exact integer
values; the argument `2*t - kRawWriteSysTicks` equals its exact value when
`t <= 32779` and is `2*t - 24 - 65536` (wrapped) when `t >= 32780`.  These
are the arguments the operations pass: `i2c_write_stop` waits `t - 24` and
then `2*t - 24` (for `t <= 32779`). -/
theorem delay_args_exact (E : Env) (pins : I2C_Pin_Pair) (upins : UART_Pin_Pair) (s : Hw)
    (h1 : kRawWriteSysTicks < pins.timeout) (h2 : pins.timeout < 65536)
    (h3 : kRawWriteSysTicks < upins.period) (h4 : upins.period < 65536) :
    sub16 pins.timeout kRawWriteSysTicks = pins.timeout - 24 ∧
    sub16 pins.timeout kRawReadSysTicks = pins.timeout - 16 ∧
    sub16 upins.period kRawWriteSysTicks = upins.period - 24 ∧
    sub16 upins.period kRawReadSysTicks = upins.period - 16 ∧
    (pins.timeout ≤ 32779 →
      sub16 (2 * pins.timeout) kRawWriteSysTicks = 2 * pins.timeout - 24 ∧
      ops (i2c_write_stop E pins s).trace =
        ops s.trace ++
          [Op.write (gpio_get_config_reg pins.sda.port),
            Op.write (gpio_get_config_reg pins.scl.port),
            Op.write (gpio_get_output_reg pins.sda.port),
            Op.write (gpio_get_output_reg pins.scl.port),
            Op.pause (pins.timeout - 24),
            Op.write (gpio_get_config_reg pins.scl.port),
            Op.pause (2 * pins.timeout - 24),
            Op.write (gpio_get_config_reg pins.sda.port)]) ∧
    (32780 ≤ pins.timeout →
      sub16 (2 * pins.timeout) kRawWriteSysTicks = 2 * pins.timeout - 24 - 65536) := by
  have e1 : sub16 pins.timeout kRawWriteSysTicks = pins.timeout - 24 := by
    simp only [sub16, u16, kRawWriteSysTicks] at h1 ⊢; omega
  refine ⟨e1, ?_, ?_, ?_, ?_, ?_⟩
  · simp only [sub16, u16, kRawWriteSysTicks, kRawReadSysTicks] at h1 ⊢; omega
  · simp only [sub16, u16, kRawWriteSysTicks] at h3 ⊢; omega
  · simp only [sub16, u16, kRawWriteSysTicks, kRawReadSysTicks] at h3 ⊢; omega
  · intro h5
    have e2 : sub16 (2 * pins.timeout) kRawWriteSysTicks = 2 * pins.timeout - 24 := by
      simp only [sub16, u16, kRawWriteSysTicks] at h1 ⊢; omega
    refine ⟨e2, ?_⟩
    rw [ops_i2c_write_stop, e1, e2]
  · intro h5
    simp only [sub16, u16, kRawWriteSysTicks] at h1 ⊢; omega

theorem delay_args_exact_witness :
    (kRawWriteSysTicks < i2cPins.timeout ∧ i2cPins.timeout < 65536 ∧
      kRawWriteSysTicks < uartLoop.period ∧ uartLoop.period < 65536) ∧
    sub16 i2cPins.timeout kRawWriteSysTicks = i2cPins.timeout - 24 ∧
    sub16 i2cPins.timeout kRawReadSysTicks = i2cPins.timeout - 16 ∧
    sub16 uartLoop.period kRawWriteSysTicks = uartLoop.period - 24 ∧
    sub16 uartLoop.period kRawReadSysTicks = uartLoop.period - 16 ∧
    (i2cPins.timeout ≤ 32779 →
      sub16 (2 * i2cPins.timeout) kRawWriteSysTicks = 2 * i2cPins.timeout - 24 ∧
      ops (i2c_write_stop ackEnv i2cPins hw0).trace =
        ops hw0.trace ++
          [Op.write (gpio_get_config_reg i2cPins.sda.port),
            Op.write (gpio_get_config_reg i2cPins.scl.port),
            Op.write (gpio_get_output_reg i2cPins.sda.port),
            Op.write (gpio_get_output_reg i2cPins.scl.port),
            Op.pause (i2cPins.timeout - 24),
            Op.write (gpio_get_config_reg i2cPins.scl.port),
            Op.pause (2 * i2cPins.timeout - 24),
            Op.write (gpio_get_config_reg i2cPins.sda.port)]) ∧
    (32780 ≤ i2cPins.timeout →
      sub16 (2 * i2cPins.timeout) kRawWriteSysTicks = 2 * i2cPins.timeout - 24 - 65536) :=
  ⟨⟨by decide, by decide, by decide, by decide⟩,
    delay_args_exact ackEnv i2cPins uartLoop hw0 (by decide) (by decide) (by decide) (by decide)⟩

/-- C18 (counterexample): the timeout 40000 is greater than
`kRawWriteSysTicks`, yet the delay argument `2*timeout - kRawWriteSysTicks`
that `i2c_write_stop` passes to `internal_busy_wait` is 14440, not the exact
value 79976: it wraps around. -/
theorem delay_args_exact_counterexample :
    kRawWriteSysTicks < i2cPinsSlow.timeout ∧ i2cPinsSlow.timeout < 65536 ∧
    sub16 (2 * i2cPinsSlow.timeout) kRawWriteSysTicks = 14440 ∧
    2 * i2cPinsSlow.timeout - kRawWriteSysTicks = 79976 ∧
    ops (i2c_write_stop ackEnv i2cPinsSlow hw0).trace =
      [Op.write 0x21, Op.write 0x21, Op.write 0x20, Op.write 0x20, Op.pause 39976,
        Op.write 0x21, Op.pause 14440, Op.write 0x21] := by
  refine ⟨by decide, by decide, by decide, by decide, ?_⟩
  rw [ops_i2c_write_stop]
  rfl

/-- C19 (amended): START timing.  On a bus whose clock is not stretched,
`i2c_write_start` returns, and after its poll of SCL it performs, in order:
SDA switched to Output and written low, a busy-wait of
`2*timeout - kRawWriteSysTicks` (twice the configured timeout less the write
overhead), SCL switched to Output and written low, a busy-wait of
`timeout - kRawWriteSysTicks`, and SDA switched to Input.  Both arguments are
16-bit differences, exact for `24 < timeout <= 32779`. -/
theorem i2c_write_start_timing (E : Env) (fuel : Nat) (pins : I2C_Pin_Pair) (s : Hw)
    (hE : ∀ h, raw_level E pins.scl h = 1) (hf : 0 < fuel) :
    ∃ s2, i2c_write_start E fuel pins s = some s2 ∧
      ops s2.trace =
        ops s.trace ++
          [Op.write (gpio_get_config_reg pins.sda.port),
            Op.write (gpio_get_output_reg pins.sda.port),
            Op.pause (sub16 (2 * pins.timeout) kRawWriteSysTicks),
            Op.write (gpio_get_config_reg pins.scl.port),
            Op.write (gpio_get_output_reg pins.scl.port),
            Op.pause (sub16 pins.timeout kRawWriteSysTicks),
            Op.write (gpio_get_config_reg pins.sda.port)] ∧
      (24 < pins.timeout → pins.timeout ≤ 32779 →
        sub16 (2 * pins.timeout) kRawWriteSysTicks = 2 * pins.timeout - 24 ∧
        sub16 pins.timeout kRawWriteSysTicks = pins.timeout - 24) := by
  obtain ⟨s2, e, h⟩ := ops_i2c_write_start E fuel pins s hE hf
  refine ⟨s2, e, h, ?_⟩
  intro h1 h2
  simp only [sub16, u16, kRawWriteSysTicks]
  omega

theorem i2c_write_start_timing_witness :
    ((∀ h, raw_level ackEnv i2cPins.scl h = 1) ∧ 0 < 1) ∧
    ∃ s2, i2c_write_start ackEnv 1 i2cPins hw0 = some s2 ∧
      ops s2.trace =
        ops hw0.trace ++
          [Op.write (gpio_get_config_reg i2cPins.sda.port),
            Op.write (gpio_get_output_reg i2cPins.sda.port),
            Op.pause (sub16 (2 * i2cPins.timeout) kRawWriteSysTicks),
            Op.write (gpio_get_config_reg i2cPins.scl.port),
            Op.write (gpio_get_output_reg i2cPins.scl.port),
            Op.pause (sub16 i2cPins.timeout kRawWriteSysTicks),
            Op.write (gpio_get_config_reg i2cPins.sda.port)] ∧
      (24 < i2cPins.timeout → i2cPins.timeout ≤ 32779 →
        sub16 (2 * i2cPins.timeout) kRawWriteSysTicks = 2 * i2cPins.timeout - 24 ∧
        sub16 i2cPins.timeout kRawWriteSysTicks = i2cPins.timeout - 24) :=
  ⟨⟨ackEnv_scl_high, by decide⟩,
    i2c_write_start_timing ackEnv 1 i2cPins hw0 ackEnv_scl_high (by decide)⟩

/-- C19 (counterexample): with a per-bit timeout of 100 ticks, the busy-wait
`i2c_write_start` requests between writing SDA low and switching SCL to
Output is 176 = 2*100 - 24 ticks, not half the timeout (50) and not half the
timeout less the write overhead (26); the second wait is 76 = 100 - 24. -/
theorem i2c_write_start_timing_counterexample :
    i2cPins.timeout = 100 ∧
    (∃ s2, i2c_write_start ackEnv 1 i2cPins hw0 = some s2 ∧
      ops s2.trace =
        [Op.write 0x21, Op.write 0x20, Op.pause 176, Op.write 0x21, Op.write 0x20,
          Op.pause 76, Op.write 0x21]) ∧
    176 ≠ 100 / 2 ∧ 176 ≠ 100 / 2 - kRawWriteSysTicks := by
  refine ⟨rfl, ?_, by decide, by decide⟩
  obtain ⟨s2, e, h⟩ := ops_i2c_write_start ackEnv 1 i2cPins hw0 ackEnv_scl_high (by decide)
  exact ⟨s2, e, h⟩

/-! ## UART receive on a stream of RX levels -/

theorem timeline_append (pin : GlobalPin) (a b : List Ev) :
    timeline pin (a ++ b) = timeline pin a ++ timeline pin b := by
  simp [timeline, List.filterMap_append]

theorem timeline_read (E : Env) (pin : GlobalPin) (h : List Ev) :
    timeline pin [Ev.inp (gpio_get_input_reg pin.port) (u16 (E h (gpio_get_input_reg pin.port)))] =
      [Tl.sample (raw_level E pin h)] := by
  simp [timeline, raw_level]

theorem wait_until_low_stream (E : Env) (pin : GlobalPin) (L : Nat → Nat)
    (hE : ∀ h, raw_level E pin h = L (reads_of (gpio_get_input_reg pin.port) h)) (k : Nat) :
    ∀ (fuel : Nat) (s : Hw), k < fuel →
      (∀ j, j < k → L (reads_of (gpio_get_input_reg pin.port) s.trace + j) = 1) →
      L (reads_of (gpio_get_input_reg pin.port) s.trace + k) = 0 →
      ∃ s2 X, wait_until_low E pin fuel s = some s2 ∧ s2.trace = s.trace ++ X ∧
        timeline pin X = List.replicate k (Tl.sample 1) ++ [Tl.sample 0] ∧
        reads_of (gpio_get_input_reg pin.port) s2.trace =
          reads_of (gpio_get_input_reg pin.port) s.trace + k + 1 := by
  induction k with
  | zero =>
    intro fuel s hf _ h0
    obtain ⟨f, rfl⟩ : ∃ f, fuel = f + 1 := ⟨fuel - 1, by omega⟩
    have hl : raw_level E pin s.trace = 0 := by rw [hE]; simpa using h0
    refine ⟨{ regs := s.regs
              trace := s.trace ++ [Ev.inp (gpio_get_input_reg pin.port)
                (u16 (E s.trace (gpio_get_input_reg pin.port)))] },
      [Ev.inp (gpio_get_input_reg pin.port) (u16 (E s.trace (gpio_get_input_reg pin.port)))],
      ?_, rfl, ?_, ?_⟩
    · simp only [wait_until_low, globalPin_read_raw_eq, hl, ne_eq, not_true_eq_false, if_false]
    · rw [timeline_read, hl]; rfl
    · simp [reads_of_append, reads_of_cons_inp, reads_of_nil]
  | succ k ih =>
    intro fuel s hf h1 h0
    obtain ⟨f, rfl⟩ : ∃ f, fuel = f + 1 := ⟨fuel - 1, by omega⟩
    have hl : raw_level E pin s.trace = 1 := by rw [hE]; simpa using h1 0 (by omega)
    have hr : reads_of (gpio_get_input_reg pin.port)
        (s.trace ++ [Ev.inp (gpio_get_input_reg pin.port)
          (u16 (E s.trace (gpio_get_input_reg pin.port)))]) =
        reads_of (gpio_get_input_reg pin.port) s.trace + 1 := by
      simp [reads_of_append, reads_of_cons_inp, reads_of_nil]
    obtain ⟨s2, X, e, ht, htl, hrd⟩ := ih f
      { regs := s.regs
        trace := s.trace ++ [Ev.inp (gpio_get_input_reg pin.port)
          (u16 (E s.trace (gpio_get_input_reg pin.port)))] } (by omega)
      (fun j hj => by
        show L (reads_of _ (s.trace ++ _) + j) = 1
        rw [hr]
        have := h1 (j + 1) (by omega)
        rwa [show reads_of (gpio_get_input_reg pin.port) s.trace + 1 + j =
          reads_of (gpio_get_input_reg pin.port) s.trace + (j + 1) by omega])
      (by
        show L (reads_of _ (s.trace ++ _) + k) = 0
        rw [hr]
        rwa [show reads_of (gpio_get_input_reg pin.port) s.trace + 1 + k =
          reads_of (gpio_get_input_reg pin.port) s.trace + (k + 1) by omega])
    refine ⟨s2, [Ev.inp (gpio_get_input_reg pin.port)
        (u16 (E s.trace (gpio_get_input_reg pin.port)))] ++ X, ?_, ?_, ?_, ?_⟩
    · simp only [wait_until_low, globalPin_read_raw_eq, hl, ne_eq, one_ne_zero,
        not_false_eq_true, if_true]
      exact e
    · rw [ht, List.append_assoc]
    · rw [timeline_append, timeline_read, hl, htl]
      rfl
    · rw [hrd]
      show reads_of _ (s.trace ++ _) + k + 1 = _
      rw [hr]; omega

theorem wait_until_high_stream (E : Env) (pin : GlobalPin) (L : Nat → Nat)
    (hE : ∀ h, raw_level E pin h = L (reads_of (gpio_get_input_reg pin.port) h)) (k : Nat) :
    ∀ (fuel : Nat) (s : Hw), k < fuel →
      (∀ j, j < k → L (reads_of (gpio_get_input_reg pin.port) s.trace + j) = 0) →
      L (reads_of (gpio_get_input_reg pin.port) s.trace + k) = 1 →
      ∃ s2 X, wait_until_high E pin fuel s = some s2 ∧ s2.trace = s.trace ++ X ∧
        timeline pin X = List.replicate k (Tl.sample 0) ++ [Tl.sample 1] ∧
        reads_of (gpio_get_input_reg pin.port) s2.trace =
          reads_of (gpio_get_input_reg pin.port) s.trace + k + 1 := by
  induction k with
  | zero =>
    intro fuel s hf _ h0
    obtain ⟨f, rfl⟩ : ∃ f, fuel = f + 1 := ⟨fuel - 1, by omega⟩
    have hl : raw_level E pin s.trace = 1 := by rw [hE]; simpa using h0
    refine ⟨{ regs := s.regs
              trace := s.trace ++ [Ev.inp (gpio_get_input_reg pin.port)
                (u16 (E s.trace (gpio_get_input_reg pin.port)))] },
      [Ev.inp (gpio_get_input_reg pin.port) (u16 (E s.trace (gpio_get_input_reg pin.port)))],
      ?_, rfl, ?_, ?_⟩
    · simp only [wait_until_high, globalPin_read_raw_eq, hl, ne_eq, one_ne_zero,
        not_false_eq_true, if_true]
    · rw [timeline_read, hl]; rfl
    · simp [reads_of_append, reads_of_cons_inp, reads_of_nil]
  | succ k ih =>
    intro fuel s hf h1 h0
    obtain ⟨f, rfl⟩ : ∃ f, fuel = f + 1 := ⟨fuel - 1, by omega⟩
    have hl : raw_level E pin s.trace = 0 := by rw [hE]; simpa using h1 0 (by omega)
    have hr : reads_of (gpio_get_input_reg pin.port)
        (s.trace ++ [Ev.inp (gpio_get_input_reg pin.port)
          (u16 (E s.trace (gpio_get_input_reg pin.port)))]) =
        reads_of (gpio_get_input_reg pin.port) s.trace + 1 := by
      simp [reads_of_append, reads_of_cons_inp, reads_of_nil]
    obtain ⟨s2, X, e, ht, htl, hrd⟩ := ih f
      { regs := s.regs
        trace := s.trace ++ [Ev.inp (gpio_get_input_reg pin.port)
          (u16 (E s.trace (gpio_get_input_reg pin.port)))] } (by omega)
      (fun j hj => by
        show L (reads_of _ (s.trace ++ _) + j) = 0
        rw [hr]
        have := h1 (j + 1) (by omega)
        rwa [show reads_of (gpio_get_input_reg pin.port) s.trace + 1 + j =
          reads_of (gpio_get_input_reg pin.port) s.trace + (j + 1) by omega])
      (by
        show L (reads_of _ (s.trace ++ _) + k) = 1
        rw [hr]
        rwa [show reads_of (gpio_get_input_reg pin.port) s.trace + 1 + k =
          reads_of (gpio_get_input_reg pin.port) s.trace + (k + 1) by omega])
    refine ⟨s2, [Ev.inp (gpio_get_input_reg pin.port)
        (u16 (E s.trace (gpio_get_input_reg pin.port)))] ++ X, ?_, ?_, ?_, ?_⟩
    · simp only [wait_until_high, globalPin_read_raw_eq, hl, ne_eq, not_true_eq_false, if_false]
      exact e
    · rw [ht, List.append_assoc]
    · rw [timeline_append, timeline_read, hl, htl]
      rfl
    · rw [hrd]
      show reads_of _ (s.trace ++ _) + k + 1 = _
      rw [hr]; omega

theorem rol_bit (v i : Nat) (hv : v ≤ 1) (hi : i < 8) : _rol v i = v * 2 ^ i := by
  interval_cases v
  · interval_cases i <;> rfl
  · rw [rol_one i hi]; ring

theorem raw_level_le_one (E : Env) (pin : GlobalPin) (h : List Ev) : raw_level E pin h ≤ 1 := by
  unfold raw_level; split <;> omega

theorem uart_read_bits_stream (E : Env) (pins : UART_Pin_Pair) (L : Nat → Nat)
    (hE : ∀ h, raw_level E pins.rx h = L (reads_of (gpio_get_input_reg pins.rx.port) h))
    (js : List Nat) :
    ∀ (acc : Nat) (s : Hw), (∀ i, i ∈ js → i < 8) →
      ∃ s2 X, js.foldl (uart_read_bit E pins) (acc, s) =
          (uart_acc L (reads_of (gpio_get_input_reg pins.rx.port) s.trace) acc js, s2) ∧
        s2.trace = s.trace ++ X ∧
        timeline pins.rx X = sample_tl L (sub16 pins.period kRawReadSysTicks)
          (reads_of (gpio_get_input_reg pins.rx.port) s.trace) js.length ∧
        reads_of (gpio_get_input_reg pins.rx.port) s2.trace =
          reads_of (gpio_get_input_reg pins.rx.port) s.trace + js.length := by
  induction js with
  | nil =>
    intro acc s _
    exact ⟨s, [], rfl, by simp, rfl, rfl⟩
  | cons i js ih =>
    intro acc s hi
    have hl := hE s.trace
    have hle : L (reads_of (gpio_get_input_reg pins.rx.port) s.trace) ≤ 1 := by
      rw [← hl]; exact raw_level_le_one E pins.rx s.trace
    have hstep : uart_read_bit E pins (acc, s) i =
        (u16 (acc + L (reads_of (gpio_get_input_reg pins.rx.port) s.trace) * 2 ^ i),
          internal_busy_wait (sub16 pins.period kRawReadSysTicks)
            { regs := s.regs
              trace := s.trace ++ [Ev.inp (gpio_get_input_reg pins.rx.port)
                (u16 (E s.trace (gpio_get_input_reg pins.rx.port)))] }) := by
      simp only [uart_read_bit, globalPin_read_raw_eq, hl]
      rw [rol_bit _ i hle (hi i (List.mem_cons_self i js))]
    have hr : reads_of (gpio_get_input_reg pins.rx.port)
        (internal_busy_wait (sub16 pins.period kRawReadSysTicks)
          { regs := s.regs
            trace := s.trace ++ [Ev.inp (gpio_get_input_reg pins.rx.port)
              (u16 (E s.trace (gpio_get_input_reg pins.rx.port)))] }).trace =
        reads_of (gpio_get_input_reg pins.rx.port) s.trace + 1 := by
      simp [internal_busy_wait, reads_of_append, reads_of_cons_inp, reads_of_cons_wait,
        reads_of_nil]
    obtain ⟨s2, X, e, ht, htl, hrd⟩ := ih
      (u16 (acc + L (reads_of (gpio_get_input_reg pins.rx.port) s.trace) * 2 ^ i))
      (internal_busy_wait (sub16 pins.period kRawReadSysTicks)
        { regs := s.regs
          trace := s.trace ++ [Ev.inp (gpio_get_input_reg pins.rx.port)
            (u16 (E s.trace (gpio_get_input_reg pins.rx.port)))] })
      (fun j hj => hi j (List.mem_cons_of_mem i hj))
    rw [hr] at e htl hrd
    refine ⟨s2, [Ev.inp (gpio_get_input_reg pins.rx.port)
        (u16 (E s.trace (gpio_get_input_reg pins.rx.port))),
        Ev.wait (sub16 pins.period kRawReadSysTicks)] ++ X, ?_, ?_, ?_, ?_⟩
    · simp only [List.foldl, hstep, uart_acc]
      exact e
    · rw [ht]
      simp [internal_busy_wait, sub16_u16]
    · rw [timeline_append, htl]
      rw [show [Ev.inp (gpio_get_input_reg pins.rx.port)
          (u16 (E s.trace (gpio_get_input_reg pins.rx.port))),
          Ev.wait (sub16 pins.period kRawReadSysTicks)] =
          [Ev.inp (gpio_get_input_reg pins.rx.port)
            (u16 (E s.trace (gpio_get_input_reg pins.rx.port)))] ++
          [Ev.wait (sub16 pins.period kRawReadSysTicks)] from rfl,
        timeline_append, timeline_read, hl]
      rfl
    · rw [hrd, List.length_cons]; omega

theorem uart_read_byte_run (E : Env) (fuel : Nat) (pins : UART_Pin_Pair) (s : Hw)
    (L : Nat → Nat) (k m : Nat)
    (hE : ∀ h, raw_level E pins.rx h = L (reads_of (gpio_get_input_reg pins.rx.port) h))
    (hs : reads_of (gpio_get_input_reg pins.rx.port) s.trace = 0)
    (hk : ∀ j, j < k → L j = 1) (h0 : L k = 0)
    (hm : ∀ j, j < m → L (k + 9 + j) = 0) (h1 : L (k + 9 + m) = 1)
    (hfk : k < fuel) (hfm : m < fuel) :
    ∃ s2 X, uart_read_byte E fuel pins s =
        some (uart_acc L (k + 1) 0 [0, 1, 2, 3, 4, 5, 6, 7], s2) ∧
      s2.trace = s.trace ++ X ∧
      timeline pins.rx X =
        List.replicate k (Tl.sample 1) ++
          [Tl.sample 0, Tl.pause (sub16 pins.period kRawReadSysTicks)] ++
          sample_tl L (sub16 pins.period kRawReadSysTicks) (k + 1) 8 ++
          List.replicate m (Tl.sample 0) ++ [Tl.sample 1] := by
  obtain ⟨s1, X1, e1, ht1, htl1, hr1⟩ := wait_until_low_stream E pins.rx L hE k fuel s hfk
    (fun j hj => by rw [hs, Nat.zero_add]; exact hk j hj) (by rw [hs, Nat.zero_add]; exact h0)
  rw [hs, Nat.zero_add] at hr1
  have hr1w : reads_of (gpio_get_input_reg pins.rx.port)
      (internal_busy_wait (sub16 pins.period kRawReadSysTicks) s1).trace = k + 1 := by
    simp [internal_busy_wait, reads_of_append, reads_of_cons_wait, reads_of_nil, hr1]
  obtain ⟨s3, X3, e3, ht3, htl3, hr3⟩ := uart_read_bits_stream E pins L hE
    [0, 1, 2, 3, 4, 5, 6, 7] 0 (internal_busy_wait (sub16 pins.period kRawReadSysTicks) s1)
    (by intro i hi; simp at hi; omega)
  rw [hr1w] at e3 htl3 hr3
  have hr3b : reads_of (gpio_get_input_reg pins.rx.port) s3.trace = k + 9 := by
    rw [hr3]; rfl
  obtain ⟨s4, X4, e4, ht4, htl4, _⟩ := wait_until_high_stream E pins.rx L hE m fuel s3 hfm
    (fun j hj => by rw [hr3b]; exact hm j hj) (by rw [hr3b]; exact h1)
  refine ⟨s4, X1 ++ [Ev.wait (sub16 pins.period kRawReadSysTicks)] ++ X3 ++ X4, ?_, ?_, ?_⟩
  · simp only [uart_read_byte, e1, Option.bind_eq_bind, Option.some_bind, e3, e4]
  · rw [ht4, ht3, show (internal_busy_wait (sub16 pins.period kRawReadSysTicks) s1).trace =
      s1.trace ++ [Ev.wait (sub16 pins.period kRawReadSysTicks)] by
        simp [internal_busy_wait, sub16_u16], ht1]
    simp only [List.append_assoc]
  · simp only [timeline_append, htl1, htl3, htl4, List.length_cons, List.length_nil]
    simp [timeline]

theorem reads_of_replicate (r n : Nat) : reads_of r (List.replicate n (Ev.inp r 0)) = n := by
  induction n with
  | zero => rfl
  | succ n ih => rw [List.replicate_succ, reads_of_cons_inp, ih]

theorem stream_le_one (E : Env) (pin : GlobalPin) (L : Nat → Nat)
    (hE : ∀ h, raw_level E pin h = L (reads_of (gpio_get_input_reg pin.port) h)) (n : Nat) :
    L n ≤ 1 := by
  have h := hE (List.replicate n (Ev.inp (gpio_get_input_reg pin.port) 0))
  rw [reads_of_replicate] at h
  rw [← h]; exact raw_level_le_one E pin _

theorem uart_acc_sum (L : Nat → Nat) (n a b c d e f g h : Nat) (ha : a ≤ 1) (hb : b ≤ 1)
    (hc : c ≤ 1) (hd : d ≤ 1) (he : e ≤ 1) (hf : f ≤ 1) (hg : g ≤ 1) (hh : h ≤ 1)
    (e0 : L n = a) (e1 : L (n + 1) = b) (e2 : L (n + 2) = c) (e3 : L (n + 3) = d)
    (e4 : L (n + 4) = e) (e5 : L (n + 5) = f) (e6 : L (n + 6) = g) (e7 : L (n + 7) = h) :
    uart_acc L n 0 [0, 1, 2, 3, 4, 5, 6, 7] =
      a * 1 + b * 2 + c * 4 + d * 8 + e * 16 + f * 32 + g * 64 + h * 128 := by
  simp only [uart_acc, Nat.add_assoc, Nat.reduceAdd, e0, e1, e2, e3, e4, e5, e6, e7]
  have h2 : ∀ x : Nat, x ≤ 1 → x = 0 ∨ x = 1 := fun x hx => by omega
  rcases h2 a ha with rfl | rfl <;> rcases h2 b hb with rfl | rfl <;>
  rcases h2 c hc with rfl | rfl <;> rcases h2 d hd with rfl | rfl <;>
  rcases h2 e he with rfl | rfl <;> rcases h2 f hf with rfl | rfl <;>
  rcases h2 g hg with rfl | rfl <;> rcases h2 h hh with rfl | rfl <;> rfl

/-- C12: UART receive is LSB first and start-bit triggered.  Let the
successive reads of RX show raw 1 on the first `k` polls, then raw 0 (the
start bit), then the samples `S 0`, ..., `S 7`, then raw 0 on `m` polls and
finally raw 1.  With fuel for the polls, `uart_read_byte` returns
`S 0 * 1 + S 1 * 2 + ... + S 7 * 128`: the earliest sample lands in bit 0.
The result is below 256 and is the same for every `k`. -/
theorem uart_read_byte_lsb_first (E : Env) (fuel : Nat) (pins : UART_Pin_Pair) (s : Hw)
    (L S : Nat → Nat) (k m : Nat)
    (hE : ∀ h, raw_level E pins.rx h = L (reads_of (gpio_get_input_reg pins.rx.port) h))
    (hs : reads_of (gpio_get_input_reg pins.rx.port) s.trace = 0)
    (hk : ∀ j, j < k → L j = 1) (h0 : L k = 0) (hS : ∀ i, i < 8 → L (k + 1 + i) = S i)
    (hm : ∀ j, j < m → L (k + 9 + j) = 0) (h1 : L (k + 9 + m) = 1)
    (hfk : k < fuel) (hfm : m < fuel) :
    ∃ s2, uart_read_byte E fuel pins s =
        some (S 0 * 1 + S 1 * 2 + S 2 * 4 + S 3 * 8 + S 4 * 16 + S 5 * 32 + S 6 * 64 + S 7 * 128,
          s2) ∧
      S 0 * 1 + S 1 * 2 + S 2 * 4 + S 3 * 8 + S 4 * 16 + S 5 * 32 + S 6 * 64 + S 7 * 128 < 256 := by
  obtain ⟨s2, X, e, _, _⟩ := uart_read_byte_run E fuel pins s L k m hE hs hk h0 hm h1 hfk hfm
  have hle : ∀ i, i < 8 → S i ≤ 1 := fun i hi => by
    rw [← hS i hi]; exact stream_le_one E pins.rx L hE _
  have l0 := hle 0 (by norm_num)
  have l1 := hle 1 (by norm_num)
  have l2 := hle 2 (by norm_num)
  have l3 := hle 3 (by norm_num)
  have l4 := hle 4 (by norm_num)
  have l5 := hle 5 (by norm_num)
  have l6 := hle 6 (by norm_num)
  have l7 := hle 7 (by norm_num)
  rw [uart_acc_sum L (k + 1) _ _ _ _ _ _ _ _ l0 l1 l2 l3 l4 l5 l6 l7 (hS 0 (by norm_num))
    (hS 1 (by norm_num)) (hS 2 (by norm_num)) (hS 3 (by norm_num)) (hS 4 (by norm_num))
    (hS 5 (by norm_num)) (hS 6 (by norm_num)) (hS 7 (by norm_num))] at e
  exact ⟨s2, e, by omega⟩

theorem uartLateEnv_level (h : List Ev) :
    raw_level uartLateEnv uartLoop.rx h =
      (fun n => ([1, 1] ++ uart_frame 0xA5).getD n 1)
        (reads_of (gpio_get_input_reg uartLoop.rx.port) h) := by
  have key : ∀ n : Nat,
      (if u16 (if ([1, 1] ++ uart_frame 165).getD n 1 = 0 then 0 else 1) &&& u16 1 ≠ 0
        then 1 else 0) = ([1, 1] ++ uart_frame 165).getD n 1 := by
    intro n
    have hn : n < 12 ∨ 12 ≤ n := by omega
    rcases hn with hn | hn
    · interval_cases n <;> decide
    · rw [List.getD_eq_default _ _ (by simpa [uart_frame] using hn)]
      decide
  exact key _

theorem uartLoopEnv_level (h : List Ev) :
    raw_level uartLoopEnv uartLoop.rx h =
      (fun n => (uart_frame 0xA5).getD n 1) (reads_of (gpio_get_input_reg uartLoop.rx.port) h) := by
  have key : ∀ n : Nat,
      (if u16 (if (uart_frame 165).getD n 1 = 0 then 0 else 1) &&& u16 1 ≠ 0 then 1 else 0) =
        (uart_frame 165).getD n 1 := by
    intro n
    have hn : n < 10 ∨ 10 ≤ n := by omega
    rcases hn with hn | hn
    · interval_cases n <;> decide
    · rw [List.getD_eq_default _ _ (by simpa [uart_frame] using hn)]
      decide
  exact key _

theorem uart_read_byte_lsb_first_witness :
    ((∀ h, raw_level uartLateEnv uartLoop.rx h =
        (fun n => ([1, 1] ++ uart_frame 0xA5).getD n 1)
          (reads_of (gpio_get_input_reg uartLoop.rx.port) h)) ∧
      reads_of (gpio_get_input_reg uartLoop.rx.port) hw0.trace = 0 ∧
      (∀ j, j < 2 → (fun n => ([1, 1] ++ uart_frame 0xA5).getD n 1) j = 1) ∧
      (fun n => ([1, 1] ++ uart_frame 0xA5).getD n 1) 2 = 0 ∧
      (∀ i, i < 8 → (fun n => ([1, 1] ++ uart_frame 0xA5).getD n 1) (2 + 1 + i) =
        (fun i => 0xA5 / 2 ^ i % 2) i) ∧
      (∀ j, j < 0 → (fun n => ([1, 1] ++ uart_frame 0xA5).getD n 1) (2 + 9 + j) = 0) ∧
      (fun n => ([1, 1] ++ uart_frame 0xA5).getD n 1) (2 + 9 + 0) = 1 ∧ 2 < 3 ∧ 0 < 3) ∧
    (fun i => 0xA5 / 2 ^ i % 2) 0 * 1 + (fun i => 0xA5 / 2 ^ i % 2) 1 * 2 +
      (fun i => 0xA5 / 2 ^ i % 2) 2 * 4 + (fun i => 0xA5 / 2 ^ i % 2) 3 * 8 +
      (fun i => 0xA5 / 2 ^ i % 2) 4 * 16 + (fun i => 0xA5 / 2 ^ i % 2) 5 * 32 +
      (fun i => 0xA5 / 2 ^ i % 2) 6 * 64 + (fun i => 0xA5 / 2 ^ i % 2) 7 * 128 = 0xA5 ∧
    ∃ s2, uart_read_byte uartLateEnv 3 uartLoop hw0 =
        some ((fun i => 0xA5 / 2 ^ i % 2) 0 * 1 + (fun i => 0xA5 / 2 ^ i % 2) 1 * 2 +
          (fun i => 0xA5 / 2 ^ i % 2) 2 * 4 + (fun i => 0xA5 / 2 ^ i % 2) 3 * 8 +
          (fun i => 0xA5 / 2 ^ i % 2) 4 * 16 + (fun i => 0xA5 / 2 ^ i % 2) 5 * 32 +
          (fun i => 0xA5 / 2 ^ i % 2) 6 * 64 + (fun i => 0xA5 / 2 ^ i % 2) 7 * 128, s2) ∧
      (fun i => 0xA5 / 2 ^ i % 2) 0 * 1 + (fun i => 0xA5 / 2 ^ i % 2) 1 * 2 +
        (fun i => 0xA5 / 2 ^ i % 2) 2 * 4 + (fun i => 0xA5 / 2 ^ i % 2) 3 * 8 +
        (fun i => 0xA5 / 2 ^ i % 2) 4 * 16 + (fun i => 0xA5 / 2 ^ i % 2) 5 * 32 +
        (fun i => 0xA5 / 2 ^ i % 2) 6 * 64 + (fun i => 0xA5 / 2 ^ i % 2) 7 * 128 < 256 :=
  ⟨⟨uartLateEnv_level, rfl, by decide, by decide, by decide, by decide, by decide, by decide,
      by decide⟩, by decide,
    uart_read_byte_lsb_first uartLateEnv 3 uartLoop hw0
      (fun n => ([1, 1] ++ uart_frame 0xA5).getD n 1) (fun i => 0xA5 / 2 ^ i % 2) 2 0
      uartLateEnv_level rfl (by decide) (by decide) (by decide) (by decide) (by decide)
      (by decide) (by decide)⟩

/-! ## Busy-wait loop count and UART bit period -/

theorem busy_wait_loop_count (fuel : Nat) :
    ∀ (c done : Nat), 1 ≤ c → c ≤ fuel → c < 65536 →
      busy_wait_loop fuel c done = some (done + c) := by
  induction fuel with
  | zero => intro c done h1 h2 _; omega
  | succ f ih =>
    intro c done h1 h2 h3
    have hc : u16 (c + 65535) = c - 1 := by simp only [u16]; omega
    simp only [busy_wait_loop, hc]
    by_cases h : c - 1 = 0
    · simp only [h, ne_eq, not_true_eq_false, if_false]
      have e : done + 1 = done + c := by omega
      rw [e]
    · simp only [h, ne_eq, not_false_eq_true, if_true]
      rw [ih (c - 1) (done + 1) (by omega) (by omega) (by omega)]
      have e : done + 1 + (c - 1) = done + c := by omega
      rw [e]

theorem busy_wait_iterations_eq (timeout : Nat) (h1 : 16 ≤ timeout) (h2 : timeout < 65536) :
    busy_wait_iterations timeout = some (timeout >>> 4) := by
  have hu : u16 timeout = timeout := Nat.mod_eq_of_lt h2
  have hs : timeout >>> 4 = timeout / 16 := by
    rw [Nat.shiftRight_eq_div_pow]
  unfold busy_wait_iterations
  rw [hu, busy_wait_loop_count 65536 (timeout >>> 4) 0 (by rw [hs]; omega) (by rw [hs]; omega)
    (by rw [hs]; omega), Nat.zero_add]

/-- C20: UART bit-period timing.  For every bit period `P` with
`32 <= P < 65536`, on an RX line that shows raw 1 for `k` polls and then the
start bit, the time line of `uart_read_byte` continues after the read that
detects the start bit with one busy-wait of `P - kRawReadSysTicks` and then
the first data sample.  That wait runs `n = (P - 16) >> 4` loop iterations,
and `P - 16 < 16 * n + kRawReadSysTicks <= P`: at 16 ticks per iteration the
modelled time from start-bit detection to the first sample is `P` to within
one iteration. -/
theorem uart_bit_period_timing (E : Env) (fuel : Nat) (pins : UART_Pin_Pair) (s : Hw)
    (L : Nat → Nat) (k m : Nat) (hP1 : 32 ≤ pins.period) (hP2 : pins.period < 65536)
    (hE : ∀ h, raw_level E pins.rx h = L (reads_of (gpio_get_input_reg pins.rx.port) h))
    (hs : reads_of (gpio_get_input_reg pins.rx.port) s.trace = 0)
    (hk : ∀ j, j < k → L j = 1) (h0 : L k = 0)
    (hm : ∀ j, j < m → L (k + 9 + j) = 0) (h1 : L (k + 9 + m) = 1)
    (hfk : k < fuel) (hfm : m < fuel) :
    (∃ r s2 X, uart_read_byte E fuel pins s = some (r, s2) ∧ s2.trace = s.trace ++ X ∧
      ((timeline pins.rx X).drop k).take 3 =
        [Tl.sample 0, Tl.pause (pins.period - kRawReadSysTicks), Tl.sample (L (k + 1))]) ∧
    busy_wait_iterations (pins.period - kRawReadSysTicks) = some ((pins.period - 16) >>> 4) ∧
    pins.period - 16 < 16 * ((pins.period - 16) >>> 4) + kRawReadSysTicks ∧
    16 * ((pins.period - 16) >>> 4) + kRawReadSysTicks ≤ pins.period := by
  have hd : sub16 pins.period kRawReadSysTicks = pins.period - kRawReadSysTicks := by
    simp only [sub16, u16, kRawReadSysTicks]; omega
  have hk16 : kRawReadSysTicks = 16 := rfl
  have hs4 : (pins.period - 16) >>> 4 = (pins.period - 16) / 16 := by
    rw [Nat.shiftRight_eq_div_pow]
  refine ⟨?_, ?_, ?_, ?_⟩
  · obtain ⟨s2, X, e, ht, htl⟩ := uart_read_byte_run E fuel pins s L k m hE hs hk h0 hm h1 hfk hfm
    refine ⟨_, s2, X, e, ht, ?_⟩
    rw [htl, hd]
    simp only [List.append_assoc, sample_tl]
    rw [List.drop_left' (List.length_replicate k (Tl.sample 1))]
    rfl
  · rw [hk16]
    exact busy_wait_iterations_eq (pins.period - 16) (by omega) (by omega)
  · rw [hs4, hk16]; omega
  · rw [hs4, hk16]; omega

theorem uart_bit_period_timing_witness :
    ((32 ≤ uartLoop.period ∧ uartLoop.period < 65536 ∧
      (∀ h, raw_level uartLateEnv uartLoop.rx h =
        (fun n => ([1, 1] ++ uart_frame 0xA5).getD n 1)
          (reads_of (gpio_get_input_reg uartLoop.rx.port) h)) ∧
      reads_of (gpio_get_input_reg uartLoop.rx.port) hw0.trace = 0) ∧
     (32 ≤ uartLoop833.period ∧ uartLoop833.period < 65536 ∧
      (∀ h, raw_level uartLoopEnv uartLoop833.rx h =
        (fun n => (uart_frame 0xA5).getD n 1)
          (reads_of (gpio_get_input_reg uartLoop833.rx.port) h)) ∧
      reads_of (gpio_get_input_reg uartLoop833.rx.port) hw0.trace = 0)) ∧
    uartLoop.period = 100 ∧ uartLoop833.period = 833 ∧
    ((∃ r s2 X, uart_read_byte uartLateEnv 3 uartLoop hw0 = some (r, s2) ∧
        s2.trace = hw0.trace ++ X ∧
        ((timeline uartLoop.rx X).drop 2).take 3 =
          [Tl.sample 0, Tl.pause (uartLoop.period - kRawReadSysTicks),
            Tl.sample ((fun n => ([1, 1] ++ uart_frame 0xA5).getD n 1) (2 + 1))]) ∧
      busy_wait_iterations (uartLoop.period - kRawReadSysTicks) =
        some ((uartLoop.period - 16) >>> 4) ∧
      uartLoop.period - 16 < 16 * ((uartLoop.period - 16) >>> 4) + kRawReadSysTicks ∧
      16 * ((uartLoop.period - 16) >>> 4) + kRawReadSysTicks ≤ uartLoop.period) ∧
    ((∃ r s2 X, uart_read_byte uartLoopEnv 1 uartLoop833 hw0 = some (r, s2) ∧
        s2.trace = hw0.trace ++ X ∧
        ((timeline uartLoop833.rx X).drop 0).take 3 =
          [Tl.sample 0, Tl.pause (uartLoop833.period - kRawReadSysTicks),
            Tl.sample ((fun n => (uart_frame 0xA5).getD n 1) (0 + 1))]) ∧
      busy_wait_iterations (uartLoop833.period - kRawReadSysTicks) =
        some ((uartLoop833.period - 16) >>> 4) ∧
      uartLoop833.period - 16 < 16 * ((uartLoop833.period - 16) >>> 4) + kRawReadSysTicks ∧
      16 * ((uartLoop833.period - 16) >>> 4) + kRawReadSysTicks ≤ uartLoop833.period) :=
  ⟨⟨⟨by decide, by decide, uartLateEnv_level, rfl⟩,
      ⟨by decide, by decide, uartLoopEnv_level, rfl⟩⟩, rfl, rfl,
    uart_bit_period_timing uartLateEnv 3 uartLoop hw0
      (fun n => ([1, 1] ++ uart_frame 0xA5).getD n 1) 2 0 (by decide) (by decide)
      uartLateEnv_level rfl (by decide) (by decide) (by decide) (by decide) (by decide)
      (by decide),
    uart_bit_period_timing uartLoopEnv 1 uartLoop833 hw0
      (fun n => (uart_frame 0xA5).getD n 1) 0 0 (by decide) (by decide)
      uartLoopEnv_level rfl (by decide) (by decide) (by decide) (by decide) (by decide)
      (by decide)⟩

/-! ## Tick busy-wait -/

theorem sys_clock_get_scu_time_eq (E : Env) (s : Hw) :
    sys_clock_get_scu_time E s =
      (u16 (E s.trace SCUtime),
        { regs := s.regs, trace := s.trace ++ [Ev.inp SCUtime (u16 (E s.trace SCUtime))] }) := by
  simp [sys_clock_get_scu_time, _inp, SCUtime, isEnvReg]

theorem sys_clock_wait_loop_ticks (t0 d fuel : Nat) (hd : d ≤ 32768) (j : Nat) :
    ∀ (s : Hw), 1 ≤ reads_of SCUtime s.trace → reads_of SCUtime s.trace + j = d → j < fuel →
      ∃ s2, sys_clock_wait_loop (tickEnv t0) (u16 (t0 + d)) fuel s = some s2 ∧
        reads_of SCUtime s2.trace = d + 1 := by
  induction j generalizing fuel with
  | zero =>
    intro s h1 h2 hf
    obtain ⟨f, rfl⟩ : ∃ f, fuel = f + 1 := ⟨fuel - 1, by omega⟩
    have hdiff : sub16 (u16 (tickEnv t0 s.trace SCUtime)) (u16 (t0 + d)) = 0 := by
      simp only [tickEnv, sub16, u16]; omega
    refine ⟨{ regs := s.regs
              trace := s.trace ++ [Ev.inp SCUtime (u16 (tickEnv t0 s.trace SCUtime))] }, ?_, ?_⟩
    · simp only [sys_clock_wait_loop, sys_clock_get_scu_time_eq, hdiff]
      rfl
    · simp only [reads_of_append, reads_of_cons_inp, reads_of_nil]; omega
  | succ j ih =>
    intro s h1 h2 hf
    obtain ⟨f, rfl⟩ : ∃ f, fuel = f + 1 := ⟨fuel - 1, by omega⟩
    have hdiff : 32768 ≤ sub16 (u16 (tickEnv t0 s.trace SCUtime)) (u16 (t0 + d)) := by
      simp only [tickEnv, sub16, u16]; omega
    have hneg : ((if sub16 (u16 (tickEnv t0 s.trace SCUtime)) (u16 (t0 + d)) < 32768
        then (sub16 (u16 (tickEnv t0 s.trace SCUtime)) (u16 (t0 + d)) : Int)
        else (sub16 (u16 (tickEnv t0 s.trace SCUtime)) (u16 (t0 + d)) : Int) - 65536) < 0) := by
      have hlt : sub16 (u16 (tickEnv t0 s.trace SCUtime)) (u16 (t0 + d)) < 65536 := u16_lt _
      rw [if_neg (by omega)]
      omega
    obtain ⟨s2, e, hr⟩ := ih f
      { regs := s.regs
        trace := s.trace ++ [Ev.inp SCUtime (u16 (tickEnv t0 s.trace SCUtime))] }
      (by simp only [reads_of_append, reads_of_cons_inp, reads_of_nil]; omega)
      (by simp only [reads_of_append, reads_of_cons_inp, reads_of_nil]; omega) (by omega)
    refine ⟨s2, ?_, hr⟩
    simp only [sys_clock_wait_loop, sys_clock_get_scu_time_eq, hneg, if_true]
    exact e

/-- For a duration between 1 and 32768 ticks the wait is exact on a counter
that advances one tick per read: `sys_clock_wait` returns at the read that is
`duration` ticks after its first read. -/
theorem sys_clock_wait_exact (t0 d fuel : Nat) (s : Hw) (h1 : 1 ≤ d) (h2 : d ≤ 32768)
    (hf : d ≤ fuel) (hs : reads_of SCUtime s.trace = 0) :
    ∃ s2, sys_clock_wait (tickEnv t0) fuel d s = some s2 ∧ reads_of SCUtime s2.trace = d + 1 := by
  have hd : u16 d = d := Nat.mod_eq_of_lt (by omega)
  have ht : u16 (u16 (tickEnv t0 s.trace SCUtime) + d) = u16 (t0 + d) := by
    simp only [tickEnv, hs, u16]; omega
  simp only [sys_clock_wait, sys_clock_get_scu_time_eq, hd, ht]
  exact sys_clock_wait_loop_ticks t0 d fuel h2 (d - 1) _
    (by simp only [reads_of_append, reads_of_cons_inp, reads_of_nil]; omega)
    (by simp only [reads_of_append, reads_of_cons_inp, reads_of_nil]; omega) (by omega)

/-- C17 (evaluation at the failing input): with a tick counter that starts at
0 and advances one tick per read, `sys_clock_wait(40000)` reads the counter
twice and returns: one tick after its first read, not 40000.  The difference
`1 - 40000` is 25537 in 16 bits, which is not negative as a signed 16-bit
number, so the loop leaves at once.  (The claim's own witness, a duration of
10000, does wait 10000 ticks.) -/
theorem sys_clock_wait_early_return :
    (∀ fuel, (sys_clock_wait (tickEnv 0) (fuel + 1) 40000 hw0).map (fun s => s.trace) =
      some [Ev.inp SCUtime 0, Ev.inp SCUtime 1]) ∧
    sub16 1 40000 = 25537 ∧
    (∃ s2, sys_clock_wait (tickEnv 0) 10000 10000 hw0 = some s2 ∧
      reads_of SCUtime s2.trace = 10000 + 1) := by
  refine ⟨?_, by decide, sys_clock_wait_exact 0 10000 10000 hw0 (by norm_num) (by norm_num)
    (le_refl _) rfl⟩
  intro fuel
  simp only [sys_clock_wait, sys_clock_get_scu_time_eq, sys_clock_wait_loop]
  rfl

/-! ## Register write as a one-element buffer write -/

/-- C29: a single-byte register write is a one-element buffer write.  For
every environment, fuel, address, register, buffer, pin pair and state,
`i2c_write_to_register` with data word `buf[0]` and
`i2c_write_buf_to_register` with length 1 give the same result: the same
return value and the same final state, trace included (or both run out of
fuel). -/
theorem i2c_write_to_register_eq_buf (E : Env) (fuel a r : Nat) (buf : Nat → Nat)
    (pins : I2C_Pin_Pair) (s : Hw) :
    i2c_write_to_register E fuel a r (buf 0) pins s =
      i2c_write_buf_to_register E fuel a r buf 1 pins s := by
  rw [i2c_write_to_register_eq, i2c_write_buf_to_register_eq]
  rfl

/-! ## Loop count of the busy-wait -/

theorem busy_wait_iterations_small (timeout : Nat) (h : u16 timeout < 16) :
    busy_wait_iterations timeout = some 65536 := by
  have hs : u16 timeout >>> 4 = 0 := by
    rw [Nat.shiftRight_eq_div_pow]
    exact Nat.div_eq_of_lt (by simpa using h)
  unfold busy_wait_iterations
  rw [hs]
  have h1 : busy_wait_loop 65536 0 0 = busy_wait_loop 65535 65535 1 := by
    rw [show (65536 : Nat) = 65535 + 1 from rfl, busy_wait_loop]
    simp [u16]
  rw [h1, busy_wait_loop_count 65535 65535 1 (by norm_num) (le_refl _) (by norm_num)]

/-- C30: loop count of `internal_busy_wait`.  The counter is loaded with the
16-bit `timeout >> 4` and decremented before it is tested, so the loop runs
`timeout >> 4` iterations when `timeout >= 16` and 65536 iterations when
`timeout < 16`; no argument gives more than 65536.  Hence a UART period or
I2C timeout `t` with `24 <= t < 40`, whose delay argument
`t - kRawWriteSysTicks` is below 16, gets the longest wait of all, 65536
iterations. -/
theorem busy_wait_loop_iterations (timeout t : Nat) :
    busy_wait_iterations timeout =
      some (if u16 timeout < 16 then 65536 else u16 timeout >>> 4) ∧
    (if u16 timeout < 16 then 65536 else u16 timeout >>> 4) ≤ 65536 ∧
    (if kRawWriteSysTicks ≤ t ∧ t < 40 then
      sub16 t kRawWriteSysTicks < 16 ∧
      busy_wait_iterations (sub16 t kRawWriteSysTicks) = some 65536
     else True) := by
  refine ⟨?_, ?_, ?_⟩
  · by_cases h : u16 timeout < 16
    · rw [if_pos h]; exact busy_wait_iterations_small timeout h
    · rw [if_neg h]
      have := busy_wait_iterations_eq (u16 timeout) (by omega) (u16_lt timeout)
      rw [← this]
      simp [busy_wait_iterations, u16_u16]
  · split
    · exact le_refl _
    · rw [Nat.shiftRight_eq_div_pow]
      have := u16_lt timeout
      omega
  · split
    · rename_i h
      have hlt : sub16 t kRawWriteSysTicks < 16 := by
        simp only [sub16, u16, kRawWriteSysTicks] at h ⊢; omega
      exact ⟨hlt, busy_wait_iterations_small _ (by rw [sub16_u16]; exact hlt)⟩
    · trivial

/-! ## The descriptors defined in the repository -/

/-- C21 (evaluation at the failing descriptors): `kInternalChipSelect` has a
mask with exactly one bit set, but `pin1` and `pin2` of `uart_self.h` both
have the mask `0x24`, which has two bits set (bits 2 and 5) and not bit 0 or
bit 1 of the pins `io_PC0` and `io_PC1` they name; it is the address of the
level register of port C, and it is the same for the RX and the TX pin.  With
it a raw read of `pin1` returns 0 when only PC0 is high (port word 1) and 1
when only PC2 is high (port word 4). -/
theorem descriptor_masks :
    bits_set kInternalChipSelect.pin_bitmask = 1 ∧
    bits_set pin1.pin_bitmask = 2 ∧ bits_set pin2.pin_bitmask = 2 ∧
    Cport.rx.pin_bitmask = 2 ^ 2 + 2 ^ 5 ∧ Cport.tx.pin_bitmask = Cport.rx.pin_bitmask ∧
    pin1.pin_bitmask = gpio_get_input_reg pin1.port ∧
    (globalPin_read_raw (fun _ _ => 1) Cport.rx hw0).1 = 0 ∧
    (globalPin_read_raw (fun _ _ => 4) Cport.rx hw0).1 = 1 := by
  decide

/-! ## Level writes touch only the bit of the pin -/

theorem u16_and_le (v m : Nat) (hv : v < 65536) : u16 (v &&& m) = v &&& m := by
  have : v &&& m ≤ v := Nat.and_le_left
  simp only [u16]; omega

/-- C24: level writes touch only the bit of the pin.  With `v` the 16-bit
word read from the port, `globalPin_write_raw(1, pin)` reads the port and
writes `v | pin_bitmask`, and `globalPin_write_raw(0, pin)` reads it and
writes `v & ~pin_bitmask`, to the output register of that port; whatever the
level written, every bit outside `pin_bitmask` of the word written equals the
bit of `v`; every register but that output register (so every direction
register and every other port) keeps its content; and `globalPin_write(st,
pin)` is `globalPin_write_raw(e, pin)` with `e = 1` exactly when
`(st is ON) = (polarity is ActiveHigh)`. -/
theorem globalPin_write_raw_frame (E : Env) (pin : GlobalPin) (s : Hw) (st : PinLogicState)
    (x j r : Nat) (q : GPIO_port_name) :
    (globalPin_write_raw E 1 pin s).trace =
      s.trace ++ [Ev.inp (gpio_get_input_reg pin.port) (u16 (E s.trace (gpio_get_input_reg pin.port))),
        Ev.outp (u16 (E s.trace (gpio_get_input_reg pin.port)) ||| u16 pin.pin_bitmask)
          (gpio_get_output_reg pin.port)] ∧
    (globalPin_write_raw E 0 pin s).trace =
      s.trace ++ [Ev.inp (gpio_get_input_reg pin.port) (u16 (E s.trace (gpio_get_input_reg pin.port))),
        Ev.outp (u16 (E s.trace (gpio_get_input_reg pin.port)) &&& not16 pin.pin_bitmask)
          (gpio_get_output_reg pin.port)] ∧
    (if (u16 pin.pin_bitmask).testBit j then True
     else ((globalPin_write_raw E x pin s).regs (gpio_get_output_reg pin.port)).testBit j =
       (u16 (E s.trace (gpio_get_input_reg pin.port))).testBit j) ∧
    (if r = gpio_get_output_reg pin.port then True
     else (globalPin_write_raw E x pin s).regs r = s.regs r) ∧
    (globalPin_write_raw E x pin s).regs (gpio_get_config_reg q) = s.regs (gpio_get_config_reg q) ∧
    (if q = pin.port then True
     else (globalPin_write_raw E x pin s).regs (gpio_get_output_reg q) =
       s.regs (gpio_get_output_reg q)) ∧
    globalPin_write E st pin s =
      globalPin_write_raw E (if (st = ON ↔ pin.polar = Polar_ActiveHigh) then 1 else 0) pin s := by
  refine ⟨?_, ?_, ?_, ?_, ?_, ?_, ?_⟩
  · rw [globalPin_write_raw_eq]
    simp [_outp, u16, show ¬ (1 % 65536 = 0) by decide]
    exact or_lt_65536 (Nat.mod_lt _ (by norm_num)) (Nat.mod_lt _ (by norm_num))
  · rw [globalPin_write_raw_eq]
    simp [_outp, show u16 0 = 0 from rfl]
    exact u16_and_le _ _ (u16_lt _)
  · split
    · trivial
    · rename_i hj
      rw [regs_write_raw, if_pos rfl]
      split
      · simp [testBit_u16, Nat.testBit_or, hj]
      · simp only [testBit_u16, not16, Nat.testBit_and, Nat.testBit_xor, testBit_65535]
        simp only [testBit_u16] at hj
        by_cases h16 : j < 16
        · simp only [h16, decide_True, Bool.true_and] at hj ⊢
          simp [hj]
        · simp [h16]
  · split
    · trivial
    · rename_i hr
      rw [regs_write_raw, if_neg hr]
  · rw [regs_write_raw, if_neg (config_reg_ne_output_reg q pin.port)]
  · split
    · trivial
    · rename_i hq
      rw [regs_write_raw, if_neg]
      intro h
      apply hq
      revert h
      cases q <;> cases pin.port <;> simp [gpio_get_output_reg]
  · rw [globalPin_write_eq]
    cases st <;> cases hp : pin.polar <;> simp

/-! ## The two accumulation orders -/

theorem uart_acc_bits (L S : Nat → Nat) (k : Nat) (hS : ∀ i, i < 8 → L (k + 1 + i) = S i)
    (hle : ∀ i, i < 8 → S i ≤ 1) :
    uart_acc L (k + 1) 0 [0, 1, 2, 3, 4, 5, 6, 7] =
      S 0 * 1 + S 1 * 2 + S 2 * 4 + S 3 * 8 + S 4 * 16 + S 5 * 32 + S 6 * 64 + S 7 * 128 :=
  uart_acc_sum L (k + 1) _ _ _ _ _ _ _ _ (hle 0 (by norm_num)) (hle 1 (by norm_num))
    (hle 2 (by norm_num)) (hle 3 (by norm_num)) (hle 4 (by norm_num)) (hle 5 (by norm_num))
    (hle 6 (by norm_num)) (hle 7 (by norm_num)) (hS 0 (by norm_num)) (hS 1 (by norm_num))
    (hS 2 (by norm_num)) (hS 3 (by norm_num)) (hS 4 (by norm_num)) (hS 5 (by norm_num))
    (hS 6 (by norm_num)) (hS 7 (by norm_num))

theorem bitrev8_sum (a b c d e f g h : Nat) (ha : a ≤ 1) (hb : b ≤ 1) (hc : c ≤ 1)
    (hd : d ≤ 1) (he : e ≤ 1) (hf : f ≤ 1) (hg : g ≤ 1) (hh : h ≤ 1) :
    bitrev8 (a * 128 + b * 64 + c * 32 + d * 16 + e * 8 + f * 4 + g * 2 + h) =
      a * 1 + b * 2 + c * 4 + d * 8 + e * 16 + f * 32 + g * 64 + h * 128 := by
  have h2 : ∀ x : Nat, x ≤ 1 → x = 0 ∨ x = 1 := fun x hx => by omega
  rcases h2 a ha with rfl | rfl <;> rcases h2 b hb with rfl | rfl <;>
  rcases h2 c hc with rfl | rfl <;> rcases h2 d hd with rfl | rfl <;>
  rcases h2 e he with rfl | rfl <;> rcases h2 f hf with rfl | rfl <;>
  rcases h2 g hg with rfl | rfl <;> rcases h2 h hh with rfl | rfl <;> rfl

theorem bitrev8_sum_rev (a b c d e f g h : Nat) (ha : a ≤ 1) (hb : b ≤ 1) (hc : c ≤ 1)
    (hd : d ≤ 1) (he : e ≤ 1) (hf : f ≤ 1) (hg : g ≤ 1) (hh : h ≤ 1) :
    bitrev8 (a * 1 + b * 2 + c * 4 + d * 8 + e * 16 + f * 32 + g * 64 + h * 128) =
      a * 128 + b * 64 + c * 32 + d * 16 + e * 8 + f * 4 + g * 2 + h := by
  have h2 : ∀ x : Nat, x ≤ 1 → x = 0 ∨ x = 1 := fun x hx => by omega
  rcases h2 a ha with rfl | rfl <;> rcases h2 b hb with rfl | rfl <;>
  rcases h2 c hc with rfl | rfl <;> rcases h2 d hd with rfl | rfl <;>
  rcases h2 e he with rfl | rfl <;> rcases h2 f hf with rfl | rfl <;>
  rcases h2 g hg with rfl | rfl <;> rcases h2 h hh with rfl | rfl <;> rfl

theorem palindrome_iff (a b c d e f g h : Nat) (ha : a ≤ 1) (hb : b ≤ 1) (hc : c ≤ 1)
    (hd : d ≤ 1) (he : e ≤ 1) (hf : f ≤ 1) (hg : g ≤ 1) (hh : h ≤ 1) :
    (a * 1 + b * 2 + c * 4 + d * 8 + e * 16 + f * 32 + g * 64 + h * 128 =
      a * 128 + b * 64 + c * 32 + d * 16 + e * 8 + f * 4 + g * 2 + h) ↔
      (a = h ∧ b = g ∧ c = f ∧ d = e) := by
  have h2 : ∀ x : Nat, x ≤ 1 → x = 0 ∨ x = 1 := fun x hx => by omega
  rcases h2 a ha with rfl | rfl <;> rcases h2 b hb with rfl | rfl <;>
  rcases h2 c hc with rfl | rfl <;> rcases h2 d hd with rfl | rfl <;>
  rcases h2 e he with rfl | rfl <;> rcases h2 f hf with rfl | rfl <;>
  rcases h2 g hg with rfl | rfl <;> rcases h2 h hh with rfl | rfl <;> decide

/-- C26: opposite accumulation orders.  Let the same eight samples `S 0`, ...,
`S 7` (each 0 or 1, in the order they are taken) be read by `uart_read_byte`
(after the start bit) and by `i2c_read_byte` (one per clock pulse).  The UART
accumulation, the sum of `_rol(S i, i)`, gives `U = S 0 * 1 + ... + S 7 * 128`;
the I2C accumulation `byte += byte + S i` gives `I = S 0 * 128 + ... + S 7 * 1`.
Each is the 8-bit bit reversal of the other, and they are equal exactly when
the sample sequence reads the same in both directions. -/
theorem accumulation_orders (EU EI : Env) (fuel nack : Nat) (upins : UART_Pin_Pair)
    (ipins : I2C_Pin_Pair) (su si : Hw) (L S : Nat → Nat) (k m : Nat)
    (hE : ∀ h, raw_level EU upins.rx h = L (reads_of (gpio_get_input_reg upins.rx.port) h))
    (hs : reads_of (gpio_get_input_reg upins.rx.port) su.trace = 0)
    (hk : ∀ j, j < k → L j = 1) (h0 : L k = 0) (hS : ∀ i, i < 8 → L (k + 1 + i) = S i)
    (hm : ∀ j, j < m → L (k + 9 + j) = 0) (h1 : L (k + 9 + m) = 1)
    (hfk : k < fuel) (hfm : m < fuel)
    (hp : pins_ok ipins) (hscl : is_output si.regs ipins.scl = true)
    (hEI : ∀ h, raw_level EI ipins.scl h = 1)
    (hL : ∀ i, i < 8 → slave_bit EI ipins si i (S i)) :
    ∃ U I su2 si2, uart_read_byte EU fuel upins su = some (U, su2) ∧
      i2c_read_byte EI fuel nack ipins si = some (I, si2) ∧
      U = S 0 * 1 + S 1 * 2 + S 2 * 4 + S 3 * 8 + S 4 * 16 + S 5 * 32 + S 6 * 64 + S 7 * 128 ∧
      I = S 0 * 128 + S 1 * 64 + S 2 * 32 + S 3 * 16 + S 4 * 8 + S 5 * 4 + S 6 * 2 + S 7 ∧
      U = bitrev8 I ∧ I = bitrev8 U ∧ (U = I ↔ ∀ i, i < 8 → S i = S (7 - i)) := by
  obtain ⟨su2, X, eu, _, _⟩ := uart_read_byte_run EU fuel upins su L k m hE hs hk h0 hm h1 hfk hfm
  obtain ⟨si2, B2, ei, _, _, _, _, hle⟩ :=
    St.read_byte hp EI fuel nack hEI (Nat.lt_of_le_of_lt (Nat.zero_le k) hfk) si S hscl hL
  have l0 := hle 0 (by norm_num)
  have l1 := hle 1 (by norm_num)
  have l2 := hle 2 (by norm_num)
  have l3 := hle 3 (by norm_num)
  have l4 := hle 4 (by norm_num)
  have l5 := hle 5 (by norm_num)
  have l6 := hle 6 (by norm_num)
  have l7 := hle 7 (by norm_num)
  rw [uart_acc_bits L S k hS hle] at eu
  simp only [List.map] at ei
  rw [i2c_accum_bits _ _ _ _ _ _ _ _ l0 l1 l2 l3 l4 l5 l6 l7] at ei
  refine ⟨_, _, su2, si2, eu, ei, rfl, rfl, ?_, ?_, ?_⟩
  · rw [bitrev8_sum _ _ _ _ _ _ _ _ l0 l1 l2 l3 l4 l5 l6 l7]
  · rw [bitrev8_sum_rev _ _ _ _ _ _ _ _ l0 l1 l2 l3 l4 l5 l6 l7]
  · rw [palindrome_iff _ _ _ _ _ _ _ _ l0 l1 l2 l3 l4 l5 l6 l7]
    constructor
    · rintro ⟨a, b, c, d⟩ i hi
      interval_cases i <;> simp [a, b, c, d]
    · intro h
      exact ⟨h 0 (by norm_num), h 1 (by norm_num), h 2 (by norm_num), h 3 (by norm_num)⟩

theorem uartC1Env_level (h : List Ev) :
    raw_level uartC1Env uartLoop.rx h =
      (fun n => (uart_frame 0xC1).getD n 1) (reads_of (gpio_get_input_reg uartLoop.rx.port) h) := by
  have key : ∀ n : Nat,
      (if u16 (if (uart_frame 0xC1).getD n 1 = 0 then 0 else 1) &&& u16 1 ≠ 0 then 1 else 0) =
        (uart_frame 0xC1).getD n 1 := by
    intro n
    have hn : n < 10 ∨ 10 ≤ n := by omega
    rcases hn with hn | hn
    · interval_cases n <;> decide
    · rw [List.getD_eq_default _ _ (by simpa [uart_frame] using hn)]
      decide
  exact key _

theorem send83Env_scl_high (h : List Ev) : raw_level send83Env i2cPins.scl h = 1 := by
  unfold raw_level send83Env
  rcases Nat.mod_two_eq_zero_or_one (0x83 / 2 ^ (8 - nclk (bus_trace i2cPins hwSclOut.regs h)))
    with h0 | h1
  · rw [h0]; simp [i2cPins, u16]
  · rw [h1]; simp [i2cPins, u16]

theorem send83Env_bit (i : Nat) (hi : i < 8) :
    slave_bit send83Env i2cPins hwSclOut i ((fun j => 0xC1 / 2 ^ j % 2) i) := by
  intro X hX
  have e : hwSclOut.trace ++ X = X := rfl
  rw [e]
  unfold raw_level send83Env
  rw [hX]
  interval_cases i <;> simp [i2cPins, u16]

theorem accumulation_orders_witness :
    ((∀ h, raw_level uartC1Env uartLoop.rx h =
        (fun n => (uart_frame 0xC1).getD n 1)
          (reads_of (gpio_get_input_reg uartLoop.rx.port) h)) ∧
      reads_of (gpio_get_input_reg uartLoop.rx.port) hw0.trace = 0 ∧
      (∀ j, j < 0 → (fun n => (uart_frame 0xC1).getD n 1) j = 1) ∧
      (fun n => (uart_frame 0xC1).getD n 1) 0 = 0 ∧
      (∀ i, i < 8 → (fun n => (uart_frame 0xC1).getD n 1) (0 + 1 + i) =
        (fun j => 0xC1 / 2 ^ j % 2) i) ∧
      (∀ j, j < 0 → (fun n => (uart_frame 0xC1).getD n 1) (0 + 9 + j) = 0) ∧
      (fun n => (uart_frame 0xC1).getD n 1) (0 + 9 + 0) = 1 ∧ 0 < 1 ∧ 0 < 1 ∧
      pins_ok i2cPins ∧ is_output hwSclOut.regs i2cPins.scl = true ∧
      (∀ h, raw_level send83Env i2cPins.scl h = 1) ∧
      ∀ i, i < 8 → slave_bit send83Env i2cPins hwSclOut i ((fun j => 0xC1 / 2 ^ j % 2) i)) ∧
    ∃ U I su2 si2, uart_read_byte uartC1Env 1 uartLoop hw0 = some (U, su2) ∧
      i2c_read_byte send83Env 1 0 i2cPins hwSclOut = some (I, si2) ∧
      U = (fun j => 0xC1 / 2 ^ j % 2) 0 * 1 + (fun j => 0xC1 / 2 ^ j % 2) 1 * 2 +
        (fun j => 0xC1 / 2 ^ j % 2) 2 * 4 + (fun j => 0xC1 / 2 ^ j % 2) 3 * 8 +
        (fun j => 0xC1 / 2 ^ j % 2) 4 * 16 + (fun j => 0xC1 / 2 ^ j % 2) 5 * 32 +
        (fun j => 0xC1 / 2 ^ j % 2) 6 * 64 + (fun j => 0xC1 / 2 ^ j % 2) 7 * 128 ∧
      I = (fun j => 0xC1 / 2 ^ j % 2) 0 * 128 + (fun j => 0xC1 / 2 ^ j % 2) 1 * 64 +
        (fun j => 0xC1 / 2 ^ j % 2) 2 * 32 + (fun j => 0xC1 / 2 ^ j % 2) 3 * 16 +
        (fun j => 0xC1 / 2 ^ j % 2) 4 * 8 + (fun j => 0xC1 / 2 ^ j % 2) 5 * 4 +
        (fun j => 0xC1 / 2 ^ j % 2) 6 * 2 + (fun j => 0xC1 / 2 ^ j % 2) 7 ∧
      U = bitrev8 I ∧ I = bitrev8 U ∧
      (U = I ↔ ∀ i, i < 8 → (fun j => 0xC1 / 2 ^ j % 2) i = (fun j => 0xC1 / 2 ^ j % 2) (7 - i)) :=
  ⟨⟨uartC1Env_level, rfl, by decide, by decide, by decide, by decide, by decide, by decide,
      by decide, i2cPins_ok, by decide, send83Env_scl_high, send83Env_bit⟩,
    accumulation_orders uartC1Env send83Env 1 0 uartLoop i2cPins hw0 hwSclOut
      (fun n => (uart_frame 0xC1).getD n 1) (fun j => 0xC1 / 2 ^ j % 2) 0 0
      uartC1Env_level rfl (by decide) (by decide) (by decide) (by decide) (by decide)
      (by decide) (by decide) i2cPins_ok (by decide) send83Env_scl_high send83Env_bit⟩

/-! ## Fields the protocol layer reads -/

theorem set_dir_congr (E : Env) (d : GlobalPin_dir) (p q : GlobalPin)
    (h1 : p.port = q.port) (h2 : p.pin_bitmask = q.pin_bitmask) :
    globalPin_set_dir E d p = globalPin_set_dir E d q := by
  funext s
  simp only [globalPin_set_dir, h1, h2]

theorem read_raw_congr (E : Env) (p q : GlobalPin)
    (h1 : p.port = q.port) (h2 : p.pin_bitmask = q.pin_bitmask) :
    globalPin_read_raw E p = globalPin_read_raw E q := by
  funext s
  simp only [globalPin_read_raw, h1, h2]

theorem write_raw_congr (E : Env) (x : Nat) (p q : GlobalPin)
    (h1 : p.port = q.port) (h2 : p.pin_bitmask = q.pin_bitmask) :
    globalPin_write_raw E x p = globalPin_write_raw E x q := by
  funext s
  simp only [globalPin_write_raw, h1, h2]

theorem wait_until_high_congr (E : Env) (p q : GlobalPin)
    (h1 : p.port = q.port) (h2 : p.pin_bitmask = q.pin_bitmask) :
    wait_until_high E p = wait_until_high E q := by
  funext fuel
  induction fuel with
  | zero => rfl
  | succ n ih =>
    funext s
    simp only [wait_until_high, read_raw_congr E p q h1 h2, ih]

theorem wait_until_low_congr (E : Env) (p q : GlobalPin)
    (h1 : p.port = q.port) (h2 : p.pin_bitmask = q.pin_bitmask) :
    wait_until_low E p = wait_until_low E q := by
  funext fuel
  induction fuel with
  | zero => rfl
  | succ n ih =>
    funext s
    simp only [wait_until_low, read_raw_congr E p q h1 h2, ih]

/-- The I2C operations read only the fields `port` and `pin_bitmask` of the
two pins and the field `timeout` of the pair. -/
theorem i2c_congr (E : Env) (fuel : Nat) (P Q : I2C_Pin_Pair)
    (h1 : P.sda.port = Q.sda.port) (h2 : P.sda.pin_bitmask = Q.sda.pin_bitmask)
    (h3 : P.scl.port = Q.scl.port) (h4 : P.scl.pin_bitmask = Q.scl.pin_bitmask)
    (h5 : P.timeout = Q.timeout) :
    i2c_init E P = i2c_init E Q ∧ i2c_write_start E fuel P = i2c_write_start E fuel Q ∧
    i2c_write_stop E P = i2c_write_stop E Q ∧
    (∀ w, i2c_write_byte E fuel w P = i2c_write_byte E fuel w Q) ∧
    (∀ n, i2c_read_byte E fuel n P = i2c_read_byte E fuel n Q) := by
  have a1 := fun d => set_dir_congr E d P.sda Q.sda h1 h2
  have a2 := fun d => set_dir_congr E d P.scl Q.scl h3 h4
  have b1 := fun x => write_raw_congr E x P.sda Q.sda h1 h2
  have b2 := fun x => write_raw_congr E x P.scl Q.scl h3 h4
  have c1 := read_raw_congr E P.sda Q.sda h1 h2
  have c2 := read_raw_congr E P.scl Q.scl h3 h4
  have d2 := wait_until_high_congr E P.scl Q.scl h3 h4
  have e1 : ∀ w, i2c_write_bit E w P = i2c_write_bit E w Q := by
    intro w; funext s i
    simp only [i2c_write_bit, a1, a2, b1, b2, h5]
  have e2 : i2c_read_bit E fuel P = i2c_read_bit E fuel Q := by
    funext acc i
    simp only [i2c_read_bit, a1, a2, b1, b2, c1, c2, d2, h5]
  refine ⟨?_, ?_, ?_, ?_, ?_⟩
  · funext s; simp only [i2c_init, a1, a2]
  · funext s; simp only [i2c_write_start, a1, a2, b1, b2, d2, h5]
  · funext s; simp only [i2c_write_stop, a1, a2, b1, b2, h5]
  · intro w; funext s
    simp only [i2c_write_byte, a1, a2, b1, b2, c1, c2, d2, e1, h5]
  · intro n; funext s
    simp only [i2c_read_byte, a1, a2, b1, b2, c1, c2, d2, e2, h5]

theorem i2c_write_buf_loop_congr (E : Env) (fuel : Nat) (buf : Nat → Nat) (P Q : I2C_Pin_Pair)
    (h : ∀ w, i2c_write_byte E fuel w P = i2c_write_byte E fuel w Q) (n : Nat) :
    ∀ i s, i2c_write_buf_loop E fuel buf P i n s = i2c_write_buf_loop E fuel buf Q i n s := by
  induction n with
  | zero => intro i s; rfl
  | succ n ih =>
    intro i s
    simp only [i2c_write_buf_loop, h, ih]

theorem i2c_transaction_congr (E : Env) (fuel : Nat) (P Q : I2C_Pin_Pair)
    (h1 : P.sda.port = Q.sda.port) (h2 : P.sda.pin_bitmask = Q.sda.pin_bitmask)
    (h3 : P.scl.port = Q.scl.port) (h4 : P.scl.pin_bitmask = Q.scl.pin_bitmask)
    (h5 : P.timeout = Q.timeout) :
    (∀ a b, i2c_write_to_addr E fuel a b P = i2c_write_to_addr E fuel a b Q) ∧
    (∀ a r b, i2c_write_to_register E fuel a r b P = i2c_write_to_register E fuel a r b Q) ∧
    (∀ a r buf len, i2c_write_buf_to_register E fuel a r buf len P =
      i2c_write_buf_to_register E fuel a r buf len Q) := by
  obtain ⟨g1, g2, g3, g4, _⟩ := i2c_congr E fuel P Q h1 h2 h3 h4 h5
  have g5 := i2c_write_buf_loop_congr E fuel
  refine ⟨?_, ?_, ?_⟩
  · intro a b; funext s
    simp only [i2c_write_to_addr, g1, g2, g3, g4]
  · intro a r b; funext s
    simp only [i2c_write_to_register, g1, g2, g3, g4]
  · intro a r buf len; funext s
    simp only [i2c_write_buf_to_register, g1, g2, g3, g4, g5 buf P Q g4 len]

theorem uart_congr (E : Env) (fuel : Nat) (P Q : UART_Pin_Pair)
    (h1 : P.rx.port = Q.rx.port) (h2 : P.rx.pin_bitmask = Q.rx.pin_bitmask)
    (h3 : P.tx.port = Q.tx.port) (h4 : P.tx.pin_bitmask = Q.tx.pin_bitmask)
    (h5 : P.period = Q.period) :
    (∀ w, uart_write_byte E w P = uart_write_byte E w Q) ∧
    uart_read_byte E fuel P = uart_read_byte E fuel Q ∧
    (∀ buf len, uart_write_buf E buf len P = uart_write_buf E buf len Q) := by
  have b2 := fun x => write_raw_congr E x P.tx Q.tx h3 h4
  have c1 := read_raw_congr E P.rx Q.rx h1 h2
  have d1 := wait_until_high_congr E P.rx Q.rx h1 h2
  have d2 := wait_until_low_congr E P.rx Q.rx h1 h2
  have e1 : ∀ w, uart_write_bit E w P = uart_write_bit E w Q := by
    intro w; funext s i
    simp only [uart_write_bit, b2, h5]
  have e2 : uart_read_bit E P = uart_read_bit E Q := by
    funext acc i
    simp only [uart_read_bit, c1, h5]
  have e3 : ∀ w, uart_write_byte E w P = uart_write_byte E w Q := by
    intro w; funext s
    simp only [uart_write_byte, b2, e1, h5]
  refine ⟨e3, ?_, ?_⟩
  · funext s
    simp only [uart_read_byte, c1, d1, d2, e2, h5]
  · intro buf len; funext s
    simp only [uart_write_buf, e3]

theorem i2c_write_byte_ack_raw (E : Env) (fuel w : Nat) (P : I2C_Pin_Pair) (s : Hw) :
    i2c_write_byte E fuel w P s = none ∨
    ∃ h X t, t.trace = h ++ Ev.inp (gpio_get_input_reg P.sda.port)
          (u16 (E h (gpio_get_input_reg P.sda.port))) :: X ∧ X.length = 6 ∧
      i2c_write_byte E fuel w P s = some (if raw_level E P.sda h = 0 then 1 else 0, t) := by
  cases hw : wait_until_high E P.scl fuel
      (internal_busy_wait (sub16 P.timeout kRawWriteSysTicks)
        (globalPin_set_dir E PinDir_Input P.scl
          (internal_busy_wait (sub16 P.timeout kRawWriteSysTicks)
            (globalPin_set_dir E PinDir_Input P.sda
              ([7, 6, 5, 4, 3, 2, 1, 0].foldl (i2c_write_bit E w P) s))))) with
  | none => left; simp only [i2c_write_byte, hw]; rfl
  | some s1 =>
    right
    have e : i2c_write_byte E fuel w P s = some (if raw_level E P.sda s1.trace = 0 then 1 else 0,
        internal_busy_wait (sub16 P.timeout kRawWriteSysTicks)
          (globalPin_write_raw E 0 P.scl
            (globalPin_set_dir E PinDir_Output P.scl
              (internal_busy_wait (sub16 P.timeout kRawReadSysTicks)
                (globalPin_read_raw E P.sda s1).2)))) := by
      simp only [i2c_write_byte, hw, Option.bind_eq_bind, Option.some_bind, globalPin_read_raw_eq]
    refine ⟨s1.trace, ?X, _, ?htr, ?hlen, e⟩
    case htr =>
      simp only [globalPin_read_raw_eq, globalPin_set_dir_eq, globalPin_write_raw_eq,
        internal_busy_wait, _outp, List.append_assoc, List.cons_append, List.nil_append,
        List.singleton_append]
      exact rfl
    case hlen => rfl

/-- C28: the protocol layer ignores `polar`, `io_port` and `addr`.  If two
I2C pin pairs agree on the `port` and `pin_bitmask` of SDA and of SCL and on
`timeout`, and two UART pin pairs agree on the `port` and `pin_bitmask` of RX
and of TX and on `period`, then every I2C and every UART operation gives the
same result on both: the same return value and the same final state, trace
included (or both run out of fuel).  The value `i2c_write_byte` returns is 1
exactly when the raw level of SDA, in the word read from its port six events
before the end of the call, is 0: the polarity of SDA plays no part. -/
theorem protocol_ignores_polarity (E : Env) (fuel : Nat) (P Q : I2C_Pin_Pair)
    (U V : UART_Pin_Pair) (s : Hw)
    (h1 : P.sda.port = Q.sda.port) (h2 : P.sda.pin_bitmask = Q.sda.pin_bitmask)
    (h3 : P.scl.port = Q.scl.port) (h4 : P.scl.pin_bitmask = Q.scl.pin_bitmask)
    (h5 : P.timeout = Q.timeout)
    (u1 : U.rx.port = V.rx.port) (u2 : U.rx.pin_bitmask = V.rx.pin_bitmask)
    (u3 : U.tx.port = V.tx.port) (u4 : U.tx.pin_bitmask = V.tx.pin_bitmask)
    (u5 : U.period = V.period) :
    i2c_init E P s = i2c_init E Q s ∧
    i2c_write_start E fuel P s = i2c_write_start E fuel Q s ∧
    i2c_write_stop E P s = i2c_write_stop E Q s ∧
    (∀ w, i2c_write_byte E fuel w P s = i2c_write_byte E fuel w Q s) ∧
    (∀ n, i2c_read_byte E fuel n P s = i2c_read_byte E fuel n Q s) ∧
    (∀ a b, i2c_write_to_addr E fuel a b P s = i2c_write_to_addr E fuel a b Q s) ∧
    (∀ a r b, i2c_write_to_register E fuel a r b P s = i2c_write_to_register E fuel a r b Q s) ∧
    (∀ a r buf len, i2c_write_buf_to_register E fuel a r buf len P s =
      i2c_write_buf_to_register E fuel a r buf len Q s) ∧
    (∀ w, uart_write_byte E w U s = uart_write_byte E w V s) ∧
    uart_read_byte E fuel U s = uart_read_byte E fuel V s ∧
    (∀ buf len, uart_write_buf E buf len U s = uart_write_buf E buf len V s) ∧
    (∀ w, i2c_write_byte E fuel w P s = none ∨
      ∃ h X t, t.trace = h ++ Ev.inp (gpio_get_input_reg P.sda.port)
            (u16 (E h (gpio_get_input_reg P.sda.port))) :: X ∧ X.length = 6 ∧
        i2c_write_byte E fuel w P s = some (if raw_level E P.sda h = 0 then 1 else 0, t)) := by
  obtain ⟨g1, g2, g3, g4, g5⟩ := i2c_congr E fuel P Q h1 h2 h3 h4 h5
  obtain ⟨g6, g7, g8⟩ := i2c_transaction_congr E fuel P Q h1 h2 h3 h4 h5
  obtain ⟨g9, g10, g11⟩ := uart_congr E fuel U V u1 u2 u3 u4 u5
  exact ⟨by rw [g1], by rw [g2], by rw [g3], fun w => by rw [g4], fun n => by rw [g5],
    fun a b => by rw [g6], fun a r b => by rw [g7], fun a r buf len => by rw [g8],
    fun w => by rw [g9], by rw [g10], fun buf len => by rw [g11],
    fun w => i2c_write_byte_ack_raw E fuel w P s⟩

theorem protocol_ignores_polarity_witness :
    (i2cPins.sda.port = i2cPinsLow.sda.port ∧
      i2cPins.sda.pin_bitmask = i2cPinsLow.sda.pin_bitmask ∧
      i2cPins.scl.port = i2cPinsLow.scl.port ∧
      i2cPins.scl.pin_bitmask = i2cPinsLow.scl.pin_bitmask ∧
      i2cPins.timeout = i2cPinsLow.timeout ∧
      uartLoop.rx.port = uartLoopLow.rx.port ∧
      uartLoop.rx.pin_bitmask = uartLoopLow.rx.pin_bitmask ∧
      uartLoop.tx.port = uartLoopLow.tx.port ∧
      uartLoop.tx.pin_bitmask = uartLoopLow.tx.pin_bitmask ∧
      uartLoop.period = uartLoopLow.period) ∧
    (i2cPins.sda.polar ≠ i2cPinsLow.sda.polar ∧ i2cPins.addr ≠ i2cPinsLow.addr ∧
      uartLoop.rx.io_port ≠ uartLoopLow.rx.io_port) ∧
    (i2c_init ackEnv i2cPins hw0 = i2c_init ackEnv i2cPinsLow hw0 ∧
    i2c_write_start ackEnv 1 i2cPins hw0 = i2c_write_start ackEnv 1 i2cPinsLow hw0 ∧
    i2c_write_stop ackEnv i2cPins hw0 = i2c_write_stop ackEnv i2cPinsLow hw0 ∧
    (∀ w, i2c_write_byte ackEnv 1 w i2cPins hw0 = i2c_write_byte ackEnv 1 w i2cPinsLow hw0) ∧
    (∀ n, i2c_read_byte ackEnv 1 n i2cPins hw0 = i2c_read_byte ackEnv 1 n i2cPinsLow hw0) ∧
    (∀ a b, i2c_write_to_addr ackEnv 1 a b i2cPins hw0 =
      i2c_write_to_addr ackEnv 1 a b i2cPinsLow hw0) ∧
    (∀ a r b, i2c_write_to_register ackEnv 1 a r b i2cPins hw0 =
      i2c_write_to_register ackEnv 1 a r b i2cPinsLow hw0) ∧
    (∀ a r buf len, i2c_write_buf_to_register ackEnv 1 a r buf len i2cPins hw0 =
      i2c_write_buf_to_register ackEnv 1 a r buf len i2cPinsLow hw0) ∧
    (∀ w, uart_write_byte ackEnv w uartLoop hw0 = uart_write_byte ackEnv w uartLoopLow hw0) ∧
    uart_read_byte ackEnv 1 uartLoop hw0 = uart_read_byte ackEnv 1 uartLoopLow hw0 ∧
    (∀ buf len, uart_write_buf ackEnv buf len uartLoop hw0 =
      uart_write_buf ackEnv buf len uartLoopLow hw0) ∧
    (∀ w, i2c_write_byte ackEnv 1 w i2cPins hw0 = none ∨
      ∃ h X t, t.trace = h ++ Ev.inp (gpio_get_input_reg i2cPins.sda.port)
            (u16 (ackEnv h (gpio_get_input_reg i2cPins.sda.port))) :: X ∧ X.length = 6 ∧
        i2c_write_byte ackEnv 1 w i2cPins hw0 =
          some (if raw_level ackEnv i2cPins.sda h = 0 then 1 else 0, t))) :=
  ⟨⟨rfl, rfl, rfl, rfl, rfl, rfl, rfl, rfl, rfl, rfl⟩, by decide,
    protocol_ignores_polarity ackEnv 1 i2cPins i2cPinsLow uartLoop uartLoopLow hw0
      rfl rfl rfl rfl rfl rfl rfl rfl rfl rfl⟩

/-! ## Ordering of START and STOP -/

theorem wait_until_high_last (E : Env) (p : GlobalPin) (fuel : Nat) :
    ∀ s t, wait_until_high E p fuel s = some t →
      t.regs = s.regs ∧
      ∃ h, t.trace = h ++ [Ev.inp (gpio_get_input_reg p.port)
          (u16 (E h (gpio_get_input_reg p.port)))] ∧ raw_level E p h = 1 := by
  induction fuel with
  | zero => intro s t h; simp [wait_until_high] at h
  | succ n ih =>
    intro s t h
    simp only [wait_until_high, globalPin_read_raw_eq] at h
    split at h
    · rename_i hv
      simp only [Option.some.injEq] at h
      subst h
      refine ⟨rfl, s.trace, rfl, ?_⟩
      have := raw_level_le_one E p s.trace
      omega
    · obtain ⟨h1, h2⟩ := ih _ _ h
      exact ⟨h1, h2⟩

/-- C22: START ordering.  Whenever the poll loop of `i2c_write_start` ends,
in state `t0`, its last poll having read SCL raw high, the function returns
after the following sequence: SDA switched to Output (`t1`) and written raw 0
(`t2`); a busy-wait; SCL switched to Output (`t3`) and written raw 0 (`t4`); a
busy-wait; SDA switched to Input (`t5`, the state returned).  The polls write
no register.  Up to `t2` the direction bit of SCL is what it was at entry, the
output bit of SCL is untouched before the SDA-low write, and no register of
SCL's port is written when the two pins are on different ports; in `t2` SDA
is an Output with output bit 0; only after that is SCL an Output (`t3`) with
output bit 0 (`t4`), SDA still being an Output; at return SCL is an Output
with output bit 0 and SDA is an Input.  The register writes and busy-waits
occur in that order in the trace. -/
theorem i2c_write_start_ordering (E : Env) (fuel : Nat) (pins : I2C_Pin_Pair) (s t0 : Hw)
    (hp : pins_ok pins) (hw : wait_until_high E pins.scl fuel s = some t0) :
    ∃ t1 t2 t3 t4 t5,
      t1 = globalPin_set_dir E PinDir_Output pins.sda t0 ∧
      t2 = globalPin_write_raw E 0 pins.sda t1 ∧
      t3 = globalPin_set_dir E PinDir_Output pins.scl
        (internal_busy_wait (sub16 (2 * pins.timeout) kRawWriteSysTicks) t2) ∧
      t4 = globalPin_write_raw E 0 pins.scl t3 ∧
      t5 = globalPin_set_dir E PinDir_Input pins.sda
        (internal_busy_wait (sub16 pins.timeout kRawWriteSysTicks) t4) ∧
      i2c_write_start E fuel pins s = some t5 ∧
      (∃ h, t0.trace = h ++ [Ev.inp (gpio_get_input_reg pins.scl.port)
          (u16 (E h (gpio_get_input_reg pins.scl.port)))] ∧ raw_level E pins.scl h = 1) ∧
      t0.regs = s.regs ∧
      is_output t1.regs pins.scl = is_output s.regs pins.scl ∧
      out_level t1.regs pins.scl = out_level s.regs pins.scl ∧
      is_output t2.regs pins.scl = is_output s.regs pins.scl ∧
      (if pins.sda.port = pins.scl.port then True
       else t2.regs (gpio_get_config_reg pins.scl.port) = s.regs (gpio_get_config_reg pins.scl.port) ∧
        t2.regs (gpio_get_output_reg pins.scl.port) = s.regs (gpio_get_output_reg pins.scl.port)) ∧
      is_output t2.regs pins.sda = true ∧ out_level t2.regs pins.sda = false ∧
      is_output t3.regs pins.scl = true ∧ is_output t3.regs pins.sda = true ∧
      is_output t4.regs pins.scl = true ∧ out_level t4.regs pins.scl = false ∧
      is_output t4.regs pins.sda = true ∧
      is_output t5.regs pins.scl = true ∧ out_level t5.regs pins.scl = false ∧
      is_output t5.regs pins.sda = false ∧
      ops t5.trace =
        ops t0.trace ++
          [Op.write (gpio_get_config_reg pins.sda.port),
            Op.write (gpio_get_output_reg pins.sda.port),
            Op.pause (sub16 (2 * pins.timeout) kRawWriteSysTicks),
            Op.write (gpio_get_config_reg pins.scl.port),
            Op.write (gpio_get_output_reg pins.scl.port),
            Op.pause (sub16 pins.timeout kRawWriteSysTicks),
            Op.write (gpio_get_config_reg pins.sda.port)] := by
  obtain ⟨hsda, hscl, hd⟩ := hp
  have hd2 := pins_distinct_symm hd
  obtain ⟨hr, hlast⟩ := wait_until_high_last E pins.scl fuel s t0 hw
  refine ⟨_, _, _, _, _, rfl, rfl, rfl, rfl, rfl, ?_, hlast, hr, ?_, ?_, ?_, ?_, ?_, ?_, ?_, ?_,
    ?_, ?_, ?_, ?_, ?_, ?_, ?_⟩
  · simp only [i2c_write_start, hw, Option.bind_eq_bind, Option.some_bind]
  · rw [is_output_set_dir_other E _ _ _ _ hsda hscl hd, hr]
  · rw [out_level_set_dir, hr]
  · rw [is_output_write_raw, is_output_set_dir_other E _ _ _ _ hsda hscl hd, hr]
  · split
    · trivial
    · rename_i hport
      constructor
      · rw [regs_write_raw, if_neg (config_reg_ne_output_reg _ _), regs_set_dir,
          if_neg (fun h => hport (config_reg_inj h).symm), hr]
      · rw [regs_write_raw, if_neg (fun h => hport (output_reg_inj h).symm), regs_set_dir,
          if_neg (config_reg_ne_output_reg _ _).symm, hr]
  · rw [is_output_write_raw, is_output_set_dir_self E _ _ _ hsda]; rfl
  · exact out_level_write_raw_zero E _ _ hsda
  · rw [is_output_set_dir_self E _ _ _ hscl]; rfl
  · rw [is_output_set_dir_other E _ _ _ _ hscl hsda hd2, regs_wait, is_output_write_raw,
      is_output_set_dir_self E _ _ _ hsda]; rfl
  · rw [is_output_write_raw, is_output_set_dir_self E _ _ _ hscl]; rfl
  · exact out_level_write_raw_zero E _ _ hscl
  · rw [is_output_write_raw, is_output_set_dir_other E _ _ _ _ hscl hsda hd2, regs_wait,
      is_output_write_raw, is_output_set_dir_self E _ _ _ hsda]; rfl
  · rw [is_output_set_dir_other E _ _ _ _ hsda hscl hd, regs_wait, is_output_write_raw,
      is_output_set_dir_self E _ _ _ hscl]; rfl
  · rw [out_level_set_dir, regs_wait]
    exact out_level_write_raw_zero E _ _ hscl
  · rw [is_output_set_dir_self E _ _ _ hsda]; rfl
  · simp [ops_wait, ops_write_raw, ops_set_dir]

theorem stretch_poll :
    wait_until_high stretchEnv i2cPins.scl 2 hw0 =
      some (globalPin_read_raw stretchEnv i2cPins.scl
        (globalPin_read_raw stretchEnv i2cPins.scl hw0).2).2 := by
  rfl


theorem i2c_write_start_ordering_witness :
    (pins_ok i2cPins ∧
      wait_until_high stretchEnv i2cPins.scl 2 hw0 =
        some (globalPin_read_raw stretchEnv i2cPins.scl
          (globalPin_read_raw stretchEnv i2cPins.scl hw0).2).2) ∧
    ∃ t1 t2 t3 t4 t5,
      t1 = globalPin_set_dir stretchEnv PinDir_Output i2cPins.sda (globalPin_read_raw stretchEnv i2cPins.scl
        (globalPin_read_raw stretchEnv i2cPins.scl hw0).2).2 ∧
      t2 = globalPin_write_raw stretchEnv 0 i2cPins.sda t1 ∧
      t3 = globalPin_set_dir stretchEnv PinDir_Output i2cPins.scl
        (internal_busy_wait (sub16 (2 * i2cPins.timeout) kRawWriteSysTicks) t2) ∧
      t4 = globalPin_write_raw stretchEnv 0 i2cPins.scl t3 ∧
      t5 = globalPin_set_dir stretchEnv PinDir_Input i2cPins.sda
        (internal_busy_wait (sub16 i2cPins.timeout kRawWriteSysTicks) t4) ∧
      i2c_write_start stretchEnv 2 i2cPins hw0 = some t5 ∧
      (∃ h, (globalPin_read_raw stretchEnv i2cPins.scl
        (globalPin_read_raw stretchEnv i2cPins.scl hw0).2).2.trace = h ++ [Ev.inp (gpio_get_input_reg i2cPins.scl.port)
          (u16 (stretchEnv h (gpio_get_input_reg i2cPins.scl.port)))] ∧ raw_level stretchEnv i2cPins.scl h = 1) ∧
      (globalPin_read_raw stretchEnv i2cPins.scl
        (globalPin_read_raw stretchEnv i2cPins.scl hw0).2).2.regs = hw0.regs ∧
      is_output t1.regs i2cPins.scl = is_output hw0.regs i2cPins.scl ∧
      out_level t1.regs i2cPins.scl = out_level hw0.regs i2cPins.scl ∧
      is_output t2.regs i2cPins.scl = is_output hw0.regs i2cPins.scl ∧
      (if i2cPins.sda.port = i2cPins.scl.port then True
       else t2.regs (gpio_get_config_reg i2cPins.scl.port) = hw0.regs (gpio_get_config_reg i2cPins.scl.port) ∧
        t2.regs (gpio_get_output_reg i2cPins.scl.port) = hw0.regs (gpio_get_output_reg i2cPins.scl.port)) ∧
      is_output t2.regs i2cPins.sda = true ∧ out_level t2.regs i2cPins.sda = false ∧
      is_output t3.regs i2cPins.scl = true ∧ is_output t3.regs i2cPins.sda = true ∧
      is_output t4.regs i2cPins.scl = true ∧ out_level t4.regs i2cPins.scl = false ∧
      is_output t4.regs i2cPins.sda = true ∧
      is_output t5.regs i2cPins.scl = true ∧ out_level t5.regs i2cPins.scl = false ∧
      is_output t5.regs i2cPins.sda = false ∧
      ops t5.trace =
        ops (globalPin_read_raw stretchEnv i2cPins.scl
        (globalPin_read_raw stretchEnv i2cPins.scl hw0).2).2.trace ++
          [Op.write (gpio_get_config_reg i2cPins.sda.port),
            Op.write (gpio_get_output_reg i2cPins.sda.port),
            Op.pause (sub16 (2 * i2cPins.timeout) kRawWriteSysTicks),
            Op.write (gpio_get_config_reg i2cPins.scl.port),
            Op.write (gpio_get_output_reg i2cPins.scl.port),
            Op.pause (sub16 i2cPins.timeout kRawWriteSysTicks),
            Op.write (gpio_get_config_reg i2cPins.sda.port)] :=
  ⟨⟨i2cPins_ok, stretch_poll⟩,
    i2c_write_start_ordering stretchEnv 2 i2cPins hw0 _ i2cPins_ok stretch_poll⟩

theorem shape_append (X Y : List Ev) : shape (X ++ Y) = shape X ++ shape Y := by
  simp [shape]

theorem shape_set_dir (E : Env) (d : GlobalPin_dir) (p : GlobalPin) (s : Hw) :
    shape (globalPin_set_dir E d p s).trace =
      shape s.trace ++ [Ev.inp (gpio_get_config_reg p.port) 0,
        Ev.outp 0 (gpio_get_config_reg p.port)] := by
  rw [globalPin_set_dir_eq]
  simp [_outp, shape, erase_val]

theorem shape_write_raw (E : Env) (x : Nat) (p : GlobalPin) (s : Hw) :
    shape (globalPin_write_raw E x p s).trace =
      shape s.trace ++ [Ev.inp (gpio_get_input_reg p.port) 0,
        Ev.outp 0 (gpio_get_output_reg p.port)] := by
  rw [globalPin_write_raw_eq]
  simp [_outp, shape, erase_val]

theorem shape_read_raw (E : Env) (p : GlobalPin) (s : Hw) :
    shape (globalPin_read_raw E p s).2.trace =
      shape s.trace ++ [Ev.inp (gpio_get_input_reg p.port) 0] := by
  rw [globalPin_read_raw_eq]
  simp [shape, erase_val]

theorem shape_wait (n : Nat) (s : Hw) :
    shape (internal_busy_wait n s).trace = shape s.trace ++ [Ev.wait (u16 n)] := by
  simp [internal_busy_wait, shape, erase_val]

/-- C23 (amended): STOP ordering.  For every initial register state and
every environment, `i2c_write_stop` switches SDA (`t1`) and then SCL (`t2`) to
Output, writes raw 0 to SDA (`t3`) and then to SCL (`t4`), waits, switches SCL
to Input (`t5`), waits, and switches SDA to Input (`t6`, the state returned).
Before the first busy-wait both lines are Outputs and the output bit of SCL is
0; the output bit of SDA is 0 after its own write, and after the write for SCL
it is 0 when the two pins are on different ports and otherwise it is the level
of SDA in the word read from the port for that write.  SCL is released
strictly before SDA (in `t5` SCL is an Input and SDA still an Output), with a
busy-wait between the two releases, and at return both are Inputs.  The
sequence of register operations is the same fixed one whatever the initial
registers and whatever levels are read. -/
theorem i2c_write_stop_ordering (E : Env) (pins : I2C_Pin_Pair) (s : Hw) (hp : pins_ok pins) :
    ∃ t1 t2 t3 t4 t5 t6,
      t1 = globalPin_set_dir E PinDir_Output pins.sda s ∧
      t2 = globalPin_set_dir E PinDir_Output pins.scl t1 ∧
      t3 = globalPin_write_raw E 0 pins.sda t2 ∧
      t4 = globalPin_write_raw E 0 pins.scl t3 ∧
      t5 = globalPin_set_dir E PinDir_Input pins.scl
        (internal_busy_wait (sub16 pins.timeout kRawWriteSysTicks) t4) ∧
      t6 = globalPin_set_dir E PinDir_Input pins.sda
        (internal_busy_wait (sub16 (2 * pins.timeout) kRawWriteSysTicks) t5) ∧
      i2c_write_stop E pins s = t6 ∧
      is_output t2.regs pins.sda = true ∧ is_output t2.regs pins.scl = true ∧
      out_level t3.regs pins.sda = false ∧
      is_output t4.regs pins.sda = true ∧ is_output t4.regs pins.scl = true ∧
      out_level t4.regs pins.scl = false ∧
      out_level t4.regs pins.sda =
        (if pins.sda.port = pins.scl.port then decide (raw_level E pins.sda t3.trace = 1)
         else false) ∧
      is_output t5.regs pins.scl = false ∧ is_output t5.regs pins.sda = true ∧
      is_output t6.regs pins.scl = false ∧ is_output t6.regs pins.sda = false ∧
      shape t6.trace =
        shape s.trace ++
          [Ev.inp (gpio_get_config_reg pins.sda.port) 0, Ev.outp 0 (gpio_get_config_reg pins.sda.port),
            Ev.inp (gpio_get_config_reg pins.scl.port) 0, Ev.outp 0 (gpio_get_config_reg pins.scl.port),
            Ev.inp (gpio_get_input_reg pins.sda.port) 0, Ev.outp 0 (gpio_get_output_reg pins.sda.port),
            Ev.inp (gpio_get_input_reg pins.scl.port) 0, Ev.outp 0 (gpio_get_output_reg pins.scl.port),
            Ev.wait (sub16 pins.timeout kRawWriteSysTicks),
            Ev.inp (gpio_get_config_reg pins.scl.port) 0, Ev.outp 0 (gpio_get_config_reg pins.scl.port),
            Ev.wait (sub16 (2 * pins.timeout) kRawWriteSysTicks),
            Ev.inp (gpio_get_config_reg pins.sda.port) 0,
            Ev.outp 0 (gpio_get_config_reg pins.sda.port)] := by
  obtain ⟨hsda, hscl, hd⟩ := hp
  have hd2 := pins_distinct_symm hd
  have h2a : is_output (globalPin_set_dir E PinDir_Output pins.scl
      (globalPin_set_dir E PinDir_Output pins.sda s)).regs pins.sda = true := by
    rw [is_output_set_dir_other E _ _ _ _ hscl hsda hd2, is_output_set_dir_self E _ _ _ hsda]; rfl
  have h2b : is_output (globalPin_set_dir E PinDir_Output pins.scl
      (globalPin_set_dir E PinDir_Output pins.sda s)).regs pins.scl = true := by
    rw [is_output_set_dir_self E _ _ _ hscl]; rfl
  have h5a : is_output (globalPin_set_dir E PinDir_Input pins.scl
      (internal_busy_wait (sub16 pins.timeout kRawWriteSysTicks)
        (globalPin_write_raw E 0 pins.scl (globalPin_write_raw E 0 pins.sda
          (globalPin_set_dir E PinDir_Output pins.scl
            (globalPin_set_dir E PinDir_Output pins.sda s)))))).regs pins.sda = true := by
    rw [is_output_set_dir_other E _ _ _ _ hscl hsda hd2, regs_wait, is_output_write_raw,
      is_output_write_raw, h2a]
  obtain ⟨h6a, h6b⟩ := i2c_write_stop_dirs E pins s hsda hscl
  refine ⟨_, _, _, _, _, _, rfl, rfl, rfl, rfl, rfl, rfl, rfl, h2a, h2b, ?_, ?_, ?_, ?_, ?_, ?_,
    h5a, h6b, h6a, ?_⟩
  · exact out_level_write_raw_zero E _ _ hsda
  · rw [is_output_write_raw, is_output_write_raw, h2a]
  · rw [is_output_write_raw, is_output_write_raw, h2b]
  · exact out_level_write_raw_zero E _ _ hscl
  · rw [out_level_write_raw_zero_other E _ _ _ hscl hsda hd2]
    split
    · rfl
    · exact out_level_write_raw_zero E _ _ hsda
  · rw [is_output_set_dir_self E _ _ _ hscl]; rfl
  · simp only [shape_set_dir, shape_wait, shape_write_raw, List.append_assoc, List.cons_append,
      List.nil_append, sub16_u16]

theorem i2c_write_stop_ordering_witness :
    pins_ok i2cPins ∧
    ∃ t1 t2 t3 t4 t5 t6,
      t1 = globalPin_set_dir nackEnv PinDir_Output i2cPins.sda hwOutHigh ∧
      t2 = globalPin_set_dir nackEnv PinDir_Output i2cPins.scl t1 ∧
      t3 = globalPin_write_raw nackEnv 0 i2cPins.sda t2 ∧
      t4 = globalPin_write_raw nackEnv 0 i2cPins.scl t3 ∧
      t5 = globalPin_set_dir nackEnv PinDir_Input i2cPins.scl
        (internal_busy_wait (sub16 i2cPins.timeout kRawWriteSysTicks) t4) ∧
      t6 = globalPin_set_dir nackEnv PinDir_Input i2cPins.sda
        (internal_busy_wait (sub16 (2 * i2cPins.timeout) kRawWriteSysTicks) t5) ∧
      i2c_write_stop nackEnv i2cPins hwOutHigh = t6 ∧
      is_output t2.regs i2cPins.sda = true ∧ is_output t2.regs i2cPins.scl = true ∧
      out_level t3.regs i2cPins.sda = false ∧
      is_output t4.regs i2cPins.sda = true ∧ is_output t4.regs i2cPins.scl = true ∧
      out_level t4.regs i2cPins.scl = false ∧
      out_level t4.regs i2cPins.sda =
        (if i2cPins.sda.port = i2cPins.scl.port then decide (raw_level nackEnv i2cPins.sda t3.trace = 1)
         else false) ∧
      is_output t5.regs i2cPins.scl = false ∧ is_output t5.regs i2cPins.sda = true ∧
      is_output t6.regs i2cPins.scl = false ∧ is_output t6.regs i2cPins.sda = false ∧
      shape t6.trace =
        shape hwOutHigh.trace ++
          [Ev.inp (gpio_get_config_reg i2cPins.sda.port) 0, Ev.outp 0 (gpio_get_config_reg i2cPins.sda.port),
            Ev.inp (gpio_get_config_reg i2cPins.scl.port) 0, Ev.outp 0 (gpio_get_config_reg i2cPins.scl.port),
            Ev.inp (gpio_get_input_reg i2cPins.sda.port) 0, Ev.outp 0 (gpio_get_output_reg i2cPins.sda.port),
            Ev.inp (gpio_get_input_reg i2cPins.scl.port) 0, Ev.outp 0 (gpio_get_output_reg i2cPins.scl.port),
            Ev.wait (sub16 i2cPins.timeout kRawWriteSysTicks),
            Ev.inp (gpio_get_config_reg i2cPins.scl.port) 0, Ev.outp 0 (gpio_get_config_reg i2cPins.scl.port),
            Ev.wait (sub16 (2 * i2cPins.timeout) kRawWriteSysTicks),
            Ev.inp (gpio_get_config_reg i2cPins.sda.port) 0,
            Ev.outp 0 (gpio_get_config_reg i2cPins.sda.port)] :=
  ⟨i2cPins_ok, i2c_write_stop_ordering nackEnv i2cPins hwOutHigh i2cPins_ok⟩

/-- C23 (counterexample): with both pins on port A, the output register
holding 3 at entry and every read of the port returning 3, in none of the
four states of `i2c_write_stop` before its first busy-wait are both lines
Outputs driven low: the output bit of SDA is 1 after each switch to Output,
the write for SDA sets the output bit of SCL, and the write for SCL sets the
output bit of SDA again, so that SDA is an Output driven high when SCL is
released. -/
theorem i2c_write_stop_ordering_counterexample :
    ∃ t1 t2 t3 t4,
      t1 = globalPin_set_dir nackEnv PinDir_Output i2cPins.sda hwOutHigh ∧
      t2 = globalPin_set_dir nackEnv PinDir_Output i2cPins.scl t1 ∧
      t3 = globalPin_write_raw nackEnv 0 i2cPins.sda t2 ∧
      t4 = globalPin_write_raw nackEnv 0 i2cPins.scl t3 ∧
      i2c_write_stop nackEnv i2cPins hwOutHigh =
        globalPin_set_dir nackEnv PinDir_Input i2cPins.sda
          (internal_busy_wait (sub16 (2 * i2cPins.timeout) kRawWriteSysTicks)
            (globalPin_set_dir nackEnv PinDir_Input i2cPins.scl
              (internal_busy_wait (sub16 i2cPins.timeout kRawWriteSysTicks) t4))) ∧
      out_level t1.regs i2cPins.sda = true ∧ out_level t2.regs i2cPins.sda = true ∧
      out_level t3.regs i2cPins.scl = true ∧
      is_output t4.regs i2cPins.sda = true ∧ out_level t4.regs i2cPins.sda = true ∧
      line t4.regs i2cPins.sda = 2 ∧
      raw_writes i2cPins.sda (i2c_write_stop nackEnv i2cPins hwOutHigh).trace = [0, 1] :=
  ⟨_, _, _, _, rfl, rfl, rfl, rfl, rfl, by decide, by decide, by decide, by decide, by decide,
    by decide, by decide⟩

/-! ## Termination -/

theorem len_set_dir (E : Env) (d : GlobalPin_dir) (p : GlobalPin) (s : Hw) :
    (globalPin_set_dir E d p s).trace.length = s.trace.length + 2 := by
  rw [globalPin_set_dir_eq]; simp [_outp]

theorem len_write_raw (E : Env) (x : Nat) (p : GlobalPin) (s : Hw) :
    (globalPin_write_raw E x p s).trace.length = s.trace.length + 2 := by
  rw [globalPin_write_raw_eq]; simp [_outp]

theorem len_read_raw (E : Env) (p : GlobalPin) (s : Hw) :
    (globalPin_read_raw E p s).2.trace.length = s.trace.length + 1 := by
  rw [globalPin_read_raw_eq]; simp

theorem len_wait (n : Nat) (s : Hw) :
    (internal_busy_wait n s).trace.length = s.trace.length + 1 := by
  simp [internal_busy_wait]

theorem len_i2c_init (E : Env) (pins : I2C_Pin_Pair) (s : Hw) :
    (i2c_init E pins s).trace.length = s.trace.length + 4 := by
  simp only [i2c_init, len_set_dir]

theorem len_i2c_write_stop (E : Env) (pins : I2C_Pin_Pair) (s : Hw) :
    (i2c_write_stop E pins s).trace.length = s.trace.length + 14 := by
  simp only [i2c_write_stop, len_set_dir, len_write_raw, len_wait]

theorem len_i2c_write_start (E : Env) (fuel : Nat) (pins : I2C_Pin_Pair) (s : Hw)
    (hE : ∀ h, raw_level E pins.scl h = 1) (hf : 0 < fuel) :
    ∃ s2, i2c_write_start E fuel pins s = some s2 ∧ s2.trace.length = s.trace.length + 13 := by
  simp only [i2c_write_start, wait_until_high_of_high E pins.scl fuel _ hE hf,
    Option.bind_eq_bind, Option.some_bind]
  exact ⟨_, rfl, by simp only [len_set_dir, len_write_raw, len_wait, len_read_raw]⟩

theorem len_i2c_write_bit (E : Env) (w : Nat) (pins : I2C_Pin_Pair) (s : Hw) (i : Nat) :
    (i2c_write_bit E w pins s i).trace.length ≤ s.trace.length + 12 := by
  rw [i2c_write_bit_eq]
  simp only [len_set_dir, len_write_raw, len_wait]
  split
  · simp only [len_set_dir]; omega
  · simp only [len_set_dir, len_write_raw]; omega

theorem len_i2c_write_bits (E : Env) (w : Nat) (pins : I2C_Pin_Pair) (js : List Nat) :
    ∀ s, (js.foldl (i2c_write_bit E w pins) s).trace.length ≤ s.trace.length + 12 * js.length := by
  induction js with
  | nil => intro s; simp
  | cons j js ih =>
    intro s
    have h1 := ih (i2c_write_bit E w pins s j)
    have h2 := len_i2c_write_bit E w pins s j
    simp only [List.foldl_cons, List.length_cons]
    omega

theorem len_i2c_write_byte (E : Env) (fuel w : Nat) (pins : I2C_Pin_Pair) (s : Hw)
    (hE : ∀ h, raw_level E pins.scl h = 1) (hf : 0 < fuel) :
    ∃ r s2, i2c_write_byte E fuel w pins s = some (r, s2) ∧
      s2.trace.length ≤ s.trace.length + 110 := by
  refine ⟨_, _, i2c_write_byte_eq E fuel w pins s hE hf, ?_⟩
  have h := len_i2c_write_bits E w pins [7, 6, 5, 4, 3, 2, 1, 0] s
  simp only [len_set_dir, len_write_raw, len_wait, len_read_raw]
  simp only [List.length_cons, List.length_nil] at h
  omega

theorem len_i2c_read_bits (E : Env) (fuel : Nat) (pins : I2C_Pin_Pair)
    (hE : ∀ h, raw_level E pins.scl h = 1) (hf : 0 < fuel) (js : List Nat) :
    ∀ acc s, ∃ r s2, js.foldlM (i2c_read_bit E fuel pins) (acc, s) = some (r, s2) ∧
      s2.trace.length = s.trace.length + 10 * js.length := by
  induction js with
  | nil => intro acc s; exact ⟨acc, s, rfl, by simp⟩
  | cons j js ih =>
    intro acc s
    have e := i2c_read_bit_eq E fuel pins acc s j hE hf
    obtain ⟨r, s2, e2, h2⟩ := ih
      (u16 (acc + (acc + raw_level E pins.sda
        (internal_busy_wait (sub16 pins.timeout kRawReadSysTicks)
          (globalPin_read_raw E pins.scl
            (globalPin_set_dir E PinDir_Input pins.scl s)).2).trace)))
      (internal_busy_wait (sub16 pins.timeout kRawReadSysTicks)
        (globalPin_write_raw E 0 pins.scl
          (globalPin_set_dir E PinDir_Output pins.scl
            (globalPin_read_raw E pins.sda
              (internal_busy_wait (sub16 pins.timeout kRawReadSysTicks)
                (globalPin_read_raw E pins.scl
                  (globalPin_set_dir E PinDir_Input pins.scl s)).2)).2)))
    refine ⟨r, s2, ?_, ?_⟩
    · simp only [List.foldlM, e]
      exact e2
    · rw [h2]
      simp only [len_set_dir, len_write_raw, len_wait, len_read_raw, List.length_cons]
      omega

theorem len_i2c_read_byte (E : Env) (fuel nack : Nat) (pins : I2C_Pin_Pair) (s : Hw)
    (hE : ∀ h, raw_level E pins.scl h = 1) (hf : 0 < fuel) :
    ∃ r s2, i2c_read_byte E fuel nack pins s = some (r, s2) ∧
      s2.trace.length ≤ s.trace.length + 97 := by
  obtain ⟨r, s1, e, h⟩ := len_i2c_read_bits E fuel pins hE hf [7, 6, 5, 4, 3, 2, 1, 0] 0 s
  simp only [i2c_read_byte, e, wait_until_high_of_high E pins.scl fuel _ hE hf,
    Option.bind_eq_bind, Option.some_bind]
  refine ⟨_, _, rfl, ?_⟩
  simp only [len_set_dir, len_write_raw, len_wait, len_read_raw]
  simp only [List.length_cons, List.length_nil] at h
  split
  · simp only [len_set_dir]; omega
  · simp only [len_set_dir, len_write_raw]; omega

theorem len_write_seq (E : Env) (fuel : Nat) (pins : I2C_Pin_Pair)
    (hE : ∀ h, raw_level E pins.scl h = 1) (hf : 0 < fuel) (ws : List Nat) :
    ∀ t, ∃ ok t2, write_seq E fuel pins ws t = some (ok, t2) ∧
      t2.trace.length ≤ t.trace.length + 110 * ws.length := by
  induction ws with
  | nil => intro t; exact ⟨true, t, rfl, by simp⟩
  | cons w ws ih =>
    intro t
    obtain ⟨r, t1, e, h1⟩ := len_i2c_write_byte E fuel w pins t hE hf
    simp only [write_seq, e, List.length_cons]
    by_cases hr : r = 0
    · exact ⟨false, t1, by simp [hr], by omega⟩
    · obtain ⟨ok, t2, e2, h2⟩ := ih t1
      exact ⟨ok, t2, by simp [hr, e2], by omega⟩

theorem len_transact (E : Env) (fuel : Nat) (pins : I2C_Pin_Pair)
    (hE : ∀ h, raw_level E pins.scl h = 1) (hf : 0 < fuel) (ws : List Nat) (s : Hw) :
    ∃ r s2, transact E fuel pins ws s = some (r, s2) ∧
      s2.trace.length ≤ s.trace.length + 110 * ws.length + 27 := by
  obtain ⟨t1, e1, h1⟩ := len_i2c_write_start E fuel pins s hE hf
  obtain ⟨ok, t2, e2, h2⟩ := len_write_seq E fuel pins hE hf ws t1
  simp only [transact, e1, e2]
  cases ok
  · exact ⟨0, _, rfl, by rw [len_i2c_init]; omega⟩
  · exact ⟨1, _, rfl, by rw [len_i2c_write_stop]; omega⟩

theorem len_uart_write_bits (E : Env) (w : Nat) (pins : UART_Pin_Pair) (js : List Nat) :
    ∀ s, (js.foldl (uart_write_bit E w pins) s).trace.length = s.trace.length + 3 * js.length := by
  induction js with
  | nil => intro s; simp
  | cons j js ih =>
    intro s
    have h1 := ih (uart_write_bit E w pins s j)
    have h2 : (uart_write_bit E w pins s j).trace.length = s.trace.length + 3 := by
      rw [uart_write_bit_eq, len_wait]
      split <;> rw [len_write_raw]
    simp only [List.foldl_cons, List.length_cons]
    omega

theorem len_uart_write_byte (E : Env) (w : Nat) (pins : UART_Pin_Pair) (s : Hw) :
    (uart_write_byte E w pins s).trace.length = s.trace.length + 30 := by
  simp only [uart_write_byte, len_wait, len_write_raw, len_uart_write_bits, List.length_cons,
    List.length_nil]

/-- C27: termination outside the suspension points.  In every environment in
which SCL reads raw high at every poll, with fuel for one poll,
`i2c_write_start` returns after exactly 13 events (register reads, register
writes and busy-waits), `i2c_write_byte` after at most 110, `i2c_read_byte`
after at most 97, and `i2c_write_buf_to_register` with length `len` after at
most `110 * len + 247`.  `i2c_init`, `i2c_write_stop` and `uart_write_byte`
have no polling loop: they need no fuel and in every environment return after
exactly 4, 14 and 30 events. -/
theorem i2c_termination (E : Env) (fuel : Nat) (pins : I2C_Pin_Pair) (upins : UART_Pin_Pair)
    (s : Hw) (hE : ∀ h, raw_level E pins.scl h = 1) (hf : 0 < fuel) :
    (∃ s2, i2c_write_start E fuel pins s = some s2 ∧ s2.trace.length = s.trace.length + 13) ∧
    (∀ w, ∃ r s2, i2c_write_byte E fuel w pins s = some (r, s2) ∧
      s2.trace.length ≤ s.trace.length + 110) ∧
    (∀ nack, ∃ r s2, i2c_read_byte E fuel nack pins s = some (r, s2) ∧
      s2.trace.length ≤ s.trace.length + 97) ∧
    (∀ a r buf len, ∃ ret s2,
      i2c_write_buf_to_register E fuel a r buf len pins s = some (ret, s2) ∧
      s2.trace.length ≤ s.trace.length + (110 * len + 247)) ∧
    (∀ E2 : Env, (i2c_init E2 pins s).trace.length = s.trace.length + 4 ∧
      (i2c_write_stop E2 pins s).trace.length = s.trace.length + 14 ∧
      ∀ w, (uart_write_byte E2 w upins s).trace.length = s.trace.length + 30) := by
  refine ⟨len_i2c_write_start E fuel pins s hE hf, fun w => len_i2c_write_byte E fuel w pins s hE hf,
    fun nack => len_i2c_read_byte E fuel nack pins s hE hf, ?_, fun E2 =>
      ⟨len_i2c_init E2 pins s, len_i2c_write_stop E2 pins s,
        fun w => len_uart_write_byte E2 w upins s⟩⟩
  intro a r buf len
  obtain ⟨ret, s2, e, h⟩ := len_transact E fuel pins hE hf (a :: r :: (List.range' 0 len).map buf) s
  refine ⟨ret, s2, by rw [i2c_write_buf_to_register_eq, e], ?_⟩
  simp only [List.length_cons, List.length_map, List.length_range'] at h
  omega

theorem i2c_termination_witness :
    ((∀ h, raw_level ackEnv i2cPins.scl h = 1) ∧ 0 < 1) ∧
    ((∃ s2, i2c_write_start ackEnv 1 i2cPins hw0 = some s2 ∧
        s2.trace.length = hw0.trace.length + 13) ∧
    (∀ w, ∃ r s2, i2c_write_byte ackEnv 1 w i2cPins hw0 = some (r, s2) ∧
      s2.trace.length ≤ hw0.trace.length + 110) ∧
    (∀ nack, ∃ r s2, i2c_read_byte ackEnv 1 nack i2cPins hw0 = some (r, s2) ∧
      s2.trace.length ≤ hw0.trace.length + 97) ∧
    (∀ a r buf len, ∃ ret s2,
      i2c_write_buf_to_register ackEnv 1 a r buf len i2cPins hw0 = some (ret, s2) ∧
      s2.trace.length ≤ hw0.trace.length + (110 * len + 247)) ∧
    (∀ E2 : Env, (i2c_init E2 i2cPins hw0).trace.length = hw0.trace.length + 4 ∧
      (i2c_write_stop E2 i2cPins hw0).trace.length = hw0.trace.length + 14 ∧
      ∀ w, (uart_write_byte E2 w uartLoop hw0).trace.length = hw0.trace.length + 30)) :=
  ⟨⟨ackEnv_scl_high, by decide⟩,
    i2c_termination ackEnv 1 i2cPins uartLoop hw0 ackEnv_scl_high (by decide)⟩

/-! ## Open-drain emulation -/

theorem od_nil (E : Env) (pins : I2C_Pin_Pair) (s : Hw) : Od E pins s s :=
  ⟨[], rfl, rfl⟩

theorem od_append {E : Env} {pins : I2C_Pin_Pair} {s t u : Hw}
    (h1 : Od E pins s t) (h2 : Od E pins t u) : Od E pins s u := by
  obtain ⟨c1, e1, k1⟩ := h1
  obtain ⟨c2, e2, k2⟩ := h2
  refine ⟨c1 ++ c2, ?_, ?_⟩
  · rw [e2, e1]; simp [run_calls]
  · simp only [od_ok, decide_eq_true_eq] at k1 k2 ⊢
    rw [List.foldl_append, k1, k2]

theorem od_of_calls (E : Env) (pins : I2C_Pin_Pair) (cs : List Call) (h : od_ok cs = true)
    (s : Hw) : Od E pins s (run_calls E pins cs s) :=
  ⟨cs, rfl, h⟩

theorem od_wait_until_high (E : Env) (pins : I2C_Pin_Pair) (l : Line) (fuel : Nat) :
    ∀ s s2, wait_until_high E (pin_of pins l) fuel s = some s2 → Od E pins s s2 := by
  induction fuel with
  | zero => intro s s2 h; simp [wait_until_high] at h
  | succ n ih =>
    intro s s2 h
    have h1 : Od E pins s (globalPin_read_raw E (pin_of pins l) s).2 :=
      od_of_calls E pins [Call.sample l] rfl s
    simp only [wait_until_high] at h
    split at h
    · simp only [Option.some.injEq] at h
      rw [← h]; exact h1
    · exact od_append h1 (ih _ _ h)

theorem od_i2c_init (E : Env) (pins : I2C_Pin_Pair) (s : Hw) : Od E pins s (i2c_init E pins s) :=
  od_of_calls E pins [Call.dir PinDir_Input Line.scl, Call.dir PinDir_Input Line.sda]
    rfl s

theorem od_i2c_write_stop (E : Env) (pins : I2C_Pin_Pair) (s : Hw) :
    Od E pins s (i2c_write_stop E pins s) :=
  od_of_calls E pins
    [Call.dir PinDir_Output Line.sda, Call.dir PinDir_Output Line.scl, Call.low Line.sda,
      Call.low Line.scl, Call.pause (sub16 pins.timeout kRawWriteSysTicks),
      Call.dir PinDir_Input Line.scl, Call.pause (sub16 (2 * pins.timeout) kRawWriteSysTicks),
      Call.dir PinDir_Input Line.sda] rfl s

theorem od_i2c_write_start (E : Env) (fuel : Nat) (pins : I2C_Pin_Pair) (s s2 : Hw)
    (h : i2c_write_start E fuel pins s = some s2) : Od E pins s s2 := by
  unfold i2c_write_start at h
  cases hw : wait_until_high E pins.scl fuel s with
  | none => simp [hw] at h
  | some s1 =>
    simp only [hw, Option.bind_eq_bind, Option.some_bind, Option.some.injEq] at h
    rw [← h]
    exact od_append (od_wait_until_high E pins Line.scl fuel s s1 hw)
      (od_of_calls E pins
        [Call.dir PinDir_Output Line.sda, Call.low Line.sda,
          Call.pause (sub16 (2 * pins.timeout) kRawWriteSysTicks),
          Call.dir PinDir_Output Line.scl, Call.low Line.scl,
          Call.pause (sub16 pins.timeout kRawWriteSysTicks),
          Call.dir PinDir_Input Line.sda] rfl s1)

theorem od_i2c_write_bit (E : Env) (w : Nat) (pins : I2C_Pin_Pair) (s : Hw) (i : Nat) :
    Od E pins s (i2c_write_bit E w pins s i) := by
  rw [i2c_write_bit_eq]
  by_cases hb : bit_of w i = 1
  · rw [if_pos hb]
    exact od_of_calls E pins
      [Call.dir PinDir_Input Line.sda, Call.pause (sub16 pins.timeout kRawWriteSysTicks),
        Call.dir PinDir_Input Line.scl, Call.pause (sub16 (2 * pins.timeout) kRawWriteSysTicks),
        Call.dir PinDir_Output Line.scl, Call.low Line.scl] rfl s
  · rw [if_neg hb]
    exact od_of_calls E pins
      [Call.dir PinDir_Output Line.sda, Call.low Line.sda,
        Call.pause (sub16 pins.timeout kRawWriteSysTicks),
        Call.dir PinDir_Input Line.scl, Call.pause (sub16 (2 * pins.timeout) kRawWriteSysTicks),
        Call.dir PinDir_Output Line.scl, Call.low Line.scl] rfl s

theorem od_i2c_write_bits (E : Env) (w : Nat) (pins : I2C_Pin_Pair) (js : List Nat) :
    ∀ s, Od E pins s (js.foldl (i2c_write_bit E w pins) s) := by
  induction js with
  | nil => intro s; exact od_nil E pins s
  | cons j js ih =>
    intro s
    exact od_append (od_i2c_write_bit E w pins s j) (ih _)

theorem od_i2c_write_byte (E : Env) (fuel w : Nat) (pins : I2C_Pin_Pair) (s : Hw) (r : Nat)
    (s2 : Hw) (h : i2c_write_byte E fuel w pins s = some (r, s2)) : Od E pins s s2 := by
  cases hw : wait_until_high E pins.scl fuel
      (internal_busy_wait (sub16 pins.timeout kRawWriteSysTicks)
        (globalPin_set_dir E PinDir_Input pins.scl
          (internal_busy_wait (sub16 pins.timeout kRawWriteSysTicks)
            (globalPin_set_dir E PinDir_Input pins.sda
              ([7, 6, 5, 4, 3, 2, 1, 0].foldl (i2c_write_bit E w pins) s))))) with
  | none =>
    simp only [i2c_write_byte, hw] at h
    exact absurd h (by simp)
  | some s1 =>
    simp only [i2c_write_byte, hw, Option.bind_eq_bind, Option.some_bind, Option.some.injEq,
      Prod.mk.injEq] at h
    rw [← h.2]
    refine od_append (od_i2c_write_bits E w pins [7, 6, 5, 4, 3, 2, 1, 0] s) ?_
    refine od_append (od_of_calls E pins
      [Call.dir PinDir_Input Line.sda, Call.pause (sub16 pins.timeout kRawWriteSysTicks),
        Call.dir PinDir_Input Line.scl, Call.pause (sub16 pins.timeout kRawWriteSysTicks)]
      rfl _) ?_
    refine od_append (od_wait_until_high E pins Line.scl fuel _ s1 hw) ?_
    exact od_of_calls E pins
      [Call.sample Line.sda, Call.pause (sub16 pins.timeout kRawReadSysTicks),
        Call.dir PinDir_Output Line.scl, Call.low Line.scl,
        Call.pause (sub16 pins.timeout kRawWriteSysTicks)] rfl s1

theorem od_i2c_read_bit (E : Env) (fuel : Nat) (pins : I2C_Pin_Pair) (acc : Nat) (s : Hw)
    (i r : Nat) (s2 : Hw) (h : i2c_read_bit E fuel pins (acc, s) i = some (r, s2)) :
    Od E pins s s2 := by
  cases hw : wait_until_high E pins.scl fuel (globalPin_set_dir E PinDir_Input pins.scl s) with
  | none =>
    simp only [i2c_read_bit, hw] at h
    exact absurd h (by simp)
  | some s1 =>
    simp only [i2c_read_bit, hw, Option.bind_eq_bind, Option.some_bind, Option.some.injEq,
      Prod.mk.injEq] at h
    rw [← h.2]
    refine od_append (od_of_calls E pins [Call.dir PinDir_Input Line.scl] rfl s) ?_
    refine od_append (od_wait_until_high E pins Line.scl fuel _ s1 hw) ?_
    exact od_of_calls E pins
      [Call.pause (sub16 pins.timeout kRawReadSysTicks), Call.sample Line.sda,
        Call.dir PinDir_Output Line.scl, Call.low Line.scl,
        Call.pause (sub16 pins.timeout kRawReadSysTicks)] rfl s1

theorem od_i2c_read_bits (E : Env) (fuel : Nat) (pins : I2C_Pin_Pair) (js : List Nat) :
    ∀ acc s r s2, js.foldlM (i2c_read_bit E fuel pins) (acc, s) = some (r, s2) →
      Od E pins s s2 := by
  induction js with
  | nil =>
    intro acc s r s2 h
    simp only [List.foldlM, Option.pure_def, Option.some.injEq, Prod.mk.injEq] at h
    rw [← h.2]; exact od_nil E pins s
  | cons j js ih =>
    intro acc s r s2 h
    cases h1 : i2c_read_bit E fuel pins (acc, s) j with
    | none =>
      simp only [List.foldlM, h1] at h
      exact absurd h (by simp)
    | some x =>
      obtain ⟨a1, s1⟩ := x
      simp only [List.foldlM, h1, Option.bind_eq_bind, Option.some_bind] at h
      exact od_append (od_i2c_read_bit E fuel pins acc s j a1 s1 h1) (ih a1 s1 r s2 h)

theorem od_i2c_read_byte (E : Env) (fuel nack : Nat) (pins : I2C_Pin_Pair) (s : Hw) (r : Nat)
    (s2 : Hw) (h : i2c_read_byte E fuel nack pins s = some (r, s2)) : Od E pins s s2 := by
  cases h1 : [7, 6, 5, 4, 3, 2, 1, 0].foldlM (i2c_read_bit E fuel pins) (0, s) with
  | none =>
    simp only [i2c_read_byte, h1] at h
    exact absurd h (by simp)
  | some x =>
    obtain ⟨a1, s1⟩ := x
    have o1 := od_i2c_read_bits E fuel pins _ 0 s a1 s1 h1
    have o2 : Od E pins s1 (internal_busy_wait (sub16 pins.timeout kRawWriteSysTicks)
        (globalPin_set_dir E PinDir_Input pins.scl
          (internal_busy_wait (sub16 pins.timeout kRawWriteSysTicks)
            (if u16 nack ≠ 0 then globalPin_set_dir E PinDir_Input pins.sda s1
              else globalPin_write_raw E 0 pins.sda
                (globalPin_set_dir E PinDir_Output pins.sda s1))))) := by
      by_cases hn : u16 nack ≠ 0
      · rw [if_pos hn]
        exact od_of_calls E pins
          [Call.dir PinDir_Input Line.sda, Call.pause (sub16 pins.timeout kRawWriteSysTicks),
            Call.dir PinDir_Input Line.scl, Call.pause (sub16 pins.timeout kRawWriteSysTicks)]
          rfl s1
      · rw [if_neg hn]
        exact od_of_calls E pins
          [Call.dir PinDir_Output Line.sda, Call.low Line.sda,
            Call.pause (sub16 pins.timeout kRawWriteSysTicks),
            Call.dir PinDir_Input Line.scl, Call.pause (sub16 pins.timeout kRawWriteSysTicks)]
          rfl s1
    cases hw : wait_until_high E pins.scl fuel
        (internal_busy_wait (sub16 pins.timeout kRawWriteSysTicks)
          (globalPin_set_dir E PinDir_Input pins.scl
            (internal_busy_wait (sub16 pins.timeout kRawWriteSysTicks)
              (if u16 nack ≠ 0 then globalPin_set_dir E PinDir_Input pins.sda s1
                else globalPin_write_raw E 0 pins.sda
                  (globalPin_set_dir E PinDir_Output pins.sda s1))))) with
    | none =>
      simp only [i2c_read_byte, h1, Option.bind_eq_bind, Option.some_bind, hw] at h
      exact absurd h (by simp)
    | some s3 =>
      simp only [i2c_read_byte, h1, Option.bind_eq_bind, Option.some_bind, hw, Option.some.injEq,
        Prod.mk.injEq] at h
      rw [← h.2]
      refine od_append o1 (od_append o2 ?_)
      refine od_append (od_wait_until_high E pins Line.scl fuel _ s3 hw) ?_
      exact od_of_calls E pins
        [Call.pause (sub16 pins.timeout kRawWriteSysTicks), Call.dir PinDir_Output Line.scl,
          Call.low Line.scl, Call.pause (sub16 pins.timeout kRawWriteSysTicks),
          Call.dir PinDir_Input Line.sda] rfl s3

theorem od_write_seq (E : Env) (fuel : Nat) (pins : I2C_Pin_Pair) (ws : List Nat) :
    ∀ s ok s2, write_seq E fuel pins ws s = some (ok, s2) → Od E pins s s2 := by
  induction ws with
  | nil =>
    intro s ok s2 h
    simp only [write_seq, Option.some.injEq, Prod.mk.injEq] at h
    rw [← h.2]; exact od_nil E pins s
  | cons w ws ih =>
    intro s ok s2 h
    cases h1 : i2c_write_byte E fuel w pins s with
    | none => simp [write_seq, h1] at h
    | some x =>
      obtain ⟨a1, s1⟩ := x
      have o1 := od_i2c_write_byte E fuel w pins s a1 s1 h1
      simp only [write_seq, h1] at h
      by_cases ha : a1 = 0
      · simp only [ha, if_true, Option.some.injEq, Prod.mk.injEq] at h
        rw [← h.2]; exact o1
      · simp only [ha, if_false] at h
        exact od_append o1 (ih s1 ok s2 h)

theorem od_transact (E : Env) (fuel : Nat) (pins : I2C_Pin_Pair) (ws : List Nat) (s : Hw)
    (r : Nat) (s2 : Hw) (h : transact E fuel pins ws s = some (r, s2)) : Od E pins s s2 := by
  cases h1 : i2c_write_start E fuel pins s with
  | none => simp [transact, h1] at h
  | some s1 =>
    cases h2 : write_seq E fuel pins ws s1 with
    | none => simp [transact, h1, h2] at h
    | some x =>
      obtain ⟨ok, s3⟩ := x
      have o1 := od_i2c_write_start E fuel pins s s1 h1
      have o2 := od_write_seq E fuel pins ws s1 ok s3 h2
      simp only [transact, h1, h2] at h
      cases ok
      · simp only [Bool.false_eq_true, if_false, Option.some.injEq, Prod.mk.injEq] at h
        rw [← h.2]
        exact od_append o1 (od_append o2 (od_i2c_init E pins s3))
      · simp only [if_true, Option.some.injEq, Prod.mk.injEq] at h
        rw [← h.2]
        exact od_append o1 (od_append o2 (od_i2c_write_stop E pins s3))

/-- C25 (amended): open-drain emulation.  Every I2C operation is a sequence
of calls of four kinds only: a switch of direction of SDA or SCL, a
`globalPin_write_raw` of level 0 to SDA or SCL, a raw read, and a busy-wait;
there is no call that writes level 1.  In that sequence every switch of a
line to Output is followed by a raw-0 write to that same line before the next
busy-wait and before the operation returns.  This holds for the result each
operation produces on a bus whose clock is not stretched, and for every result
produced in any environment with any fuel.  A raw-0 write to a line reads the
port and writes back the word read with only the mask bit of that line
cleared, so the bit of the other line is written as it was read; no other
call writes an output register. -/
theorem i2c_open_drain (E : Env) (fuel : Nat) (pins : I2C_Pin_Pair) (s : Hw)
    (hE : ∀ h, raw_level E pins.scl h = 1) (hf : 0 < fuel) :
    Od E pins s (i2c_init E pins s) ∧ Od E pins s (i2c_write_stop E pins s) ∧
    (∃ s2, i2c_write_start E fuel pins s = some s2 ∧ Od E pins s s2) ∧
    (∀ w, ∃ r s2, i2c_write_byte E fuel w pins s = some (r, s2) ∧ Od E pins s s2) ∧
    (∀ nack, ∃ r s2, i2c_read_byte E fuel nack pins s = some (r, s2) ∧ Od E pins s s2) ∧
    (∀ a b, ∃ r s2, i2c_write_to_addr E fuel a b pins s = some (r, s2) ∧ Od E pins s s2) ∧
    (∀ a g b, ∃ r s2, i2c_write_to_register E fuel a g b pins s = some (r, s2) ∧
      Od E pins s s2) ∧
    (∀ a g buf len, ∃ r s2, i2c_write_buf_to_register E fuel a g buf len pins s = some (r, s2) ∧
      Od E pins s s2) ∧
    (∀ (E2 : Env) (fuel2 r : Nat) (s2 : Hw),
      Od E2 pins s (i2c_init E2 pins s) ∧ Od E2 pins s (i2c_write_stop E2 pins s) ∧
      (i2c_write_start E2 fuel2 pins s = some s2 → Od E2 pins s s2) ∧
      (∀ w, i2c_write_byte E2 fuel2 w pins s = some (r, s2) → Od E2 pins s s2) ∧
      (∀ nack, i2c_read_byte E2 fuel2 nack pins s = some (r, s2) → Od E2 pins s s2) ∧
      (∀ a b, i2c_write_to_addr E2 fuel2 a b pins s = some (r, s2) → Od E2 pins s s2) ∧
      (∀ a g b, i2c_write_to_register E2 fuel2 a g b pins s = some (r, s2) → Od E2 pins s s2) ∧
      (∀ a g buf len, i2c_write_buf_to_register E2 fuel2 a g buf len pins s = some (r, s2) →
        Od E2 pins s s2)) ∧
    (∀ (l : Line) (t : Hw), (run_call E pins t (Call.low l)).trace =
      t.trace ++ [Ev.inp (gpio_get_input_reg (pin_of pins l).port)
          (u16 (E t.trace (gpio_get_input_reg (pin_of pins l).port))),
        Ev.outp (u16 (E t.trace (gpio_get_input_reg (pin_of pins l).port)) &&&
            not16 (pin_of pins l).pin_bitmask)
          (gpio_get_output_reg (pin_of pins l).port)]) ∧
    (∀ (c : Call) (t : Hw) (q : GPIO_port_name),
      match c with
      | Call.low _ => True
      | _ => (run_call E pins t c).regs (gpio_get_output_reg q) =
          t.regs (gpio_get_output_reg q)) := by
  have gen : ∀ (E2 : Env) (fuel2 r : Nat) (s2 : Hw),
      Od E2 pins s (i2c_init E2 pins s) ∧ Od E2 pins s (i2c_write_stop E2 pins s) ∧
      (i2c_write_start E2 fuel2 pins s = some s2 → Od E2 pins s s2) ∧
      (∀ w, i2c_write_byte E2 fuel2 w pins s = some (r, s2) → Od E2 pins s s2) ∧
      (∀ nack, i2c_read_byte E2 fuel2 nack pins s = some (r, s2) → Od E2 pins s s2) ∧
      (∀ a b, i2c_write_to_addr E2 fuel2 a b pins s = some (r, s2) → Od E2 pins s s2) ∧
      (∀ a g b, i2c_write_to_register E2 fuel2 a g b pins s = some (r, s2) → Od E2 pins s s2) ∧
      (∀ a g buf len, i2c_write_buf_to_register E2 fuel2 a g buf len pins s = some (r, s2) →
        Od E2 pins s s2) := by
    intro E2 fuel2 r s2
    refine ⟨od_i2c_init E2 pins s, od_i2c_write_stop E2 pins s,
      od_i2c_write_start E2 fuel2 pins s s2, fun w => od_i2c_write_byte E2 fuel2 w pins s r s2,
      fun nack => od_i2c_read_byte E2 fuel2 nack pins s r s2, ?_, ?_, ?_⟩
    · intro a b h
      rw [i2c_write_to_addr_eq] at h
      exact od_transact E2 fuel2 pins _ s r s2 h
    · intro a g b h
      rw [i2c_write_to_register_eq] at h
      exact od_transact E2 fuel2 pins _ s r s2 h
    · intro a g buf len h
      rw [i2c_write_buf_to_register_eq] at h
      exact od_transact E2 fuel2 pins _ s r s2 h
  refine ⟨od_i2c_init E pins s, od_i2c_write_stop E pins s, ?_, ?_, ?_, ?_, ?_, ?_, gen, ?_, ?_⟩
  · obtain ⟨s2, e, _⟩ := len_i2c_write_start E fuel pins s hE hf
    exact ⟨s2, e, od_i2c_write_start E fuel pins s s2 e⟩
  · intro w
    obtain ⟨r, s2, e, _⟩ := len_i2c_write_byte E fuel w pins s hE hf
    exact ⟨r, s2, e, od_i2c_write_byte E fuel w pins s r s2 e⟩
  · intro nack
    obtain ⟨r, s2, e, _⟩ := len_i2c_read_byte E fuel nack pins s hE hf
    exact ⟨r, s2, e, od_i2c_read_byte E fuel nack pins s r s2 e⟩
  · intro a b
    obtain ⟨r, s2, e, _⟩ := len_transact E fuel pins hE hf [a, b] s
    rw [← i2c_write_to_addr_eq] at e
    exact ⟨r, s2, e, (gen E fuel r s2).2.2.2.2.2.1 a b e⟩
  · intro a g b
    obtain ⟨r, s2, e, _⟩ := len_transact E fuel pins hE hf [a, g, b] s
    rw [← i2c_write_to_register_eq] at e
    exact ⟨r, s2, e, (gen E fuel r s2).2.2.2.2.2.2.1 a g b e⟩
  · intro a g buf len
    obtain ⟨r, s2, e, _⟩ := len_transact E fuel pins hE hf
      (a :: g :: (List.range' 0 len).map buf) s
    rw [← i2c_write_buf_to_register_eq] at e
    exact ⟨r, s2, e, (gen E fuel r s2).2.2.2.2.2.2.2 a g buf len e⟩
  · intro l t
    simp only [run_call, globalPin_write_raw_eq, _outp, show u16 0 = 0 from rfl, ne_eq,
      not_true_eq_false, if_false, List.append_assoc, List.singleton_append]
    rw [u16_and_le _ _ (u16_lt _)]
  · intro c t q
    cases c with
    | dir d l =>
      simp only [run_call]
      rw [regs_set_dir, if_neg (config_reg_ne_output_reg _ _).symm]
    | low l => trivial
    | sample l => simp only [run_call, regs_read_raw]
    | pause n => rfl

theorem i2c_open_drain_witness :
    ((∀ h, raw_level ackEnv i2cPins.scl h = 1) ∧ 0 < 1) ∧
    (Od ackEnv i2cPins hw0 (i2c_init ackEnv i2cPins hw0) ∧ Od ackEnv i2cPins hw0 (i2c_write_stop ackEnv i2cPins hw0) ∧
    (∃ s2, i2c_write_start ackEnv 1 i2cPins hw0 = some s2 ∧ Od ackEnv i2cPins hw0 s2) ∧
    (∀ w, ∃ r s2, i2c_write_byte ackEnv 1 w i2cPins hw0 = some (r, s2) ∧ Od ackEnv i2cPins hw0 s2) ∧
    (∀ nack, ∃ r s2, i2c_read_byte ackEnv 1 nack i2cPins hw0 = some (r, s2) ∧ Od ackEnv i2cPins hw0 s2) ∧
    (∀ a b, ∃ r s2, i2c_write_to_addr ackEnv 1 a b i2cPins hw0 = some (r, s2) ∧ Od ackEnv i2cPins hw0 s2) ∧
    (∀ a g b, ∃ r s2, i2c_write_to_register ackEnv 1 a g b i2cPins hw0 = some (r, s2) ∧
      Od ackEnv i2cPins hw0 s2) ∧
    (∀ a g buf len, ∃ r s2, i2c_write_buf_to_register ackEnv 1 a g buf len i2cPins hw0 = some (r, s2) ∧
      Od ackEnv i2cPins hw0 s2) ∧
    (∀ (E2 : Env) (fuel2 r : Nat) (s2 : Hw),
      Od E2 i2cPins hw0 (i2c_init E2 i2cPins hw0) ∧ Od E2 i2cPins hw0 (i2c_write_stop E2 i2cPins hw0) ∧
      (i2c_write_start E2 fuel2 i2cPins hw0 = some s2 → Od E2 i2cPins hw0 s2) ∧
      (∀ w, i2c_write_byte E2 fuel2 w i2cPins hw0 = some (r, s2) → Od E2 i2cPins hw0 s2) ∧
      (∀ nack, i2c_read_byte E2 fuel2 nack i2cPins hw0 = some (r, s2) → Od E2 i2cPins hw0 s2) ∧
      (∀ a b, i2c_write_to_addr E2 fuel2 a b i2cPins hw0 = some (r, s2) → Od E2 i2cPins hw0 s2) ∧
      (∀ a g b, i2c_write_to_register E2 fuel2 a g b i2cPins hw0 = some (r, s2) → Od E2 i2cPins hw0 s2) ∧
      (∀ a g buf len, i2c_write_buf_to_register E2 fuel2 a g buf len i2cPins hw0 = some (r, s2) →
        Od E2 i2cPins hw0 s2)) ∧
    (∀ (l : Line) (t : Hw), (run_call ackEnv i2cPins t (Call.low l)).trace =
      t.trace ++ [Ev.inp (gpio_get_input_reg (pin_of i2cPins l).port)
          (u16 (ackEnv t.trace (gpio_get_input_reg (pin_of i2cPins l).port))),
        Ev.outp (u16 (ackEnv t.trace (gpio_get_input_reg (pin_of i2cPins l).port)) &&&
            not16 (pin_of i2cPins l).pin_bitmask)
          (gpio_get_output_reg (pin_of i2cPins l).port)]) ∧
    (∀ (c : Call) (t : Hw) (q : GPIO_port_name),
      match c with
      | Call.low _ => True
      | _ => (run_call ackEnv i2cPins t c).regs (gpio_get_output_reg q) =
          t.regs (gpio_get_output_reg q))) :=
  ⟨⟨ackEnv_scl_high, by decide⟩, i2c_open_drain ackEnv 1 i2cPins hw0 ackEnv_scl_high (by decide)⟩

/-- C25 (counterexample): with both pins on port A and every read of the port
returning 3 (both lines high), the raw-0 write to SCL in `i2c_write_stop`
writes the word 1 to the output register.  SDA, until then an Output driven
low, gets output bit 1: the line goes from driven low to driven high by a
write of the master, without being switched to Input. -/
theorem i2c_open_drain_counterexample :
    ∃ t3 t4,
      t3 = globalPin_write_raw nackEnv 0 i2cPins.sda
        (globalPin_set_dir nackEnv PinDir_Output i2cPins.scl
          (globalPin_set_dir nackEnv PinDir_Output i2cPins.sda hw0)) ∧
      t4 = globalPin_write_raw nackEnv 0 i2cPins.scl t3 ∧
      i2c_write_stop nackEnv i2cPins hw0 =
        globalPin_set_dir nackEnv PinDir_Input i2cPins.sda
          (internal_busy_wait (sub16 (2 * i2cPins.timeout) kRawWriteSysTicks)
            (globalPin_set_dir nackEnv PinDir_Input i2cPins.scl
              (internal_busy_wait (sub16 i2cPins.timeout kRawWriteSysTicks) t4))) ∧
      line t3.regs i2cPins.sda = 0 ∧ line t4.regs i2cPins.sda = 2 ∧
      t4.trace.drop t3.trace.length = [Ev.inp 0x20 3, Ev.outp 1 0x20] ∧
      raw_writes i2cPins.sda (i2c_write_stop nackEnv i2cPins hw0).trace = [0, 1] :=
  ⟨_, _, rfl, rfl, rfl, by decide, by decide, by decide, by decide⟩

end XInC2
